import Mathlib

/-! The CNF-formula core of ADDMC (`src/addmc/src/implementation/formula.cpp`).

A shallow embedding of the class `Cnf` (clause store, parser for the five
weight dialects, Gaifman graph and the variable-ordering heuristics) together
with the properties stated about it.

Conventions of the embedding:

* `Int` of the source (`int_fast64_t`) is `Int`, its arithmetic exact (the
  source computes `-declaredVarCount`, `declaredVarCount * 2 + 2`, `var * 2 + 1`
  and counters, none of which leaves 64 bits unless the header declares a
  count next to the limits of the type); `Float` (`long double`) is `ℚ`, so
  that weights are exact.
* The input of the parser is the list of its lines, each line the list of its
  whitespace-separated words (what `std::getline` and `istream_iterator` give).
* `vector<T>` is `List T`; `push_back` appends at the end.
* `Set<Int>` and `Map<Int, V>` (hash containers declared in `util.hpp`) are
  duplicate-free lists, iterated in insertion order.
* `showError` aborts: a fallible function returns `Option`, `none` being the abort.
* `showWarning` and the `print...` helpers do not change the state; the warnings
  of `checkLiteralWeights` are returned as a list.
-/

namespace Addmc

/-! ## Containers -/

/-- Modelled from the spec: `Set<Int>` of `util.hpp` (not under src/), a set of
integers; the model keeps the elements in a duplicate-free list, in insertion order. -/
abbrev IntSet := List Int

/-- Modelled from the spec: `Set::insert` (idempotent insertion). -/
def IntSet.insert (s : IntSet) (v : Int) : IntSet :=
  if v ∈ s then s else s ++ [v]

/-- Modelled from the spec: `Map<Int, V>` of `util.hpp` (not under src/), a finite
map with integer keys; the model keeps the entries in a list with distinct keys,
in insertion order. -/
abbrev Map (V : Type) := List (Int × V)

/-- The lookup `m.find(k)`: the value stored under `k`, if any. -/
def Map.find {V : Type} : Map V → Int → Option V
  | [], _ => none
  | (k', v) :: t, k => if k' = k then some v else Map.find t k

/-- The assignment `m[k] = v`: overwrites the value of an existing key and
adds the entry otherwise. -/
def Map.set {V : Type} : Map V → Int → V → Map V
  | [], k, v => [(k, v)]
  | (k', v') :: t, k, v => if k' = k then (k', v) :: t else (k', v') :: Map.set t k v

/-- The call `m.erase(k)`. -/
def Map.erase {V : Type} (m : Map V) (k : Int) : Map V :=
  m.filter (fun e => decide (e.1 ≠ k))

/-- The keys of a map, in iteration order. -/
def Map.keys {V : Type} (m : Map V) : List Int := m.map Prod.fst

/-! ## Constants and helpers declared outside `formula.cpp` -/

/-- Modelled from the spec: `DUMMY_MIN_INT` (declared in `util.hpp`, not under
src/), the sentinel "indicating none"; the least 64-bit integer. -/
def DUMMY_MIN_INT : Int := -9223372036854775808

/-- Modelled from the spec: `util::getCnfVar` (not under src/): the variable of
a literal "is its absolute value". -/
def getCnfVar (literal : Int) : Int := (literal.natAbs : Int)

/-! ## class Label -/

/-- A `Label` is a vector of integers. -/
abbrev Label := List Int

/-- Insertion of `x` into a list sorted in descending order. -/
def insertDesc (x : Int) : List Int → List Int
  | [] => [x]
  | y :: ys => if y < x then x :: y :: ys else y :: insertDesc x ys

/-- The call `std::sort(begin(), end(), std::greater<Int>())`. -/
def sortDesc (l : List Int) : List Int := l.foldr insertDesc []

/-- `Label::addNumber`. -/
def Label.addNumber (l : Label) (i : Int) : Label := sortDesc (l ++ [i])

/-- The comparison `a < b` of two labels: `std::vector`'s lexicographic
`operator<`, a strict prefix being smaller. -/
def Label.lt : Label → Label → Bool
  | _, [] => false
  | [], _ :: _ => true
  | a :: as, b :: bs => if a < b then true else if b < a then false else Label.lt as bs

/-! ## class Cnf: data -/

/-- The weight dialects. -/
inductive WeightFormat where
  | UNWEIGHTED
  | MINIC2D
  | CACHET
  | WCNF
  | WPCNF
  deriving DecidableEq, Repr

/-- The members of `Cnf`. `weightFormat` is `none` as long as no constructor
has set it. -/
structure Cnf where
  weightFormat : Option WeightFormat
  declaredVarCount : Int
  literalWeights : Map ℚ
  clauses : List (List Int)
  apparentVars : List Int
  additiveVars : IntSet
  deriving DecidableEq, Repr

/-- A `Cnf` object before its constructor body runs: empty containers;
`d0` is the initial value of `declaredVarCount`, which is declared in
`formula.hpp` (not under src/). -/
def Cnf.init (d0 : Int) : Cnf :=
  { weightFormat := none, declaredVarCount := d0, literalWeights := [],
    clauses := [], apparentVars := [], additiveVars := [] }

/-- `Cnf::updateApparentVars`. -/
def Cnf.updateApparentVars (f : Cnf) (literal : Int) : Cnf :=
  let var := getCnfVar literal
  if var ∈ f.apparentVars then f else { f with apparentVars := f.apparentVars ++ [var] }

/-- `Cnf::addClause`. -/
def Cnf.addClause (f : Cnf) (clause : List Int) : Cnf :=
  clause.foldl Cnf.updateApparentVars { f with clauses := f.clauses ++ [clause] }

/-- `Cnf::getAppearanceVarOrdering`. -/
def Cnf.getAppearanceVarOrdering (f : Cnf) : List Int := f.apparentVars

/-- One iteration of the outer loop of `Cnf::Cnf(clauses)`. -/
def Cnf.ofClausesStep (f : Cnf) (clause : List Int) : Cnf :=
  let f1 := f.addClause clause
  clause.foldl (fun g literal => { g with additiveVars := g.additiveVars.insert (getCnfVar literal) }) f1

/-- `Cnf::Cnf(const vector<vector<Int>> &clauses)`. -/
def Cnf.ofClauses (d0 : Int) (clauses : List (List Int)) : Cnf :=
  let f := clauses.foldl Cnf.ofClausesStep (Cnf.init d0)
  { f with declaredVarCount := (f.apparentVars.length : Int) }

/-! ## Specification-side definitions -/

/-- The list `l` with every occurrence after the first of each element removed. -/
def firstOccurrences : List Int → List Int
  | [] => []
  | x :: xs => x :: (firstOccurrences xs).filter (fun y => decide (y ≠ x))

/-- The absolute values of all literals of a clause list, clause by clause and
left to right. -/
def literalVars (cs : List (List Int)) : List Int := cs.flatten.map (fun l => (l.natAbs : Int))

/-! ## class Graph -/

/-- Modelled from the spec: class `Graph` (graph.hpp / graph.cpp, not under
src/), an "undirected simple graph over integer vertices"; the model keeps the
vertex set and every edge once, as a pair, in insertion order. -/
structure Graph where
  vertices : IntSet
  edges : List (Int × Int)
  deriving DecidableEq, Repr

/-- Modelled from the spec: `Graph::Graph(const Set<Int> &)`, "constructed from
a vertex set", without edges. -/
def Graph.ofVertices (vs : IntSet) : Graph := { vertices := vs, edges := [] }

/-- Modelled from the spec: `Graph::isNeighbor`, adjacency of two vertices
("adjacency is symmetric"). -/
def Graph.isNeighbor (g : Graph) (u v : Int) : Bool :=
  g.edges.any (fun e => decide ((e.1 = u ∧ e.2 = v) ∨ (e.1 = v ∧ e.2 = u)))

/-- Modelled from the spec: `Graph::addEdge`, "no-op if `u==v` or edge already
exists; fails silently if either endpoint is absent". -/
def Graph.addEdge (g : Graph) (u v : Int) : Graph :=
  if u = v ∨ g.isNeighbor u v = true ∨ u ∉ g.vertices ∨ v ∉ g.vertices then g
  else { g with edges := g.edges ++ [(u, v)] }

/-- Modelled from the spec: `Graph::removeVertex`, "removes `v` and every
incident edge". -/
def Graph.removeVertex (g : Graph) (v : Int) : Graph :=
  { vertices := g.vertices.filter (fun x => decide (x ≠ v)),
    edges := g.edges.filter (fun e => decide (e.1 ≠ v ∧ e.2 ≠ v)) }

/-- Modelled from the spec: `Graph::beginNeighbors` / `endNeighbors`, the
"vertices adjacent to `v`", in the model's iteration order. -/
def Graph.neighbors (g : Graph) (v : Int) : List Int :=
  g.edges.filterMap (fun e => if e.1 = v then some e.2 else if e.2 = v then some e.1 else none)

/-- One round of a breadth-first search: the set `s` with the neighbours of
its elements added. -/
def Graph.expand (g : Graph) (s : IntSet) : IntSet :=
  s.foldl (fun acc x => (g.neighbors x).foldl IntSet.insert acc) s

/-- Modelled from the spec: `Graph::hasPath`, "returns true iff an undirected
path exists in the current graph"; a breadth-first search of as many rounds as
the graph has vertices. -/
def Graph.hasPath (g : Graph) (u v : Int) : Bool :=
  decide (u ∈ g.vertices) && decide (v ∈ g.vertices) &&
    decide (v ∈ (g.expand)^[g.vertices.length] [u])

/-- The pairs `(x, y)` of a list with `x` strictly before `y`: the iteration
`for (i = begin; ...) for (j = std::next(i); ...)`. -/
def orderedPairs : List Int → List (Int × Int)
  | [] => []
  | x :: xs => xs.map (fun y => (x, y)) ++ orderedPairs xs

/-- Modelled from the spec: `Graph::getFillInEdgeCount`, the number of pairs of
neighbours of `v` that are not adjacent. -/
def Graph.getFillInEdgeCount (g : Graph) (v : Int) : Nat :=
  ((orderedPairs (g.neighbors v)).filter (fun p => !(g.isNeighbor p.1 p.2))).length

/-- The scan of `getMinfillVertex`: the best vertex so far is replaced only by
one with a strictly smaller count. -/
def Graph.minfillScan (g : Graph) : List Int → Option (Int × Nat) → Option (Int × Nat)
  | [], best => best
  | v :: vs, none => Graph.minfillScan g vs (some (v, g.getFillInEdgeCount v))
  | v :: vs, some (b, c) =>
    if g.getFillInEdgeCount v < c then Graph.minfillScan g vs (some (v, g.getFillInEdgeCount v))
    else Graph.minfillScan g vs (some (b, c))

/-- Modelled from the spec: `Graph::getMinfillVertex`, "the vertex whose
elimination would add the fewest fill-in edges", the first such in iteration
order; `none` (an abort) on a graph without vertices. -/
def Graph.getMinfillVertex (g : Graph) : Option Int :=
  (g.minfillScan g.vertices none).map Prod.fst

/-- Modelled from the spec: `Graph::fillInEdges`, "for every pair of distinct
neighbors of `v`, add the edge if absent". -/
def Graph.fillInEdges (g : Graph) (v : Int) : Graph :=
  (orderedPairs (g.neighbors v)).foldl (fun h p => h.addEdge p.1 p.2) g

/-! ## class Cnf: Gaifman graph and variable orderings -/

/-- The two inner loops of `Cnf::getGaifmanGraph` for one clause. -/
def addClauseEdges (graph : Graph) (clause : List Int) : Graph :=
  (orderedPairs clause).foldl (fun g p => g.addEdge (getCnfVar p.1) (getCnfVar p.2)) graph

/-- `Cnf::getGaifmanGraph`. -/
def Cnf.getGaifmanGraph (f : Cnf) : Graph :=
  let vars : IntSet := f.apparentVars.foldl IntSet.insert []
  let graph := Graph.ofVertices vars
  f.clauses.foldl addClauseEdges graph

/-- The loop of `getMcsVarOrdering` over the neighbours of `bestVertex`:
the count of each neighbour that is still unranked is incremented. -/
def mcsBump (counts : Map Int) (neighbors : List Int) : Map Int :=
  neighbors.foldl (fun m n => match m.find n with
    | some c => m.set n (c + 1)
    | none => m) counts

/-- The selection loop of `getMcsVarOrdering`: the pair
`(bestRankedNeighborCount, bestVertex)` after scanning the map. -/
def mcsSelect (counts : Map Int) (bestVertex : Int) : Int × Int :=
  counts.foldl (fun b entry => if entry.2 > b.1 then (entry.2, entry.1) else b)
    (DUMMY_MIN_INT, bestVertex)

/-- The `do ... while` loop of `Cnf::getMcsVarOrdering`; `fuel` bounds the
number of iterations, `none` means the bound was reached. -/
def mcsLoop (graph : Graph) : Nat → Map Int → Int → List Int → Option (List Int)
  | 0, _, _, _ => none
  | fuel + 1, rankedNeighborCounts, bestVertex, varOrdering =>
    let varOrdering1 := varOrdering ++ [bestVertex]
    let counts1 := rankedNeighborCounts.erase bestVertex
    let counts2 := mcsBump counts1 (graph.neighbors bestVertex)
    let best := mcsSelect counts2 bestVertex
    if best.1 ≠ DUMMY_MIN_INT then mcsLoop graph fuel counts2 best.2 varOrdering1
    else some varOrdering1

/-- `Cnf::getMcsVarOrdering`, the loop bounded by `fuel` iterations. -/
def Cnf.getMcsVarOrdering (fuel : Nat) (f : Cnf) : Option (List Int) :=
  let graph := f.getGaifmanGraph
  match graph.vertices with
  | [] => some []
  | startVertex :: rest =>
    let rankedNeighborCounts : Map Int := rest.foldl (fun m v => m.set v 0) []
    mcsLoop graph fuel rankedNeighborCounts startVertex []

/-- The call `max_element(m.begin(), m.end(), util::isLessValued<Int, Label>)`:
the first entry whose label is largest; `none` on an empty map, where the
source dereferences the end iterator. -/
def maxElement : Map Label → Option (Int × Label)
  | [] => none
  | e :: t => some (t.foldl (fun largest x => if Label.lt largest.2 x.2 then x else largest) e)

/-- The loop of `getLexpVarOrdering` over the neighbours of the selected vertex. -/
def lexpUpdate (unnumberedVertices : Map Label) (neighbors : List Int) (number : Int) : Map Label :=
  neighbors.foldl (fun m neighbor => match m.find neighbor with
    | some label => m.set neighbor (label.addNumber number)
    | none => m) unnumberedVertices

/-- The `for` loop of `Cnf::getLexpVarOrdering`, `number` counting down to 1. -/
def lexpLoop (graph : Graph) : Nat → Map Label → List Int → Option (List Int)
  | 0, _, numberedVertices => some numberedVertices
  | number + 1, unnumberedVertices, numberedVertices =>
    match maxElement unnumberedVertices with
    | none => none
    | some (vertex, _) =>
      let numbered1 := numberedVertices ++ [vertex]
      let unnumbered1 := unnumberedVertices.erase vertex
      let unnumbered2 := lexpUpdate unnumbered1 (graph.neighbors vertex) ((number : Int) + 1)
      lexpLoop graph number unnumbered2 numbered1

/-- The map `unnumberedVertices` at the start of LEX-P and LEX-M. -/
def initialLabels (apparentVars : List Int) : Map Label :=
  apparentVars.foldl (fun m vertex => m.set vertex []) []

/-- `Cnf::getLexpVarOrdering`. -/
def Cnf.getLexpVarOrdering (f : Cnf) : Option (List Int) :=
  lexpLoop f.getGaifmanGraph f.apparentVars.length (initialLabels f.apparentVars) []

/-- The first inner loop of LEX-M: removes the numbered vertices except `v`. -/
def lexmRemoveNumbered (subgraph : Graph) (numberedVertices : List Int) (v : Int) : Graph :=
  numberedVertices.foldl (fun g numberedVertex =>
    if numberedVertex ≠ v then g.removeVertex numberedVertex else g) subgraph

/-- The second inner loop of LEX-M: removes each unnumbered vertex other than
`w` whose label is not less than `wLabel`. -/
def lexmRemoveUnnumbered (subgraph : Graph) (unnumberedVertices : Map Label) (w : Int)
    (wLabel : Label) : Graph :=
  unnumberedVertices.foldl (fun g kv =>
    if kv.1 ≠ w ∧ Label.lt kv.2 wLabel = false then g.removeVertex kv.1 else g) subgraph

/-- The loop of `getLexmVarOrdering` over the unnumbered vertices `w`
(`ws` are the keys still to be visited); the subgraph and the labels are
threaded through the iterations. -/
def lexmInner (v : Int) (i : Int) (numberedVertices : List Int) :
    List Int → Graph → Map Label → Graph × Map Label
  | [], subgraph, unnumberedVertices => (subgraph, unnumberedVertices)
  | w :: ws, subgraph, unnumberedVertices =>
    let wLabel : Label := (unnumberedVertices.find w).getD []
    let subgraph1 := lexmRemoveNumbered subgraph numberedVertices v
    let subgraph2 := lexmRemoveUnnumbered subgraph1 unnumberedVertices w wLabel
    let unnumbered1 :=
      if subgraph2.hasPath v w = true then unnumberedVertices.set w (wLabel.addNumber i)
      else unnumberedVertices
    lexmInner v i numberedVertices ws subgraph2 unnumbered1

/-- The outer `for` loop of `Cnf::getLexmVarOrdering`, `i` counting down to 1. -/
def lexmLoop (f : Cnf) : Nat → Map Label → List Int → Option (List Int)
  | 0, _, numberedVertices => some numberedVertices
  | i + 1, unnumberedVertices, numberedVertices =>
    match maxElement unnumberedVertices with
    | none => none
    | some (v, _) =>
      let numbered1 := numberedVertices ++ [v]
      let unnumbered1 := unnumberedVertices.erase v
      let subgraph := f.getGaifmanGraph
      let r := lexmInner v ((i : Int) + 1) numbered1 unnumbered1.keys subgraph unnumbered1
      lexmLoop f i r.2 numbered1

/-- `Cnf::getLexmVarOrdering`. -/
def Cnf.getLexmVarOrdering (f : Cnf) : Option (List Int) :=
  lexmLoop f f.apparentVars.length (initialLabels f.apparentVars) []

/-- The `while` loop of `Cnf::getMinfillVarOrdering`; `fuel` bounds the number
of iterations (`none`: bound reached, or no min-fill vertex); the result is
the ordering together with the number of iterations executed. -/
def minfillLoop : Nat → Graph → List Int → Nat → Option (List Int × Nat)
  | 0, graph, varOrdering, iterations =>
    if graph.vertices = [] then some (varOrdering, iterations) else none
  | fuel + 1, graph, varOrdering, iterations =>
    if graph.vertices = [] then some (varOrdering, iterations)
    else match graph.getMinfillVertex with
      | none => none
      | some vertex =>
        minfillLoop fuel ((graph.fillInEdges vertex).removeVertex vertex)
          (varOrdering ++ [vertex]) (iterations + 1)

/-- `Cnf::getMinfillVarOrdering`, the loop bounded by `fuel` iterations; the
second component counts the iterations. -/
def Cnf.getMinfillVarOrdering (fuel : Nat) (f : Cnf) : Option (List Int × Nat) :=
  minfillLoop fuel f.getGaifmanGraph [] 0

/-- The values of `var` in `for (Int var = 1; var <= declaredVarCount; var++)`. -/
def varRange (declaredVarCount : Int) : List Int :=
  (List.range declaredVarCount.toNat).map (fun (k : Nat) => (k : Int) + 1)

/-- `Cnf::getDeclarationVarOrdering`: `apparentVars` after `std::sort`, which
sorts in ascending order. -/
def Cnf.getDeclarationVarOrdering (f : Cnf) : List Int :=
  f.apparentVars.insertionSort (fun a b => a ≤ b)

/-- `Cnf::getRandomVarOrdering`; the permutation applied by
`util::shuffleRandomly` (not under src/, drawn from a random generator) is the
parameter `shuffle`. -/
def Cnf.getRandomVarOrdering (shuffle : List Int → List Int) (f : Cnf) : List Int :=
  shuffle f.apparentVars

/-- Modelled from the spec: the enumeration `VarOrderingHeuristic` (declared
outside src/), "the variants APPEARANCE, DECLARATION, RANDOM, MCS, LEXP, LEXM,
MINFILL". -/
inductive VarOrderingHeuristic where
  | APPEARANCE
  | DECLARATION
  | RANDOM
  | MCS
  | LEXP
  | LEXM
  | MINFILL
  deriving DecidableEq, Repr

/-- `Cnf::getVarOrdering`; `util::invert` (not under src/) "reverses the
result". `fuel` bounds the loops of MCS and MIN-FILL; the `default` branch of
the `switch` is not reachable for a value of the enumeration. -/
def Cnf.getVarOrdering (shuffle : List Int → List Int) (fuel : Nat) (f : Cnf)
    (varOrderingHeuristic : VarOrderingHeuristic) (inverseVarOrdering : Bool) :
    Option (List Int) :=
  let varOrdering : Option (List Int) :=
    match varOrderingHeuristic with
    | VarOrderingHeuristic.APPEARANCE => some f.getAppearanceVarOrdering
    | VarOrderingHeuristic.DECLARATION => some f.getDeclarationVarOrdering
    | VarOrderingHeuristic.RANDOM => some (f.getRandomVarOrdering shuffle)
    | VarOrderingHeuristic.MCS => f.getMcsVarOrdering fuel
    | VarOrderingHeuristic.LEXP => f.getLexpVarOrdering
    | VarOrderingHeuristic.LEXM => f.getLexmVarOrdering
    | VarOrderingHeuristic.MINFILL => (f.getMinfillVarOrdering fuel).map Prod.fst
  varOrdering.map (fun l => if inverseVarOrdering then l.reverse else l)

/-- `Cnf::getRestrictedVarOrdering`. -/
def Cnf.getRestrictedVarOrdering (shuffle : List Int → List Int) (fuel : Nat) (f : Cnf)
    (varOrderingHeuristic : VarOrderingHeuristic) (inverseVarOrdering : Bool)
    (restrictedVars : IntSet) : Option (List Int) :=
  (f.getVarOrdering shuffle fuel varOrderingHeuristic inverseVarOrdering).map
    (fun l => l.foldl (fun restrictedVarOrdering var =>
      if var ∈ restrictedVars then restrictedVarOrdering ++ [var]
      else restrictedVarOrdering) [])

/-- `Cnf::getDisjunctiveVars`. -/
def Cnf.getDisjunctiveVars (f : Cnf) : IntSet :=
  (varRange f.declaredVarCount).foldl (fun disjunctiveVars var =>
    if var ∉ f.additiveVars then disjunctiveVars.insert var else disjunctiveVars) []

/-- The loop of `Cnf::getEmptyClauseIndex` from the index `clauseIndex` on. -/
def emptyClauseIndexFrom : List (List Int) → Int → Int
  | [], _ => DUMMY_MIN_INT
  | clause :: rest, clauseIndex =>
    if clause = [] then clauseIndex else emptyClauseIndexFrom rest (clauseIndex + 1)

/-- `Cnf::getEmptyClauseIndex`. -/
def Cnf.getEmptyClauseIndex (f : Cnf) : Int := emptyClauseIndexFrom f.clauses 0

/-! ## class Cnf: the parsing constructor -/

/-- The two conversions of the C++ standard library used by the parser:
`std::stoll` and `std::stold`, `none` standing for a thrown exception.
They are parameters of the parser. -/
structure NumReader where
  stoll : String → Option Int
  stold : String → Option ℚ

/-- Modelled from the spec: `PROBLEM_WORD` (declared outside src/), the leading
token `p` of the problem header. -/
def PROBLEM_WORD : String := "p"

/-- The constant `WEIGHTS_WORD`. -/
def WEIGHTS_WORD : String := "weights"

/-- The constant `WEIGHT_WORD`. -/
def WEIGHT_WORD : String := "w"

/-- The constant `LINE_END_WORD`. -/
def LINE_END_WORD : String := "0"

/-- The constructor's local variables together with the object under construction. -/
structure ParseState where
  cnf : Cnf
  declaredClauseCount : Int
  processedClauseCount : Int
  lineIndex : Int
  problemLineIndex : Int
  minic2dWeightsLineIndex : Int
  deriving DecidableEq, Repr

/-- The state before the first line is read. -/
def ParseState.init (d0 : Int) (weightFormat : WeightFormat) : ParseState :=
  { cnf := { Cnf.init d0 with weightFormat := some weightFormat },
    declaredClauseCount := DUMMY_MIN_INT, processedClauseCount := 0,
    lineIndex := 0, problemLineIndex := DUMMY_MIN_INT,
    minic2dWeightsLineIndex := DUMMY_MIN_INT }

/-- The branch `startWord == PROBLEM_WORD`. -/
def problemLine (rd : NumReader) (st : ParseState) (words : List String) : Option ParseState :=
  if st.problemLineIndex ≠ DUMMY_MIN_INT then none
  else if words.length ≠ 4 then none
  else
    match words[2]?, words[3]? with
    | some w2, some w3 =>
      match rd.stoll w2, rd.stoll w3 with
      | some n, some m =>
        some { st with problemLineIndex := st.lineIndex,
                       cnf := { st.cnf with declaredVarCount := n },
                       declaredClauseCount := m }
      | _, _ => none
    | _, _ => none

/-- The loop of the `vp` branch over `words[1..]`; `ws` are the words still to
be read, so that `i != wordCount - 1` is `ws ≠ []` after taking the head. -/
def vpLoop (rd : NumReader) (declaredVarCount : Int) : List String → IntSet → Option IntSet
  | [], additiveVars => some additiveVars
  | w :: ws, additiveVars =>
    match rd.stoll w with
    | none => none
    | some num =>
      if num < 0 ∨ num > declaredVarCount then none
      else if num = 0 then
        if ws ≠ [] then none else vpLoop rd declaredVarCount ws additiveVars
      else vpLoop rd declaredVarCount ws (additiveVars.insert num)

/-- The branch `startWord == "vp"`. -/
def vpLine (rd : NumReader) (weightFormat : WeightFormat) (st : ParseState)
    (words : List String) : Option ParseState :=
  if weightFormat = WeightFormat.WPCNF then
    match vpLoop rd st.cnf.declaredVarCount words.tail st.cnf.additiveVars with
    | none => none
    | some s => some { st with cnf := { st.cnf with additiveVars := s } }
  else some st

/-- The loop of the MINIC2D weights line over `var = 1 .. declaredVarCount`. -/
def minic2dLoop (rd : NumReader) (words : List String) : List Int → Map ℚ → Option (Map ℚ)
  | [], literalWeights => some literalWeights
  | var :: vars, literalWeights =>
    match words[(var * 2).toNat]? with
    | none => none
    | some wp =>
      match rd.stold wp with
      | none => none
      | some p =>
        match words[(var * 2 + 1).toNat]? with
        | none => none
        | some wn =>
          match rd.stold wn with
          | none => none
          | some q => minic2dLoop rd words vars ((literalWeights.set var p).set (-var) q)

/-- The branch `startWord == "c"`. -/
def commentLine (rd : NumReader) (weightFormat : WeightFormat) (st : ParseState)
    (words : List String) : Option ParseState :=
  if weightFormat = WeightFormat.MINIC2D ∧ words.length > 1 ∧ words[1]? = some WEIGHTS_WORD then
    if st.problemLineIndex = DUMMY_MIN_INT then none
    else if st.minic2dWeightsLineIndex ≠ DUMMY_MIN_INT then none
    else if (words.length : Int) ≠ 2 + st.cnf.declaredVarCount * 2 then none
    else
      match minic2dLoop rd words (varRange st.cnf.declaredVarCount) st.cnf.literalWeights with
      | none => none
      | some lw =>
        some { st with minic2dWeightsLineIndex := st.lineIndex,
                       cnf := { st.cnf with literalWeights := lw } }
  else some st

/-- The branch `startWord == WEIGHT_WORD`. -/
def weightLine (rd : NumReader) (weightFormat : WeightFormat) (st : ParseState)
    (words : List String) : Option ParseState :=
  if st.problemLineIndex = DUMMY_MIN_INT then none
  else if weightFormat = WeightFormat.CACHET ∧
      (words.length = 3 ∨ (words.length = 4 ∧ words[3]? = some LINE_END_WORD)) then
    match words[1]?, words[2]? with
    | some w1, some w2 =>
      match rd.stoll w1 with
      | none => none
      | some var =>
        if var ≤ 0 ∨ var > st.cnf.declaredVarCount then none
        else
          match rd.stold w2 with
          | none => none
          | some weight =>
            some { st with cnf := { st.cnf with literalWeights := st.cnf.literalWeights.set var weight } }
    | _, _ => none
  else if (weightFormat = WeightFormat.WCNF ∨ weightFormat = WeightFormat.WPCNF) ∧
      (words.length = 3 ∨ (words.length = 4 ∧ words[3]? = some LINE_END_WORD)) then
    match words[1]?, words[2]? with
    | some w1, some w2 =>
      match rd.stoll w1 with
      | none => none
      | some literal =>
        if getCnfVar literal ≤ 0 ∨ getCnfVar literal > st.cnf.declaredVarCount then none
        else
          match rd.stold w2 with
          | none => none
          | some weight =>
            some { st with cnf := { st.cnf with literalWeights := st.cnf.literalWeights.set literal weight } }
    | _, _ => none
  else none

/-- The loop of the clause branch over the words of the line; `ws` are the
words still to be read, so that `i == wordCount - 1` is `ws = []` after taking
the head. -/
def clauseLoop (rd : NumReader) : List String → List Int → ParseState → Option ParseState
  | [], _, st => some st
  | w :: ws, clause, st =>
    match rd.stoll w with
    | none => none
    | some num =>
      if num > st.cnf.declaredVarCount ∨ num < -st.cnf.declaredVarCount then none
      else if num = 0 then
        if ws ≠ [] then none
        else clauseLoop rd ws clause
          { st with cnf := st.cnf.addClause clause,
                    processedClauseCount := st.processedClauseCount + 1 }
      else
        if ws = [] then none
        else clauseLoop rd ws (clause ++ [num]) st

/-- The clause branch. -/
def clauseLine (rd : NumReader) (st : ParseState) (words : List String) : Option ParseState :=
  if st.problemLineIndex = DUMMY_MIN_INT then none
  else clauseLoop rd words [] st

/-- The body of the `while (std::getline(...))` loop for one line, given as the
list of its whitespace-separated words. -/
def processLine (rd : NumReader) (weightFormat : WeightFormat) (st : ParseState)
    (words : List String) : Option ParseState :=
  let st1 := { st with lineIndex := st.lineIndex + 1 }
  match words with
  | [] => some st1
  | startWord :: _ =>
    if startWord = PROBLEM_WORD then problemLine rd st1 words
    else if startWord = "vp" then vpLine rd weightFormat st1 words
    else if startWord = "c" then commentLine rd weightFormat st1 words
    else if startWord = WEIGHT_WORD then weightLine rd weightFormat st1 words
    else clauseLine rd st1 words

/-- The `while (std::getline(...))` loop over the lines of the input. -/
def parseLines (rd : NumReader) (weightFormat : WeightFormat) :
    ParseState → List (List String) → Option ParseState
  | st, [] => some st
  | st, words :: rest =>
    match processLine rd weightFormat st words with
    | none => none
    | some st1 => parseLines rd weightFormat st1 rest

/-- The completion of `literalWeights` for CACHET, one variable. -/
def cachetComplete (literalWeights : Map ℚ) (var : Int) : Map ℚ :=
  let varWeight : ℚ := match literalWeights.find var with
    | some p => p
    | none => 1 / 2
  let negativeLiteralWeight : ℚ := 1 - varWeight
  if varWeight = -1 then (literalWeights.set var 1).set (-var) 1
  else (literalWeights.set var varWeight).set (-var) negativeLiteralWeight

/-- The completion of `literalWeights` for WCNF and WPCNF, one variable. -/
def defaultComplete (literalWeights : Map ℚ) (var : Int) : Map ℚ :=
  let lw1 := if literalWeights.find var = none then literalWeights.set var 1 else literalWeights
  if lw1.find (-var) = none then lw1.set (-var) 1 else lw1

/-- The `switch (weightFormat)` after the loop. -/
def completeWeights (weightFormat : WeightFormat) (st : ParseState) : Option (Map ℚ) :=
  match weightFormat with
  | WeightFormat.MINIC2D =>
    if st.minic2dWeightsLineIndex = DUMMY_MIN_INT then none else some st.cnf.literalWeights
  | WeightFormat.UNWEIGHTED =>
    some ((varRange st.cnf.declaredVarCount).foldl (fun lw var => (lw.set var 1).set (-var) 1)
      st.cnf.literalWeights)
  | WeightFormat.CACHET =>
    some ((varRange st.cnf.declaredVarCount).foldl cachetComplete st.cnf.literalWeights)
  | _ =>
    some ((varRange st.cnf.declaredVarCount).foldl defaultComplete st.cnf.literalWeights)

/-- `Cnf::checkLiteralWeights`: the literals for which a warning is shown, in
order; `none` when `literalWeights.at(lit)` throws. -/
def checkLiteralWeightsLoop (literalWeights : Map ℚ) : List Int → Option (List Int)
  | [] => some []
  | lit :: lits =>
    match literalWeights.find lit with
    | none => none
    | some weight =>
      match checkLiteralWeightsLoop literalWeights lits with
      | none => none
      | some warned => some (if weight ≤ 0 then lit :: warned else warned)

/-- `Cnf::checkLiteralWeights`. -/
def Cnf.checkLiteralWeights (f : Cnf) : Option (List Int) :=
  checkLiteralWeightsLoop f.literalWeights
    ((varRange f.declaredVarCount).flatMap (fun var => [var, -var]))

/-- The part of the constructor after the loop. -/
def finalize (weightFormat : WeightFormat) (st : ParseState) : Option (Cnf × List Int) :=
  if st.problemLineIndex = DUMMY_MIN_INT then none
  else
    let additiveVars1 :=
      if weightFormat ≠ WeightFormat.WPCNF then
        (varRange st.cnf.declaredVarCount).foldl IntSet.insert st.cnf.additiveVars
      else st.cnf.additiveVars
    match completeWeights weightFormat st with
    | none => none
    | some lw =>
      let f : Cnf := { st.cnf with additiveVars := additiveVars1, literalWeights := lw }
      match f.checkLiteralWeights with
      | none => none
      | some warned => some (f, warned)

/-- `Cnf::Cnf(const string &filePath, WeightFormat weightFormat)` on an input
given as the list of its lines, each line as the list of its words: the parsed
formula and the literals warned about, or `none` when the constructor aborts. -/
def Cnf.parse (rd : NumReader) (d0 : Int) (weightFormat : WeightFormat)
    (lines : List (List String)) : Option (Cnf × List Int) :=
  match parseLines rd weightFormat (ParseState.init d0 weightFormat) lines with
  | none => none
  | some st => finalize weightFormat st

/-! ## A reader of plain decimal numerals -/

/-- The value of a decimal digit. -/
def digitValue (c : Char) : Option Nat :=
  if 48 ≤ c.toNat ∧ c.toNat ≤ 57 then some (c.toNat - 48) else none

/-- The value of a nonempty string of decimal digits, `acc` being the value
read so far. -/
def readDigits : List Char → Nat → Option Nat
  | [], acc => some acc
  | c :: cs, acc =>
    match digitValue c with
    | none => none
    | some d => readDigits cs (acc * 10 + d)

/-- An unsigned numeral: digits only, at least one. -/
def readNat (cs : List Char) : Option Nat :=
  if cs = [] then none else readDigits cs 0

/-- A signed integer numeral such as `12` or `-3`. -/
def readInt : List Char → Option Int
  | '-' :: cs => (readNat cs).map (fun n => -(n : Int))
  | cs => (readNat cs).map (fun n => (n : Int))

/-- A signed decimal numeral such as `-1`, `0.3` or `2.50`. -/
def readDecimal (cs : List Char) : Option ℚ :=
  let neg := cs.head? = some '-'
  let body := if neg then cs.tail else cs
  let intPart := body.takeWhile (fun c => c ≠ '.')
  let rest := body.dropWhile (fun c => c ≠ '.')
  match readNat intPart with
  | none => none
  | some a =>
    let frac := rest.tail
    let r : Option ℚ :=
      if rest = [] then some (a : ℚ)
      else (readNat frac).map (fun b => (a : ℚ) + (b : ℚ) / (10 ^ frac.length : ℚ))
    r.map (fun x => if neg then -x else x)

/-- The reader used to evaluate the parser on concrete inputs: it agrees with
`std::stoll` and `std::stold` on plain decimal numerals. -/
def decimalReader : NumReader :=
  { stoll := fun s => readInt s.toList, stold := fun s => readDecimal s.toList }

/-! ## Predicates used in the statements -/

/-- No edge of the graph joins a vertex to itself. -/
def Graph.Loopless (g : Graph) : Prop := ∀ e ∈ g.edges, e.1 ≠ e.2

/-- A formula whose `apparentVars` contains the variable of every literal of
its clauses, without repetition: what `addClause` maintains. -/
def Cnf.VarsRecorded (f : Cnf) : Prop :=
  f.apparentVars.Nodup ∧ ∀ c ∈ f.clauses, ∀ l ∈ c, getCnfVar l ∈ f.apparentVars

/-- The condition under which a clause line with the integer tokens `ts` is
accepted when `n` variables are declared: the last token is `0`, no earlier
token is `0`, and every token has absolute value at most `n`. -/
def ClauseTokensOk (n : Int) (ts : List Int) : Prop :=
  ts.getLast? = some 0 ∧ (∀ t ∈ ts.dropLast, t ≠ 0) ∧ ∀ t ∈ ts, (t.natAbs : Int) ≤ n

/-- What the parsing loop maintains, for the dialect `wf`. -/
structure ParseInv (wf : WeightFormat) (st : ParseState) : Prop where
  lineIndex_nonneg : 0 ≤ st.lineIndex
  before_header : st.problemLineIndex = DUMMY_MIN_INT →
    st.cnf.clauses = [] ∧ st.cnf.apparentVars = [] ∧ st.cnf.literalWeights = [] ∧
      st.minic2dWeightsLineIndex = DUMMY_MIN_INT
  apparent_nodup : st.cnf.apparentVars.Nodup
  apparent_range : ∀ x ∈ st.cnf.apparentVars, 1 ≤ x ∧ x ≤ st.cnf.declaredVarCount
  clause_vars : ∀ c ∈ st.cnf.clauses, ∀ l ∈ c, l ≠ 0 ∧ getCnfVar l ∈ st.cnf.apparentVars
  apparent_first : st.cnf.apparentVars = firstOccurrences (literalVars st.cnf.clauses)
  minic2d_total : wf = WeightFormat.MINIC2D → st.minic2dWeightsLineIndex ≠ DUMMY_MIN_INT →
    ∀ v, 1 ≤ v → v ≤ st.cnf.declaredVarCount →
      (st.cnf.literalWeights.find v).isSome = true ∧
      (st.cnf.literalWeights.find (-v)).isSome = true

/-- The weight `p` that a line gives to the variable `v` when it is a line
`w v p`; `none` for any other line. -/
def cachetLineWeight (rd : NumReader) (v : Int) (words : List String) : Option ℚ :=
  match words with
  | w :: a :: b :: _ => if w = WEIGHT_WORD ∧ rd.stoll a = some v then rd.stold b else none
  | _ => none

/-- The weight of the last line `w v p` for the variable `v`, if there is one. -/
def lastCachetWeight (rd : NumReader) (lines : List (List String)) (v : Int) : Option ℚ :=
  lines.reverse.findSome? (cachetLineWeight rd v)

/-- A completion step that only touches the two literals of its variable. -/
def FrameStep (step : Map ℚ → Int → Map ℚ) : Prop :=
  ∀ lw x k, k ≠ x → k ≠ -x → (step lw x).find k = lw.find k

/-- The graph `G` is the Gaifman graph of the formula `f`: its vertices are
the apparent variables, each once; two different variables are adjacent
exactly when some clause has a literal of each; adjacency is symmetric, is
what `neighbors` lists, and no vertex is adjacent to itself. -/
def IsGaifmanGraphOf (f : Cnf) (G : Graph) : Prop :=
  (∀ x, x ∈ G.vertices ↔ x ∈ f.apparentVars) ∧
  G.vertices.Nodup ∧
  (∀ u v, u ≠ v →
    (G.isNeighbor u v = true ↔
      ∃ c ∈ f.clauses, (∃ l ∈ c, getCnfVar l = u) ∧ (∃ l ∈ c, getCnfVar l = v))) ∧
  (∀ u v, G.isNeighbor u v = G.isNeighbor v u) ∧
  (∀ u v, G.isNeighbor u v = true ↔ v ∈ G.neighbors u) ∧
  (∀ u, G.isNeighbor u u = false)

/-- The heuristic returned a list (`r` is not the abort `none`) in which every
apparent variable of `f` occurs exactly once and nothing else occurs. -/
def IsOrderingOf (f : Cnf) (r : Option (List Int)) : Prop :=
  ∃ l, r = some l ∧ l.Perm f.apparentVars ∧ l.Nodup

/-- The nonzero numbers listed on a line when it is a `vp` line; nothing for
any other line. -/
def vpLineNumbers (rd : NumReader) (words : List String) : List Int :=
  match words with
  | [] => []
  | w :: ws => if w = "vp" then (ws.filterMap rd.stoll).filter (fun x => decide (x ≠ 0)) else []

/-- The nonzero numbers listed on the `vp` lines of an input. -/
def vpNumbers (rd : NumReader) (lines : List (List String)) : List Int :=
  lines.flatMap (vpLineNumbers rd)

/-- The line is not a `vp` line. -/
def notVpLine (words : List String) : Bool := decide (words.head? ≠ some "vp")

/-- Two states of the constructor that differ at most in the line counter and
in the recorded indices of the header line and of the MINIC2D weights line,
each recorded in both or in neither. -/
def SameUpToIndex (st st2 : ParseState) : Prop :=
  st.cnf = st2.cnf ∧ st.declaredClauseCount = st2.declaredClauseCount ∧
  st.processedClauseCount = st2.processedClauseCount ∧
  (st.problemLineIndex = DUMMY_MIN_INT ↔ st2.problemLineIndex = DUMMY_MIN_INT) ∧
  (st.minic2dWeightsLineIndex = DUMMY_MIN_INT ↔ st2.minic2dWeightsLineIndex = DUMMY_MIN_INT) ∧
  0 ≤ st.lineIndex ∧ 0 ≤ st2.lineIndex

/-- Two outcomes of a part of the constructor: both abort, or both give a
state, the two states being the same up to the indices. -/
def OptSame : Option ParseState → Option ParseState → Prop
  | none, none => True
  | some st, some st2 => SameUpToIndex st st2
  | _, _ => False

/-- What the parsing loop maintains about `additiveVars`, for the dialect `wf`,
the initial value `d0` of `declaredVarCount` and the lines `processed` so far. -/
structure AdditiveInv (rd : NumReader) (d0 : Int) (wf : WeightFormat)
    (processed : List (List String)) (st : ParseState) : Prop where
  line_nonneg : 0 ≤ st.lineIndex
  count_before_header : st.problemLineIndex = DUMMY_MIN_INT → st.cnf.declaredVarCount = d0
  add_range : ∀ x ∈ st.cnf.additiveVars, 1 ≤ x ∧ x ≤ st.cnf.declaredVarCount
  add_nodup : st.cnf.additiveVars.Nodup
  add_other : wf ≠ WeightFormat.WPCNF → st.cnf.additiveVars = []
  add_vp : wf = WeightFormat.WPCNF →
    ∀ x, x ∈ st.cnf.additiveVars ↔ x ∈ vpNumbers rd processed

/-- Following the spec: the subgraph queried for `w` in LEX-M, rebuilt from the
Gaifman graph `G`: the subgraph induced by `v`, `w` and the other unnumbered
vertices whose label is strictly less than the label of `w`. -/
def lexmSubgraphSpec (G : Graph) (v w : Int) (unnumberedVertices : Map Label)
    (wLabel : Label) : Graph :=
  { vertices := G.vertices.filter (fun x =>
      decide (x = v) || decide (x = w) ||
        unnumberedVertices.any (fun kv => decide (kv.1 = x) && Label.lt kv.2 wLabel)),
    edges := G.edges.filter (fun e =>
      (decide (e.1 = v) || decide (e.1 = w) ||
        unnumberedVertices.any (fun kv => decide (kv.1 = e.1) && Label.lt kv.2 wLabel)) &&
      (decide (e.2 = v) || decide (e.2 = w) ||
        unnumberedVertices.any (fun kv => decide (kv.1 = e.2) && Label.lt kv.2 wLabel))) }

/-- Following the spec: the update of the labels in one LEX-M iteration, the
subgraph being rebuilt for every `w`: `i` is added to the label of `w`
exactly when the subgraph for `w` has a path from `v` to `w`. -/
def lexmInnerSpec (G : Graph) (v : Int) (i : Int) : List Int → Map Label → Map Label
  | [], unnumberedVertices => unnumberedVertices
  | w :: ws, unnumberedVertices =>
    let wLabel : Label := (unnumberedVertices.find w).getD []
    let unnumbered1 :=
      if (lexmSubgraphSpec G v w unnumberedVertices wLabel).hasPath v w = true
      then unnumberedVertices.set w (wLabel.addNumber i)
      else unnumberedVertices
    lexmInnerSpec G v i ws unnumbered1

/-- The number of vertices of `ranked` that are adjacent to `u` in `G`. -/
def rankedNeighborCount (G : Graph) (ranked : List Int) (u : Int) : Nat :=
  (ranked.filter (fun r => G.isNeighbor u r)).length

/-- No two entries of the edge list are the same edge, in either direction. -/
def Graph.EdgesDistinct (g : Graph) : Prop :=
  g.edges.Pairwise (fun e e2 => ¬ ((e.1 = e2.1 ∧ e.2 = e2.2) ∨ (e.1 = e2.2 ∧ e.2 = e2.1)))

/-- The states at the end of the body of the `do ... while` loop of
`Cnf::getMcsVarOrdering`, one for each iteration, in order: `varOrdering`
after the `push_back`, the map `rankedNeighborCounts` after the erasure and
the update of the counts, and the pair `(bestRankedNeighborCount, bestVertex)`
left by the selection loop. The recursion is that of `mcsLoop`, recording the
state instead of returning the result. -/
def mcsStates (graph : Graph) :
    Nat → Map Int → Int → List Int → List (List Int × Map Int × Int × Int)
  | 0, _, _, _ => []
  | fuel + 1, rankedNeighborCounts, bestVertex, varOrdering =>
    let varOrdering1 := varOrdering ++ [bestVertex]
    let counts1 := rankedNeighborCounts.erase bestVertex
    let counts2 := mcsBump counts1 (graph.neighbors bestVertex)
    let best := mcsSelect counts2 bestVertex
    (varOrdering1, counts2, best) ::
      (if best.1 ≠ DUMMY_MIN_INT then mcsStates graph fuel counts2 best.2 varOrdering1 else [])

/-- The states of the loop of `Cnf::getMcsVarOrdering` on the formula `f`:
`mcsStates` from the initial values that `getMcsVarOrdering` gives to
`rankedNeighborCounts`, `bestVertex` and `varOrdering`. -/
def Cnf.getMcsStates (fuel : Nat) (f : Cnf) : List (List Int × Map Int × Int × Int) :=
  let graph := f.getGaifmanGraph
  match graph.vertices with
  | [] => []
  | startVertex :: rest =>
    let rankedNeighborCounts : Map Int := rest.foldl (fun m v => m.set v 0) []
    mcsStates graph fuel rankedNeighborCounts startVertex []

/-- The MCS invariant at the end of iteration `i` (counted from 0), for the
Gaifman graph `G` and the ordering `l` that is returned: `varOrdering` is the
first `i + 1` vertices of `l`; the keys of `rankedNeighborCounts` are the
vertices of `l` after them; the count kept for each unranked vertex is the
number of its neighbours in `varOrdering`; no count exceeds
`bestRankedNeighborCount`; and when the map is not empty, `bestVertex` is an
unranked vertex whose count is `bestRankedNeighborCount`, and it is the next
vertex of `l`. -/
def McsStateOk (G : Graph) (l : List Int) (i : Nat)
    (st : List Int × Map Int × Int × Int) : Prop :=
  st.1 = l.take (i + 1) ∧
  st.2.1.keys.Perm (l.drop (i + 1)) ∧
  (∀ u c, (u, c) ∈ st.2.1 → c = (rankedNeighborCount G st.1 u : Int)) ∧
  (∀ u c, (u, c) ∈ st.2.1 → c ≤ st.2.2.1) ∧
  (st.2.1 ≠ [] → (st.2.2.2, st.2.2.1) ∈ st.2.1 ∧ l[i + 1]? = some st.2.2.2)

/-- The weight of the last line `w lit p` for the literal `lit`, if there is
one. The lines that set `literalWeights[lit]` in the WCNF and WPCNF dialects
have the shape of the CACHET lines `w v p`, with a literal in the place of the
variable. -/
def lastLiteralWeight (rd : NumReader) (lines : List (List String)) (lit : Int) : Option ℚ :=
  lines.reverse.findSome? (cachetLineWeight rd lit)

/-- The line `words` is a MINIC2D weights line `c weights ...` whose tokens at
the positions `2 * v` and `2 * v + 1` read as the numbers `p` and `q`. -/
def Minic2dLineGives (rd : NumReader) (words : List String) (v : Int) (p q : ℚ) : Prop :=
  words.head? = some "c" ∧ words[1]? = some WEIGHTS_WORD ∧
  ∃ wp wn, words[(v * 2).toNat]? = some wp ∧ rd.stold wp = some p ∧
    words[(v * 2 + 1).toNat]? = some wn ∧ rd.stold wn = some q

/-- What the parsing loop maintains in the MINIC2D dialect, `processed` being
the lines read so far: once a weights line has been read, it is one of the
lines read and the weights of both literals of every declared variable are
the numbers it gives them. -/
def Minic2dInv (rd : NumReader) (processed : List (List String)) (st : ParseState) : Prop :=
  st.minic2dWeightsLineIndex ≠ DUMMY_MIN_INT →
    ∃ ws ∈ processed, ∀ v, 1 ≤ v → v ≤ st.cnf.declaredVarCount →
      ∃ p q, Minic2dLineGives rd ws v p q ∧
        st.cnf.literalWeights.find v = some p ∧ st.cnf.literalWeights.find (-v) = some q

/-! ## Concrete inputs -/

/-- The input `p cnf 3 2 / 1 -2 0 / 2 3 0`. -/
def exampleUnweightedLines : List (List String) :=
  [["p", "cnf", "3", "2"], ["1", "-2", "0"], ["2", "3", "0"]]

/-- The state of the constructor after the header line `p cnf 3 2`. -/
def exampleHeaderState : ParseState :=
  { cnf := { weightFormat := some WeightFormat.UNWEIGHTED, declaredVarCount := 3,
             literalWeights := [], clauses := [], apparentVars := [], additiveVars := [] },
    declaredClauseCount := 2, processedClauseCount := 0, lineIndex := 1,
    problemLineIndex := 1, minic2dWeightsLineIndex := DUMMY_MIN_INT }

/-- The weights of the formula parsed from `exampleUnweightedLines`. -/
def exampleUnweightedWeights : Map ℚ :=
  [(1, 1), (-1, 1), (2, 1), (-2, 1), (3, 1), (-3, 1)]

/-- The formula parsed from `exampleUnweightedLines` in the UNWEIGHTED dialect. -/
def exampleUnweightedCnf : Cnf :=
  { weightFormat := some WeightFormat.UNWEIGHTED, declaredVarCount := 3,
    literalWeights := exampleUnweightedWeights, clauses := [[1, -2], [2, 3]],
    apparentVars := [1, 2, 3], additiveVars := [1, 2, 3] }

/-- The input `p cnf 2 1 / w 1 0.3 / 1 2 0`. -/
def exampleCachetLines : List (List String) :=
  [["p", "cnf", "2", "1"], ["w", "1", "0.3"], ["1", "2", "0"]]

/-- The formula parsed from `exampleCachetLines` in the CACHET dialect. -/
def exampleCachetCnf : Cnf :=
  { weightFormat := some WeightFormat.CACHET, declaredVarCount := 2,
    literalWeights := [(1, 3 / 10), (-1, 7 / 10), (2, 1 / 2), (-2, 1 / 2)],
    clauses := [[1, 2]], apparentVars := [1, 2], additiveVars := [1, 2] }

/-- The input `p wcnf 1 0 / w 1 -3`. -/
def exampleWcnfLines : List (List String) :=
  [["p", "wcnf", "1", "0"], ["w", "1", "-3"]]

/-- The formula parsed from `p wcnf 1 0 / w 1 -3` in the WCNF dialect. -/
def exampleWcnfCnf : Cnf :=
  { weightFormat := some WeightFormat.WCNF, declaredVarCount := 1,
    literalWeights := [(1, -3), (-1, 1)], clauses := [], apparentVars := [],
    additiveVars := [1] }

/-- The input `p wpcnf 3 1 / vp 1 3 0 / w 2 0.5 0 / w -2 0.5 0 / 1 2 3 0`. -/
def exampleWpcnfLines : List (List String) :=
  [["p", "wpcnf", "3", "1"], ["vp", "1", "3", "0"], ["w", "2", "0.5", "0"],
   ["w", "-2", "0.5", "0"], ["1", "2", "3", "0"]]

/-- The formula parsed from `exampleWpcnfLines` in the WPCNF dialect. -/
def exampleWpcnfCnf : Cnf :=
  { weightFormat := some WeightFormat.WPCNF, declaredVarCount := 3,
    literalWeights := [(2, 1 / 2), (-2, 1 / 2), (1, 1), (-1, 1), (3, 1), (-3, 1)],
    clauses := [[1, 2, 3]], apparentVars := [1, 2, 3], additiveVars := [1, 3] }

end Addmc

namespace Addmc

/-! ## Containers: basic facts -/

theorem IntSet.mem_insert (s : IntSet) (v x : Int) :
    x ∈ IntSet.insert s v ↔ x ∈ s ∨ x = v := by
  unfold IntSet.insert
  split
  · constructor
    · intro h; exact Or.inl h
    · rintro (h | h)
      · exact h
      · subst h; assumption
  · simp

theorem IntSet.nodup_insert (s : IntSet) (v : Int) (h : s.Nodup) :
    (IntSet.insert s v).Nodup := by
  unfold IntSet.insert
  split
  · exact h
  · rename_i hv
    rw [List.nodup_append]
    refine ⟨h, List.nodup_singleton v, ?_⟩
    intro a ha hb
    simp at hb
    subst hb
    exact hv ha

theorem IntSet.mem_foldl_insert (xs : List Int) (s : IntSet) (x : Int) :
    x ∈ xs.foldl IntSet.insert s ↔ x ∈ s ∨ x ∈ xs := by
  induction xs generalizing s with
  | nil => simp
  | cons y ys ih =>
    simp only [List.foldl_cons, ih, IntSet.mem_insert, List.mem_cons]
    tauto

theorem IntSet.nodup_foldl_insert (xs : List Int) (s : IntSet) (h : s.Nodup) :
    (xs.foldl IntSet.insert s).Nodup := by
  induction xs generalizing s with
  | nil => simpa using h
  | cons y ys ih => exact ih _ (IntSet.nodup_insert s y h)

/-- Inserting a list of values one by one appends the first occurrences of
the values that are new. -/
theorem IntSet.foldl_insert_eq (xs : List Int) (s : IntSet) :
    xs.foldl IntSet.insert s = s ++ (firstOccurrences xs).filter (fun y => decide (y ∉ s)) := by
  induction xs generalizing s with
  | nil => simp [firstOccurrences]
  | cons x xs ih =>
    simp only [List.foldl_cons, firstOccurrences]
    rw [ih]
    by_cases hx : x ∈ s
    · have h1 : IntSet.insert s x = s := by simp [IntSet.insert, hx]
      rw [h1, List.filter_cons]
      simp only [hx, not_true_eq_false, decide_False, Bool.false_eq_true, if_false]
      rw [List.filter_filter]
      congr 1
      apply List.filter_congr
      intro y _
      by_cases hy : y ∈ s
      · simp [hy]
      · have : y ≠ x := fun h => hy (h ▸ hx)
        simp [hy, this]
    · have h1 : IntSet.insert s x = s ++ [x] := by simp [IntSet.insert, hx]
      rw [h1, List.filter_cons]
      simp only [hx, not_false_eq_true, decide_True, if_true]
      rw [List.filter_filter, List.append_assoc]
      congr 1
      simp only [List.singleton_append]
      congr 1
      apply List.filter_congr
      intro y _
      simp only [List.mem_append, List.mem_singleton, not_or, ne_eq, Bool.decide_and,
        Bool.and_comm]

/-! ## `addClause` and the clause-list constructor -/

theorem updateApparentVars_fold_apparentVars (clause : List Int) (f : Cnf) :
    (clause.foldl Cnf.updateApparentVars f).apparentVars =
      (clause.map getCnfVar).foldl IntSet.insert f.apparentVars := by
  induction clause generalizing f with
  | nil => rfl
  | cons l ls ih =>
    simp only [List.foldl_cons, List.map_cons]
    rw [ih]
    congr 1
    by_cases h : getCnfVar l ∈ f.apparentVars <;>
      simp [Cnf.updateApparentVars, IntSet.insert, h]

theorem updateApparentVars_fold_rest (clause : List Int) (f : Cnf) :
    (clause.foldl Cnf.updateApparentVars f).clauses = f.clauses ∧
    (clause.foldl Cnf.updateApparentVars f).declaredVarCount = f.declaredVarCount ∧
    (clause.foldl Cnf.updateApparentVars f).literalWeights = f.literalWeights ∧
    (clause.foldl Cnf.updateApparentVars f).additiveVars = f.additiveVars ∧
    (clause.foldl Cnf.updateApparentVars f).weightFormat = f.weightFormat := by
  induction clause generalizing f with
  | nil => simp
  | cons l ls ih =>
    simp only [List.foldl_cons]
    obtain ⟨h1, h2, h3, h4, h5⟩ := ih (f.updateApparentVars l)
    rw [h1, h2, h3, h4, h5]
    by_cases h : getCnfVar l ∈ f.apparentVars <;> simp [Cnf.updateApparentVars, h]

theorem addClause_apparentVars (f : Cnf) (clause : List Int) :
    (f.addClause clause).apparentVars =
      (clause.map getCnfVar).foldl IntSet.insert f.apparentVars := by
  unfold Cnf.addClause
  rw [updateApparentVars_fold_apparentVars]

theorem addClause_clauses (f : Cnf) (clause : List Int) :
    (f.addClause clause).clauses = f.clauses ++ [clause] := by
  unfold Cnf.addClause
  rw [(updateApparentVars_fold_rest _ _).1]

theorem addClause_declaredVarCount (f : Cnf) (clause : List Int) :
    (f.addClause clause).declaredVarCount = f.declaredVarCount := by
  unfold Cnf.addClause
  rw [(updateApparentVars_fold_rest _ _).2.1]

theorem addClause_literalWeights (f : Cnf) (clause : List Int) :
    (f.addClause clause).literalWeights = f.literalWeights := by
  unfold Cnf.addClause
  rw [(updateApparentVars_fold_rest _ _).2.2.1]

theorem addClause_additiveVars (f : Cnf) (clause : List Int) :
    (f.addClause clause).additiveVars = f.additiveVars := by
  unfold Cnf.addClause
  rw [(updateApparentVars_fold_rest _ _).2.2.2.1]

theorem addClause_weightFormat (f : Cnf) (clause : List Int) :
    (f.addClause clause).weightFormat = f.weightFormat := by
  unfold Cnf.addClause
  rw [(updateApparentVars_fold_rest _ _).2.2.2.2]

theorem additive_fold_fields (clause : List Int) (f : Cnf) :
    (clause.foldl (fun g literal =>
        { g with additiveVars := g.additiveVars.insert (getCnfVar literal) }) f).apparentVars
      = f.apparentVars ∧
    (clause.foldl (fun g literal =>
        { g with additiveVars := g.additiveVars.insert (getCnfVar literal) }) f).clauses
      = f.clauses ∧
    (clause.foldl (fun g literal =>
        { g with additiveVars := g.additiveVars.insert (getCnfVar literal) }) f).additiveVars
      = (clause.map getCnfVar).foldl IntSet.insert f.additiveVars := by
  induction clause generalizing f with
  | nil => simp
  | cons l ls ih =>
    simp only [List.foldl_cons, List.map_cons]
    obtain ⟨h1, h2, h3⟩ := ih { f with additiveVars := f.additiveVars.insert (getCnfVar l) }
    exact ⟨h1, h2, h3⟩

theorem ofClausesStep_apparentVars (f : Cnf) (clause : List Int) :
    (f.ofClausesStep clause).apparentVars =
      (clause.map getCnfVar).foldl IntSet.insert f.apparentVars := by
  unfold Cnf.ofClausesStep
  simp only
  rw [(additive_fold_fields _ _).1, addClause_apparentVars]

theorem ofClausesStep_clauses (f : Cnf) (clause : List Int) :
    (f.ofClausesStep clause).clauses = f.clauses ++ [clause] := by
  unfold Cnf.ofClausesStep
  simp only
  rw [(additive_fold_fields _ _).2.1, addClause_clauses]

theorem literalVars_append (cs : List (List Int)) (c : List Int) :
    literalVars (cs ++ [c]) = literalVars cs ++ c.map getCnfVar := by
  simp [literalVars, getCnfVar]

theorem literalVars_cons (c : List Int) (cs : List (List Int)) :
    literalVars (c :: cs) = c.map getCnfVar ++ literalVars cs := by
  simp [literalVars, getCnfVar]

theorem foldl_ofClausesStep_apparentVars (cs : List (List Int)) (f : Cnf) :
    (cs.foldl Cnf.ofClausesStep f).apparentVars =
      (literalVars cs).foldl IntSet.insert f.apparentVars := by
  induction cs generalizing f with
  | nil => rfl
  | cons c cs ih =>
    simp only [List.foldl_cons]
    rw [ih, ofClausesStep_apparentVars, literalVars_cons, List.foldl_append]

theorem foldl_ofClausesStep_clauses (cs : List (List Int)) (f : Cnf) :
    (cs.foldl Cnf.ofClausesStep f).clauses = f.clauses ++ cs := by
  induction cs generalizing f with
  | nil => simp
  | cons c cs ih =>
    simp only [List.foldl_cons]
    rw [ih, ofClausesStep_clauses]
    simp

theorem foldl_addClause_apparentVars (cs : List (List Int)) (f : Cnf) :
    (cs.foldl Cnf.addClause f).apparentVars =
      (literalVars cs).foldl IntSet.insert f.apparentVars := by
  induction cs generalizing f with
  | nil => rfl
  | cons c cs ih =>
    simp only [List.foldl_cons]
    rw [ih, addClause_apparentVars, literalVars_cons, List.foldl_append]

theorem foldl_addClause_clauses (cs : List (List Int)) (f : Cnf) :
    (cs.foldl Cnf.addClause f).clauses = f.clauses ++ cs := by
  induction cs generalizing f with
  | nil => simp
  | cons c cs ih =>
    simp only [List.foldl_cons]
    rw [ih, addClause_clauses]
    simp

theorem ofClauses_apparentVars (d0 : Int) (cs : List (List Int)) :
    (Cnf.ofClauses d0 cs).apparentVars = (literalVars cs).foldl IntSet.insert [] := by
  unfold Cnf.ofClauses
  simp only
  rw [foldl_ofClausesStep_apparentVars]
  rfl

theorem ofClauses_clauses (d0 : Int) (cs : List (List Int)) :
    (Cnf.ofClauses d0 cs).clauses = cs := by
  unfold Cnf.ofClauses
  simp only
  rw [foldl_ofClausesStep_clauses]
  rfl

theorem firstOccurrences_eq_foldl (xs : List Int) :
    firstOccurrences xs = xs.foldl IntSet.insert [] := by
  rw [IntSet.foldl_insert_eq]
  simp

/-- `addClause` maintains that `apparentVars` lists the variables of the
clauses in the order of their first occurrence. -/
theorem addClause_first (f : Cnf) (clause : List Int)
    (h : f.apparentVars = firstOccurrences (literalVars f.clauses)) :
    (f.addClause clause).apparentVars
      = firstOccurrences (literalVars (f.addClause clause).clauses) := by
  rw [addClause_apparentVars, addClause_clauses, literalVars_append, h,
    firstOccurrences_eq_foldl, firstOccurrences_eq_foldl, List.foldl_append]

end Addmc

namespace Addmc

/-! ## The graph operations -/

theorem Graph.isNeighbor_iff (g : Graph) (u v : Int) :
    g.isNeighbor u v = true ↔ (u, v) ∈ g.edges ∨ (v, u) ∈ g.edges := by
  unfold Graph.isNeighbor
  rw [List.any_eq_true]
  constructor
  · rintro ⟨⟨a, b⟩, he, h⟩
    simp only [decide_eq_true_eq] at h
    rcases h with ⟨h1, h2⟩ | ⟨h1, h2⟩
    · subst h1; subst h2; exact Or.inl he
    · subst h1; subst h2; exact Or.inr he
  · rintro (h | h)
    · exact ⟨(u, v), h, by simp⟩
    · exact ⟨(v, u), h, by simp⟩

theorem Graph.isNeighbor_comm (g : Graph) (u v : Int) :
    g.isNeighbor u v = g.isNeighbor v u := by
  rw [Bool.eq_iff_iff, Graph.isNeighbor_iff, Graph.isNeighbor_iff]
  exact Or.comm

theorem Graph.mem_neighbors (g : Graph) (u v : Int) :
    v ∈ g.neighbors u ↔ (u, v) ∈ g.edges ∨ (v, u) ∈ g.edges := by
  unfold Graph.neighbors
  rw [List.mem_filterMap]
  constructor
  · rintro ⟨⟨a, b⟩, he, h⟩
    simp only at h
    split at h
    · rename_i h1
      simp only [Option.some.injEq] at h
      subst h1; subst h; exact Or.inl he
    · split at h
      · rename_i h1 h2
        simp only [Option.some.injEq] at h
        subst h2; subst h; exact Or.inr he
      · simp at h
  · rintro (h | h)
    · exact ⟨(u, v), h, by simp⟩
    · refine ⟨(v, u), h, ?_⟩
      by_cases hvu : v = u
      · simp [hvu]
      · simp [hvu]

theorem Graph.addEdge_vertices (g : Graph) (a b : Int) :
    (g.addEdge a b).vertices = g.vertices := by
  unfold Graph.addEdge
  split <;> rfl

theorem Graph.addEdge_mem_edges (g : Graph) (a b : Int) (e : Int × Int) :
    e ∈ (g.addEdge a b).edges ↔
      e ∈ g.edges ∨ (e = (a, b) ∧ a ≠ b ∧ g.isNeighbor a b = false ∧
        a ∈ g.vertices ∧ b ∈ g.vertices) := by
  unfold Graph.addEdge
  split
  · rename_i h
    constructor
    · intro he; exact Or.inl he
    · rintro (he | ⟨_, h1, h2, h3, h4⟩)
      · exact he
      · exfalso
        rcases h with h | h | h | h
        · exact h1 h
        · rw [h2] at h; exact Bool.false_ne_true h
        · exact h h3
        · exact h h4
  · rename_i h
    simp only [not_or, not_not, Bool.not_eq_true] at h
    obtain ⟨h1, h2, h3, h4⟩ := h
    simp only [List.mem_append, List.mem_singleton]
    constructor
    · rintro (he | he)
      · exact Or.inl he
      · exact Or.inr ⟨he, h1, h2, h3, h4⟩
    · rintro (he | ⟨he, _⟩)
      · exact Or.inl he
      · exact Or.inr he

theorem Graph.addEdge_isNeighbor (g : Graph) (a b u v : Int) :
    (g.addEdge a b).isNeighbor u v = true ↔
      g.isNeighbor u v = true ∨
        (a ≠ b ∧ a ∈ g.vertices ∧ b ∈ g.vertices ∧ ((a = u ∧ b = v) ∨ (a = v ∧ b = u))) := by
  rw [Graph.isNeighbor_iff, Graph.addEdge_mem_edges, Graph.addEdge_mem_edges,
    Graph.isNeighbor_iff]
  constructor
  · rintro ((h | ⟨h, h1, _, h3, h4⟩) | (h | ⟨h, h1, _, h3, h4⟩))
    · exact Or.inl (Or.inl h)
    · simp only [Prod.mk.injEq] at h
      exact Or.inr ⟨h1, h3, h4, Or.inl ⟨h.1.symm, h.2.symm⟩⟩
    · exact Or.inl (Or.inr h)
    · simp only [Prod.mk.injEq] at h
      exact Or.inr ⟨h1, h3, h4, Or.inr ⟨h.1.symm, h.2.symm⟩⟩
  · rintro ((h | h) | ⟨h1, h3, h4, h⟩)
    · exact Or.inl (Or.inl h)
    · exact Or.inr (Or.inl h)
    · by_cases hn : g.isNeighbor a b = true
      · rw [Graph.isNeighbor_iff] at hn
        rcases h with ⟨rfl, rfl⟩ | ⟨rfl, rfl⟩
        · rcases hn with hn | hn
          · exact Or.inl (Or.inl hn)
          · exact Or.inr (Or.inl hn)
        · rcases hn with hn | hn
          · exact Or.inr (Or.inl hn)
          · exact Or.inl (Or.inl hn)
      · simp only [Bool.not_eq_true] at hn
        rcases h with ⟨rfl, rfl⟩ | ⟨rfl, rfl⟩
        · exact Or.inl (Or.inr ⟨rfl, h1, hn, h3, h4⟩)
        · exact Or.inr (Or.inr ⟨rfl, h1, hn, h3, h4⟩)

theorem Graph.addEdge_loopless (g : Graph) (a b : Int) (h : g.Loopless) :
    (g.addEdge a b).Loopless := by
  intro e he
  rw [Graph.addEdge_mem_edges] at he
  rcases he with he | ⟨rfl, h1, _⟩
  · exact h e he
  · exact h1

theorem Graph.Loopless.not_isNeighbor_self (g : Graph) (h : g.Loopless) (u : Int) :
    g.isNeighbor u u = false := by
  rw [← Bool.not_eq_true, Graph.isNeighbor_iff]
  rintro (he | he) <;> exact h _ he rfl

/-! ## Ordered pairs of a list -/

theorem mem_orderedPairs_mem (l : List Int) (p : Int × Int) (h : p ∈ orderedPairs l) :
    p.1 ∈ l ∧ p.2 ∈ l := by
  induction l with
  | nil => simp [orderedPairs] at h
  | cons x xs ih =>
    simp only [orderedPairs, List.mem_append, List.mem_map] at h
    rcases h with ⟨y, hy, rfl⟩ | h
    · exact ⟨List.mem_cons_self _ _, List.mem_cons_of_mem _ hy⟩
    · exact ⟨List.mem_cons_of_mem _ (ih h).1, List.mem_cons_of_mem _ (ih h).2⟩

theorem orderedPairs_of_mem (l : List Int) (x y : Int) (hx : x ∈ l) (hy : y ∈ l)
    (hxy : x ≠ y) : (x, y) ∈ orderedPairs l ∨ (y, x) ∈ orderedPairs l := by
  induction l with
  | nil => simp at hx
  | cons z zs ih =>
    simp only [orderedPairs, List.mem_append, List.mem_map, Prod.mk.injEq]
    rcases List.mem_cons.mp hx with hxz | hx2
    · rcases List.mem_cons.mp hy with hyz | hy2
      · exact absurd (hxz.trans hyz.symm) hxy
      · exact Or.inl (Or.inl ⟨y, hy2, hxz.symm, rfl⟩)
    · rcases List.mem_cons.mp hy with hyz | hy2
      · exact Or.inr (Or.inl ⟨x, hx2, hyz.symm, rfl⟩)
      · rcases ih hx2 hy2 with h | h
        · exact Or.inl (Or.inr h)
        · exact Or.inr (Or.inr h)

/-! ## The Gaifman graph -/

theorem foldl_addEdge_vertices (ps : List (Int × Int)) (g : Graph) (φ : Int → Int) :
    (ps.foldl (fun g p => g.addEdge (φ p.1) (φ p.2)) g).vertices = g.vertices := by
  induction ps generalizing g with
  | nil => rfl
  | cons p ps ih => simp only [List.foldl_cons]; rw [ih, Graph.addEdge_vertices]

theorem foldl_addEdge_loopless (ps : List (Int × Int)) (g : Graph) (φ : Int → Int)
    (h : g.Loopless) : (ps.foldl (fun g p => g.addEdge (φ p.1) (φ p.2)) g).Loopless := by
  induction ps generalizing g with
  | nil => exact h
  | cons p ps ih => simp only [List.foldl_cons]; exact ih _ (Graph.addEdge_loopless g _ _ h)

theorem foldl_addEdge_isNeighbor (ps : List (Int × Int)) (g : Graph) (φ : Int → Int)
    (u v : Int) :
    (ps.foldl (fun g p => g.addEdge (φ p.1) (φ p.2)) g).isNeighbor u v = true ↔
      g.isNeighbor u v = true ∨
        ∃ p ∈ ps, φ p.1 ≠ φ p.2 ∧ φ p.1 ∈ g.vertices ∧ φ p.2 ∈ g.vertices ∧
          ((φ p.1 = u ∧ φ p.2 = v) ∨ (φ p.1 = v ∧ φ p.2 = u)) := by
  induction ps generalizing g with
  | nil => simp
  | cons p ps ih =>
    simp only [List.foldl_cons]
    rw [ih, Graph.addEdge_isNeighbor]
    simp only [Graph.addEdge_vertices, List.mem_cons, exists_eq_or_imp, or_assoc]

theorem addClauseEdges_vertices (g : Graph) (clause : List Int) :
    (addClauseEdges g clause).vertices = g.vertices :=
  foldl_addEdge_vertices _ g getCnfVar

theorem addClauseEdges_loopless (g : Graph) (clause : List Int) (h : g.Loopless) :
    (addClauseEdges g clause).Loopless :=
  foldl_addEdge_loopless _ g getCnfVar h

theorem addClauseEdges_isNeighbor (g : Graph) (clause : List Int) (u v : Int) (huv : u ≠ v)
    (hc : ∀ l ∈ clause, getCnfVar l ∈ g.vertices) :
    (addClauseEdges g clause).isNeighbor u v = true ↔
      g.isNeighbor u v = true ∨
        ((∃ l ∈ clause, getCnfVar l = u) ∧ (∃ l ∈ clause, getCnfVar l = v)) := by
  unfold addClauseEdges
  rw [foldl_addEdge_isNeighbor]
  apply or_congr Iff.rfl
  constructor
  · rintro ⟨p, hp, _, _, _, h⟩
    obtain ⟨h1, h2⟩ := mem_orderedPairs_mem _ _ hp
    rcases h with ⟨ha, hb⟩ | ⟨ha, hb⟩
    · exact ⟨⟨p.1, h1, ha⟩, ⟨p.2, h2, hb⟩⟩
    · exact ⟨⟨p.2, h2, hb⟩, ⟨p.1, h1, ha⟩⟩
  · rintro ⟨⟨l1, h1, rfl⟩, ⟨l2, h2, rfl⟩⟩
    have hne : l1 ≠ l2 := fun h => huv (by rw [h])
    rcases orderedPairs_of_mem _ l1 l2 h1 h2 hne with hp | hp
    · exact ⟨(l1, l2), hp, huv, hc l1 h1, hc l2 h2, Or.inl ⟨rfl, rfl⟩⟩
    · exact ⟨(l2, l1), hp, fun h => huv h.symm, hc l2 h2, hc l1 h1, Or.inr ⟨rfl, rfl⟩⟩

theorem foldl_addClauseEdges_vertices (cs : List (List Int)) (g : Graph) :
    (cs.foldl addClauseEdges g).vertices = g.vertices := by
  induction cs generalizing g with
  | nil => rfl
  | cons c cs ih => simp only [List.foldl_cons]; rw [ih, addClauseEdges_vertices]

theorem foldl_addClauseEdges_loopless (cs : List (List Int)) (g : Graph) (h : g.Loopless) :
    (cs.foldl addClauseEdges g).Loopless := by
  induction cs generalizing g with
  | nil => exact h
  | cons c cs ih => simp only [List.foldl_cons]; exact ih _ (addClauseEdges_loopless g c h)

theorem foldl_addClauseEdges_isNeighbor (cs : List (List Int)) (g : Graph) (u v : Int)
    (huv : u ≠ v) (hc : ∀ c ∈ cs, ∀ l ∈ c, getCnfVar l ∈ g.vertices) :
    (cs.foldl addClauseEdges g).isNeighbor u v = true ↔
      g.isNeighbor u v = true ∨
        ∃ c ∈ cs, (∃ l ∈ c, getCnfVar l = u) ∧ (∃ l ∈ c, getCnfVar l = v) := by
  induction cs generalizing g with
  | nil => simp
  | cons c cs ih =>
    simp only [List.foldl_cons]
    rw [ih, addClauseEdges_isNeighbor g c u v huv (fun l hl => hc c (List.mem_cons_self _ _) l hl)]
    · simp only [List.mem_cons, exists_eq_or_imp, or_assoc]
    · intro c2 hc2 l hl
      rw [addClauseEdges_vertices]
      exact hc c2 (List.mem_cons_of_mem _ hc2) l hl

theorem foldl_insert_nil_of_nodup (l : List Int) (h : l.Nodup) :
    l.foldl IntSet.insert [] = l := by
  have key : ∀ (xs s : List Int), (s ++ xs).Nodup → xs.foldl IntSet.insert s = s ++ xs := by
    intro xs
    induction xs with
    | nil => intro s _; simp
    | cons x xs ih =>
      intro s hs
      have hx : x ∉ s := by
        intro hx
        rw [List.nodup_append] at hs
        exact hs.2.2 hx (List.mem_cons_self _ _)
      simp only [List.foldl_cons]
      have h1 : IntSet.insert s x = s ++ [x] := by simp [IntSet.insert, hx]
      rw [h1, ih (s ++ [x]) (by simpa using hs)]
      simp
  simpa using key l [] (by simpa using h)

theorem gaifman_vertices (f : Cnf) (x : Int) :
    x ∈ f.getGaifmanGraph.vertices ↔ x ∈ f.apparentVars := by
  unfold Cnf.getGaifmanGraph
  simp only
  rw [foldl_addClauseEdges_vertices]
  simp [Graph.ofVertices, IntSet.mem_foldl_insert]

theorem gaifman_vertices_nodup (f : Cnf) : f.getGaifmanGraph.vertices.Nodup := by
  unfold Cnf.getGaifmanGraph
  simp only
  rw [foldl_addClauseEdges_vertices]
  exact IntSet.nodup_foldl_insert _ _ List.nodup_nil

theorem gaifman_vertices_eq (f : Cnf) (h : f.apparentVars.Nodup) :
    f.getGaifmanGraph.vertices = f.apparentVars := by
  unfold Cnf.getGaifmanGraph
  simp only
  rw [foldl_addClauseEdges_vertices]
  exact foldl_insert_nil_of_nodup _ h

theorem gaifman_loopless (f : Cnf) : f.getGaifmanGraph.Loopless := by
  unfold Cnf.getGaifmanGraph
  simp only
  apply foldl_addClauseEdges_loopless
  intro e he
  simp [Graph.ofVertices] at he

theorem gaifman_isNeighbor (f : Cnf)
    (hf : ∀ c ∈ f.clauses, ∀ l ∈ c, getCnfVar l ∈ f.apparentVars) (u v : Int) (huv : u ≠ v) :
    f.getGaifmanGraph.isNeighbor u v = true ↔
      ∃ c ∈ f.clauses, (∃ l ∈ c, getCnfVar l = u) ∧ (∃ l ∈ c, getCnfVar l = v) := by
  unfold Cnf.getGaifmanGraph
  simp only
  rw [foldl_addClauseEdges_isNeighbor _ _ u v huv]
  · constructor
    · rintro (h | h)
      · simp [Graph.ofVertices, Graph.isNeighbor] at h
      · exact h
    · intro h; exact Or.inr h
  · intro c hc l hl
    simp only [Graph.ofVertices, IntSet.mem_foldl_insert]
    exact Or.inr (hf c hc l hl)

theorem ofClauses_varsRecorded (d0 : Int) (cs : List (List Int)) :
    (Cnf.ofClauses d0 cs).VarsRecorded := by
  constructor
  · rw [ofClauses_apparentVars]
    exact IntSet.nodup_foldl_insert _ _ List.nodup_nil
  · intro c hc l hl
    rw [ofClauses_clauses] at hc
    rw [ofClauses_apparentVars, IntSet.mem_foldl_insert]
    right
    simp only [literalVars, List.mem_map, List.mem_flatten]
    exact ⟨l, ⟨c, hc, hl⟩, rfl⟩

end Addmc

namespace Addmc

/-! ## Maps: keys under the operations -/

theorem Map.keys_set {V : Type} (m : Map V) (k : Int) (v : V) :
    (m.set k v).keys = IntSet.insert m.keys k := by
  induction m with
  | nil => simp [Map.set, Map.keys, IntSet.insert]
  | cons e t ih =>
    obtain ⟨k1, v1⟩ := e
    unfold Map.set
    by_cases h : k1 = k
    · simp [Map.keys, IntSet.insert, h]
    · simp only [Map.keys] at ih
      simp only [h, if_false, Map.keys, List.map_cons, ih]
      unfold IntSet.insert
      by_cases hk : k ∈ List.map Prod.fst t
      · have : k ∈ k1 :: List.map Prod.fst t := List.mem_cons_of_mem _ hk
        simp [hk]
      · have : k ∉ k1 :: List.map Prod.fst t := by
          intro hmem
          rcases List.mem_cons.mp hmem with h1 | h1
          · exact h h1.symm
          · exact hk h1
        simp [hk, this]

theorem Map.keys_set_of_mem {V : Type} (m : Map V) (k : Int) (v : V) (h : k ∈ m.keys) :
    (m.set k v).keys = m.keys := by
  rw [Map.keys_set]
  simp [IntSet.insert, h]

theorem Map.keys_erase {V : Type} (m : Map V) (k : Int) :
    (m.erase k).keys = m.keys.filter (fun x => decide (x ≠ k)) := by
  unfold Map.erase Map.keys
  rw [List.filter_map]
  rfl

theorem Map.find_isSome_iff {V : Type} (m : Map V) (k : Int) :
    (m.find k).isSome = true ↔ k ∈ m.keys := by
  induction m with
  | nil => simp [Map.find, Map.keys]
  | cons e t ih =>
    obtain ⟨k1, v1⟩ := e
    unfold Map.find
    by_cases h : k1 = k
    · simp [h, Map.keys]
    · simp only [h, if_false, ih, Map.keys, List.map_cons, List.mem_cons]
      constructor
      · intro hk; exact Or.inr hk
      · rintro (hk | hk)
        · exact absurd hk.symm h
        · exact hk

theorem Map.find_eq_none_iff {V : Type} (m : Map V) (k : Int) :
    m.find k = none ↔ k ∉ m.keys := by
  rw [← Map.find_isSome_iff]
  cases m.find k <;> simp

theorem Map.find_set {V : Type} (m : Map V) (k : Int) (v : V) (k2 : Int) :
    (m.set k v).find k2 = if k = k2 then some v else m.find k2 := by
  induction m with
  | nil => simp [Map.set, Map.find]
  | cons e t ih =>
    obtain ⟨k1, v1⟩ := e
    unfold Map.set
    by_cases h : k1 = k
    · subst h
      by_cases h2 : k1 = k2
      · simp [Map.find, h2]
      · simp [Map.find, h2]
    · by_cases h2 : k1 = k2
      · subst h2
        have hk : ¬ k = k1 := fun h3 => h h3.symm
        simp [Map.find, h, hk]
      · simp only [h, if_false, Map.find, h2, ih]

theorem keys_initialLabels (vars : List Int) :
    (initialLabels vars).keys = vars.foldl IntSet.insert [] := by
  have key : ∀ (xs : List Int) (m : Map Label),
      (xs.foldl (fun m vertex => m.set vertex []) m).keys = xs.foldl IntSet.insert m.keys := by
    intro xs
    induction xs with
    | nil => intro m; rfl
    | cons x xs ih =>
      intro m
      simp only [List.foldl_cons]
      rw [ih, Map.keys_set]
  exact key vars []

theorem nodup_perm_cons_filter (l : List Int) (x : Int) (hl : l.Nodup) (hx : x ∈ l) :
    l.Perm (x :: l.filter (fun y => decide (y ≠ x))) := by
  have h1 := List.perm_cons_erase hx
  have h2 : l.erase x = l.filter (fun y => decide (y ≠ x)) := by
    rw [hl.erase_eq_filter]
    apply List.filter_congr
    intro y _
    by_cases hyx : y = x <;> simp [hyx]
  rw [h2] at h1
  exact h1

/-! ## LEX-P and LEX-M: the selected vertex -/

theorem maxElement_mem (m : Map Label) (e : Int × Label) (h : maxElement m = some e) :
    e ∈ m := by
  cases m with
  | nil => simp [maxElement] at h
  | cons a t =>
    simp only [maxElement, Option.some.injEq] at h
    have key : ∀ (xs : List (Int × Label)) (b : Int × Label),
        xs.foldl (fun largest x => if Label.lt largest.2 x.2 then x else largest) b = b ∨
        xs.foldl (fun largest x => if Label.lt largest.2 x.2 then x else largest) b ∈ xs := by
      intro xs
      induction xs with
      | nil => intro b; exact Or.inl rfl
      | cons x xs ih =>
        intro b
        simp only [List.foldl_cons]
        rcases ih (if Label.lt b.2 x.2 then x else b) with h1 | h1
        · rw [h1]
          split
          · exact Or.inr (List.mem_cons_self _ _)
          · exact Or.inl rfl
        · exact Or.inr (List.mem_cons_of_mem _ h1)
    rcases key t a with h1 | h1
    · rw [h1] at h; rw [← h]; exact List.mem_cons_self _ _
    · rw [h] at h1; exact List.mem_cons_of_mem _ h1

theorem maxElement_isSome (m : Map Label) (h : m ≠ []) : ∃ e, maxElement m = some e := by
  cases m with
  | nil => exact absurd rfl h
  | cons a t => exact ⟨_, rfl⟩

theorem keys_lexpUpdate (m : Map Label) (ns : List Int) (number : Int) :
    (lexpUpdate m ns number).keys = m.keys := by
  unfold lexpUpdate
  induction ns generalizing m with
  | nil => rfl
  | cons n ns ih =>
    simp only [List.foldl_cons]
    rw [ih]
    cases hf : m.find n with
    | none => rfl
    | some label =>
      simp only
      apply Map.keys_set_of_mem
      rw [← Map.find_isSome_iff, hf]
      rfl

theorem keys_lexmInner (v i : Int) (numbered : List Int) (ws : List Int) (g : Graph)
    (m : Map Label) (hws : ∀ w ∈ ws, w ∈ m.keys) :
    (lexmInner v i numbered ws g m).2.keys = m.keys := by
  induction ws generalizing g m with
  | nil => rfl
  | cons w ws ih =>
    unfold lexmInner
    simp only
    have hw : w ∈ m.keys := hws w (List.mem_cons_self _ _)
    have hk : (if (lexmRemoveUnnumbered (lexmRemoveNumbered g numbered v) m w
          ((m.find w).getD [])).hasPath v w = true
        then m.set w (Label.addNumber ((m.find w).getD []) i) else m).keys = m.keys := by
      split
      · exact Map.keys_set_of_mem m w _ hw
      · rfl
    rw [ih, hk]
    intro w2 hw2
    rw [hk]
    exact hws w2 (List.mem_cons_of_mem _ hw2)

/-- The invariant of the LEX-P loop: with as many unnumbered vertices as
iterations left, the loop ends and numbers each of them once. -/
theorem lexpLoop_perm (graph : Graph) (number : Nat) (m : Map Label) (acc : List Int)
    (hn : m.keys.Nodup) (hlen : m.keys.length = number) :
    ∃ l, lexpLoop graph number m acc = some l ∧ l.Perm (acc ++ m.keys) := by
  induction number generalizing m acc with
  | zero =>
    have : m.keys = [] := List.length_eq_zero.mp hlen
    exact ⟨acc, rfl, by rw [this]; simp⟩
  | succ n ih =>
    have hne : m ≠ [] := by
      intro h
      rw [h] at hlen
      simp [Map.keys] at hlen
    obtain ⟨e, he⟩ := maxElement_isSome m hne
    have hmem : e.1 ∈ m.keys := List.mem_map_of_mem Prod.fst (maxElement_mem m e he)
    unfold lexpLoop
    rw [he]
    simp only
    have hkeys : (lexpUpdate (m.erase e.1) (graph.neighbors e.1) ((n : Int) + 1)).keys
        = m.keys.filter (fun y => decide (y ≠ e.1)) := by
      rw [keys_lexpUpdate, Map.keys_erase]
    have hperm := nodup_perm_cons_filter m.keys e.1 hn hmem
    obtain ⟨l, hl, hp⟩ := ih (lexpUpdate (m.erase e.1) (graph.neighbors e.1) ((n : Int) + 1))
      (acc ++ [e.1]) (by rw [hkeys]; exact hn.filter _)
      (by
        rw [hkeys]
        have := hperm.length_eq
        simp only [List.length_cons] at this
        omega)
    refine ⟨l, hl, hp.trans ?_⟩
    rw [hkeys, List.append_assoc]
    exact List.Perm.append_left acc hperm.symm

/-- The invariant of the LEX-M loop, as for LEX-P. -/
theorem lexmLoop_perm (f : Cnf) (i : Nat) (m : Map Label) (acc : List Int)
    (hn : m.keys.Nodup) (hlen : m.keys.length = i) :
    ∃ l, lexmLoop f i m acc = some l ∧ l.Perm (acc ++ m.keys) := by
  induction i generalizing m acc with
  | zero =>
    have : m.keys = [] := List.length_eq_zero.mp hlen
    exact ⟨acc, rfl, by rw [this]; simp⟩
  | succ n ih =>
    have hne : m ≠ [] := by
      intro h
      rw [h] at hlen
      simp [Map.keys] at hlen
    obtain ⟨e, he⟩ := maxElement_isSome m hne
    have hmem : e.1 ∈ m.keys := List.mem_map_of_mem Prod.fst (maxElement_mem m e he)
    unfold lexmLoop
    rw [he]
    simp only
    have hkeys : (lexmInner e.1 ((n : Int) + 1) (acc ++ [e.1]) (m.erase e.1).keys
        f.getGaifmanGraph (m.erase e.1)).2.keys = m.keys.filter (fun y => decide (y ≠ e.1)) := by
      rw [keys_lexmInner _ _ _ _ _ _ (fun w hw => hw), Map.keys_erase]
    have hperm := nodup_perm_cons_filter m.keys e.1 hn hmem
    obtain ⟨l, hl, hp⟩ := ih (lexmInner e.1 ((n : Int) + 1) (acc ++ [e.1]) (m.erase e.1).keys
        f.getGaifmanGraph (m.erase e.1)).2
      (acc ++ [e.1]) (by rw [hkeys]; exact hn.filter _)
      (by
        rw [hkeys]
        have := hperm.length_eq
        simp only [List.length_cons] at this
        omega)
    refine ⟨l, hl, hp.trans ?_⟩
    rw [hkeys, List.append_assoc]
    exact List.Perm.append_left acc hperm.symm

theorem lexp_perm_of_nodup (f : Cnf) (h : f.apparentVars.Nodup) :
    ∃ l, f.getLexpVarOrdering = some l ∧ l.Perm f.apparentVars := by
  have hk : (initialLabels f.apparentVars).keys = f.apparentVars := by
    rw [keys_initialLabels, foldl_insert_nil_of_nodup _ h]
  obtain ⟨l, hl, hp⟩ := lexpLoop_perm f.getGaifmanGraph f.apparentVars.length
    (initialLabels f.apparentVars) [] (by rw [hk]; exact h) (by rw [hk])
  refine ⟨l, hl, ?_⟩
  rw [hk] at hp
  simpa using hp

theorem lexm_perm_of_nodup (f : Cnf) (h : f.apparentVars.Nodup) :
    ∃ l, f.getLexmVarOrdering = some l ∧ l.Perm f.apparentVars := by
  have hk : (initialLabels f.apparentVars).keys = f.apparentVars := by
    rw [keys_initialLabels, foldl_insert_nil_of_nodup _ h]
  obtain ⟨l, hl, hp⟩ := lexmLoop_perm f f.apparentVars.length
    (initialLabels f.apparentVars) [] (by rw [hk]; exact h) (by rw [hk])
  refine ⟨l, hl, ?_⟩
  rw [hk] at hp
  simpa using hp

end Addmc

namespace Addmc

/-! ## Maps: entries under the operations -/

theorem Map.mem_set {V : Type} (m : Map V) (k : Int) (v : V) (e : Int × V)
    (h : e ∈ m.set k v) : e ∈ m ∨ e.2 = v := by
  induction m with
  | nil =>
    simp only [Map.set, List.mem_singleton] at h
    exact Or.inr (by rw [h])
  | cons a t ih =>
    obtain ⟨k1, v1⟩ := a
    unfold Map.set at h
    by_cases hk : k1 = k
    · simp only [hk, if_true, List.mem_cons] at h
      rcases h with h | h
      · exact Or.inr (by rw [h])
      · exact Or.inl (List.mem_cons_of_mem _ h)
    · simp only [hk, if_false, List.mem_cons] at h
      rcases h with h | h
      · exact Or.inl (by rw [h]; exact List.mem_cons_self _ _)
      · rcases ih h with h1 | h1
        · exact Or.inl (List.mem_cons_of_mem _ h1)
        · exact Or.inr h1

theorem Map.mem_of_find {V : Type} (m : Map V) (k : Int) (v : V) (h : m.find k = some v) :
    (k, v) ∈ m := by
  induction m with
  | nil => simp [Map.find] at h
  | cons a t ih =>
    obtain ⟨k1, v1⟩ := a
    unfold Map.find at h
    by_cases hk : k1 = k
    · simp only [hk, if_true, Option.some.injEq] at h
      rw [hk, h]
      exact List.mem_cons_self _ _
    · simp only [hk, if_false] at h
      exact List.mem_cons_of_mem _ (ih h)

theorem Map.mem_erase {V : Type} (m : Map V) (k : Int) (e : Int × V) (h : e ∈ m.erase k) :
    e ∈ m := by
  unfold Map.erase at h
  exact (List.mem_filter.mp h).1

/-! ## MCS -/

theorem mcsBump_keys (counts : Map Int) (ns : List Int) :
    (mcsBump counts ns).keys = counts.keys := by
  unfold mcsBump
  induction ns generalizing counts with
  | nil => rfl
  | cons n ns ih =>
    simp only [List.foldl_cons]
    rw [ih]
    cases hf : counts.find n with
    | none => rfl
    | some c =>
      simp only
      apply Map.keys_set_of_mem
      rw [← Map.find_isSome_iff, hf]
      rfl

theorem mcsBump_nonneg (counts : Map Int) (ns : List Int) (h : ∀ e ∈ counts, 0 ≤ e.2) :
    ∀ e ∈ mcsBump counts ns, 0 ≤ e.2 := by
  unfold mcsBump
  induction ns generalizing counts with
  | nil => exact h
  | cons n ns ih =>
    simp only [List.foldl_cons]
    apply ih
    cases hf : counts.find n with
    | none => exact h
    | some c =>
      simp only
      intro e he
      rcases Map.mem_set _ _ _ _ he with h1 | h1
      · exact h e h1
      · rw [h1]
        have := h _ (Map.mem_of_find _ _ _ hf)
        simp only at this
        omega

theorem mcsSelect_fold_ge (xs : List (Int × Int)) (b : Int × Int) :
    b.1 ≤ (xs.foldl (fun b entry => if entry.2 > b.1 then (entry.2, entry.1) else b) b).1 := by
  induction xs generalizing b with
  | nil => exact le_refl _
  | cons x xs ih =>
    simp only [List.foldl_cons]
    refine le_trans ?_ (ih _)
    split
    · rename_i h; exact le_of_lt h
    · exact le_refl _

theorem mcsSelect_fold_mem (xs : List (Int × Int)) (b : Int × Int) :
    xs.foldl (fun b entry => if entry.2 > b.1 then (entry.2, entry.1) else b) b = b ∨
    ((xs.foldl (fun b entry => if entry.2 > b.1 then (entry.2, entry.1) else b) b).2,
     (xs.foldl (fun b entry => if entry.2 > b.1 then (entry.2, entry.1) else b) b).1) ∈ xs := by
  induction xs generalizing b with
  | nil => exact Or.inl rfl
  | cons x xs ih =>
    simp only [List.foldl_cons]
    rcases ih (if x.2 > b.1 then (x.2, x.1) else b) with h1 | h1
    · rw [h1]
      split
      · exact Or.inr (List.mem_cons_self _ _)
      · exact Or.inl rfl
    · exact Or.inr (List.mem_cons_of_mem _ h1)

theorem mcsSelect_nil (bestVertex : Int) : mcsSelect [] bestVertex = (DUMMY_MIN_INT, bestVertex) :=
  rfl

/-- On a nonempty map of nonnegative counts the selection loop always selects
an entry of the map. -/
theorem mcsSelect_of_ne_nil (counts : Map Int) (bestVertex : Int) (hne : counts ≠ [])
    (h : ∀ e ∈ counts, 0 ≤ e.2) :
    (mcsSelect counts bestVertex).1 ≠ DUMMY_MIN_INT ∧
    ((mcsSelect counts bestVertex).2, (mcsSelect counts bestVertex).1) ∈ counts := by
  cases counts with
  | nil => exact absurd rfl hne
  | cons x xs =>
    have hx : 0 ≤ x.2 := h x (List.mem_cons_self _ _)
    have hd : DUMMY_MIN_INT < 0 := by decide
    have hgt : x.2 > DUMMY_MIN_INT := lt_of_lt_of_le hd hx
    have hstep : mcsSelect (x :: xs) bestVertex =
        xs.foldl (fun b entry => if entry.2 > b.1 then (entry.2, entry.1) else b) (x.2, x.1) := by
      simp only [mcsSelect, List.foldl_cons]
      rw [if_pos hgt]
    rw [hstep]
    have hge := mcsSelect_fold_ge xs (x.2, x.1)
    simp only at hge
    constructor
    · intro heq
      rw [heq] at hge
      omega
    · rcases mcsSelect_fold_mem xs (x.2, x.1) with h1 | h1
      · rw [h1]
        exact List.mem_cons_self _ _
      · exact List.mem_cons_of_mem _ h1

/-- The invariant of the MCS loop: with enough fuel the loop ends and appends
`bestVertex` and every other key of the map, each once. -/
theorem mcsLoop_perm (graph : Graph) (fuel : Nat) (counts : Map Int) (bestVertex : Int)
    (acc : List Int) (hn : counts.keys.Nodup) (hpos : ∀ e ∈ counts, 0 ≤ e.2)
    (hfuel : (counts.keys.filter (fun y => decide (y ≠ bestVertex))).length + 1 ≤ fuel) :
    ∃ l, mcsLoop graph fuel counts bestVertex acc = some l ∧
      l.Perm (acc ++ bestVertex :: counts.keys.filter (fun y => decide (y ≠ bestVertex))) := by
  induction fuel generalizing counts bestVertex acc with
  | zero => omega
  | succ n ih =>
    unfold mcsLoop
    simp only
    have hkeys : (mcsBump (counts.erase bestVertex) (graph.neighbors bestVertex)).keys
        = counts.keys.filter (fun y => decide (y ≠ bestVertex)) := by
      rw [mcsBump_keys, Map.keys_erase]
    have hpos2 : ∀ e ∈ mcsBump (counts.erase bestVertex) (graph.neighbors bestVertex), 0 ≤ e.2 :=
      mcsBump_nonneg _ _ (fun e he => hpos e (Map.mem_erase _ _ _ he))
    by_cases hempty : mcsBump (counts.erase bestVertex) (graph.neighbors bestVertex) = []
    · rw [hempty, mcsSelect_nil]
      simp only [ne_eq, not_true_eq_false, if_false]
      refine ⟨acc ++ [bestVertex], rfl, ?_⟩
      rw [← hkeys, hempty]
      simp [Map.keys]
    · obtain ⟨h1, h2⟩ := mcsSelect_of_ne_nil _ bestVertex hempty hpos2
      rw [if_pos h1]
      have hmem : (mcsSelect (mcsBump (counts.erase bestVertex) (graph.neighbors bestVertex))
          bestVertex).2 ∈ (mcsBump (counts.erase bestVertex) (graph.neighbors bestVertex)).keys :=
        List.mem_map_of_mem Prod.fst h2
      have hnd : (mcsBump (counts.erase bestVertex) (graph.neighbors bestVertex)).keys.Nodup := by
        rw [hkeys]; exact hn.filter _
      have hperm := nodup_perm_cons_filter _ _ hnd hmem
      obtain ⟨l, hl, hp⟩ := ih (mcsBump (counts.erase bestVertex) (graph.neighbors bestVertex))
        (mcsSelect (mcsBump (counts.erase bestVertex) (graph.neighbors bestVertex)) bestVertex).2
        (acc ++ [bestVertex]) hnd hpos2
        (by
          have := hperm.length_eq
          simp only [List.length_cons] at this
          have hk2 := congrArg List.length hkeys
          omega)
      refine ⟨l, hl, hp.trans ?_⟩
      rw [List.append_assoc, List.singleton_append]
      apply List.Perm.append_left
      apply List.Perm.cons
      rw [← hkeys]
      exact hperm.symm

theorem mcs_initial_counts (rest : List Int) :
    (rest.foldl (fun (m : Map Int) v => m.set v 0) []).keys = rest.foldl IntSet.insert [] ∧
    ∀ e ∈ rest.foldl (fun (m : Map Int) v => m.set v 0) [], 0 ≤ e.2 := by
  have key : ∀ (xs : List Int) (m : Map Int), (∀ e ∈ m, 0 ≤ e.2) →
      (xs.foldl (fun (m : Map Int) v => m.set v 0) m).keys = xs.foldl IntSet.insert m.keys ∧
      ∀ e ∈ xs.foldl (fun (m : Map Int) v => m.set v 0) m, 0 ≤ e.2 := by
    intro xs
    induction xs with
    | nil => intro m hm; exact ⟨rfl, hm⟩
    | cons x xs ih =>
      intro m hm
      simp only [List.foldl_cons]
      have hm2 : ∀ e ∈ m.set x 0, 0 ≤ e.2 := by
        intro e he
        rcases Map.mem_set _ _ _ _ he with h1 | h1
        · exact hm e h1
        · rw [h1]
      obtain ⟨h1, h2⟩ := ih (m.set x 0) hm2
      rw [Map.keys_set] at h1
      exact ⟨h1, h2⟩
  exact key rest [] (by simp)

theorem mcs_perm_of_nodup (f : Cnf) (h : f.apparentVars.Nodup) (k : Nat) :
    ∃ l, f.getMcsVarOrdering (f.apparentVars.length + k) = some l ∧ l.Perm f.apparentVars := by
  have hv := gaifman_vertices_eq f h
  unfold Cnf.getMcsVarOrdering
  simp only
  rw [hv]
  cases hvars : f.apparentVars with
  | nil => exact ⟨[], rfl, List.Perm.refl _⟩
  | cons start rest =>
    simp only
    rw [hvars] at h
    have hrest : rest.Nodup := (List.nodup_cons.mp h).2
    have hstart : start ∉ rest := (List.nodup_cons.mp h).1
    obtain ⟨hk, hp⟩ := mcs_initial_counts rest
    rw [foldl_insert_nil_of_nodup _ hrest] at hk
    have hfilter : rest.filter (fun y => decide (y ≠ start)) = rest := by
      rw [List.filter_eq_self]
      intro y hy
      simp only [decide_eq_true_eq]
      intro hys
      exact hstart (hys ▸ hy)
    obtain ⟨l, hl, hperm⟩ := mcsLoop_perm f.getGaifmanGraph ((start :: rest).length + k)
      (rest.foldl (fun (m : Map Int) v => m.set v 0) []) start []
      (by rw [hk]; exact hrest) hp
      (by rw [hk, hfilter]; simp only [List.length_cons]; omega)
    refine ⟨l, hl, ?_⟩
    rw [hk, hfilter] at hperm
    simpa using hperm

end Addmc

namespace Addmc

/-! ## MIN-FILL -/

theorem minfillScan_some (g : Graph) (vs : List Int) (b : Int) (c : Nat) :
    ∃ r, g.minfillScan vs (some (b, c)) = some r ∧ (r.1 = b ∨ r.1 ∈ vs) := by
  induction vs generalizing b c with
  | nil => exact ⟨(b, c), rfl, Or.inl rfl⟩
  | cons v vs ih =>
    unfold Graph.minfillScan
    split
    · obtain ⟨r, hr, h⟩ := ih v (g.getFillInEdgeCount v)
      refine ⟨r, hr, ?_⟩
      rcases h with h | h
      · exact Or.inr (h ▸ List.mem_cons_self _ _)
      · exact Or.inr (List.mem_cons_of_mem _ h)
    · obtain ⟨r, hr, h⟩ := ih b c
      refine ⟨r, hr, ?_⟩
      rcases h with h | h
      · exact Or.inl h
      · exact Or.inr (List.mem_cons_of_mem _ h)

/-- On a graph with a vertex, `getMinfillVertex` returns one of its vertices. -/
theorem getMinfillVertex_mem (g : Graph) (h : g.vertices ≠ []) :
    ∃ v, g.getMinfillVertex = some v ∧ v ∈ g.vertices := by
  unfold Graph.getMinfillVertex
  cases hv : g.vertices with
  | nil => exact absurd hv h
  | cons a t =>
    unfold Graph.minfillScan
    obtain ⟨r, hr, hmem⟩ := minfillScan_some g t a (g.getFillInEdgeCount a)
    rw [hr]
    refine ⟨r.1, rfl, ?_⟩
    rcases hmem with h1 | h1
    · rw [h1]; exact List.mem_cons_self _ _
    · exact List.mem_cons_of_mem _ h1

/-- `fillInEdges` adds no vertex (and removes none). -/
theorem fillInEdges_vertices (g : Graph) (v : Int) :
    (g.fillInEdges v).vertices = g.vertices :=
  foldl_addEdge_vertices _ g id

theorem removeVertex_vertices (g : Graph) (v : Int) :
    (g.removeVertex v).vertices = g.vertices.filter (fun x => decide (x ≠ v)) := rfl

/-- One iteration of the MIN-FILL loop removes exactly the selected vertex. -/
theorem minfill_step (g : Graph) (hn : g.vertices.Nodup) (h : g.vertices ≠ []) :
    ∃ v, g.getMinfillVertex = some v ∧ v ∈ g.vertices ∧
      (g.fillInEdges v).vertices = g.vertices ∧
      g.vertices.Perm (v :: ((g.fillInEdges v).removeVertex v).vertices) ∧
      ((g.fillInEdges v).removeVertex v).vertices.Nodup ∧
      ((g.fillInEdges v).removeVertex v).vertices.length + 1 = g.vertices.length := by
  obtain ⟨v, hv, hmem⟩ := getMinfillVertex_mem g h
  have hp := nodup_perm_cons_filter g.vertices v hn hmem
  refine ⟨v, hv, hmem, fillInEdges_vertices g v, ?_, ?_, ?_⟩
  · rw [removeVertex_vertices, fillInEdges_vertices]
    exact hp
  · rw [removeVertex_vertices, fillInEdges_vertices]
    exact hn.filter _
  · rw [removeVertex_vertices, fillInEdges_vertices]
    have := hp.length_eq
    simp only [List.length_cons] at this
    omega

/-- With at least as much fuel as vertices the loop ends after exactly as many
iterations as the graph has vertices, having appended each vertex once. -/
theorem minfillLoop_perm (fuel : Nat) (g : Graph) (acc : List Int) (iterations : Nat)
    (hn : g.vertices.Nodup) (hfuel : g.vertices.length ≤ fuel) :
    ∃ l, minfillLoop fuel g acc iterations = some (l, iterations + g.vertices.length) ∧
      l.Perm (acc ++ g.vertices) := by
  induction fuel generalizing g acc iterations with
  | zero =>
    have hnil : g.vertices = [] := List.length_eq_zero.mp (Nat.le_zero.mp hfuel)
    refine ⟨acc, ?_, ?_⟩
    · simp [minfillLoop, hnil]
    · rw [hnil]; simp
  | succ n ih =>
    by_cases hnil : g.vertices = []
    · refine ⟨acc, ?_, ?_⟩
      · simp [minfillLoop, hnil]
      · rw [hnil]; simp
    · obtain ⟨v, hv, _, _, hp, hnd, hlen⟩ := minfill_step g hn hnil
      unfold minfillLoop
      rw [if_neg hnil, hv]
      simp only
      obtain ⟨l, hl, hperm⟩ := ih ((g.fillInEdges v).removeVertex v) (acc ++ [v])
        (iterations + 1) hnd (by omega)
      refine ⟨l, ?_, ?_⟩
      · rw [hl]
        congr 2
        omega
      · refine hperm.trans ?_
        rw [List.append_assoc, List.singleton_append]
        exact List.Perm.append_left acc hp.symm

/-- With less fuel than vertices the bound is reached. -/
theorem minfillLoop_none (fuel : Nat) (g : Graph) (acc : List Int) (iterations : Nat)
    (hn : g.vertices.Nodup) (hfuel : fuel < g.vertices.length) :
    minfillLoop fuel g acc iterations = none := by
  induction fuel generalizing g acc iterations with
  | zero =>
    have hnil : g.vertices ≠ [] := by
      intro h; rw [h] at hfuel; simp at hfuel
    simp [minfillLoop, hnil]
  | succ n ih =>
    have hnil : g.vertices ≠ [] := by
      intro h; rw [h] at hfuel; simp at hfuel
    obtain ⟨v, hv, _, _, _, hnd, hlen⟩ := minfill_step g hn hnil
    unfold minfillLoop
    rw [if_neg hnil, hv]
    simp only
    exact ih _ _ _ hnd (by omega)

end Addmc

namespace Addmc

/-! ## The clause line -/

theorem clauseTokensOk_singleton (n t : Int) :
    ClauseTokensOk n [t] ↔ t = 0 ∧ 0 ≤ n := by
  unfold ClauseTokensOk
  constructor
  · rintro ⟨h1, _, h3⟩
    simp only [List.getLast?_singleton, Option.some.injEq] at h1
    have := h3 t (List.mem_singleton_self t)
    subst h1
    simpa using this
  · rintro ⟨rfl, hn⟩
    refine ⟨rfl, by simp, ?_⟩
    intro t ht
    simp only [List.mem_singleton] at ht
    subst ht
    simpa using hn

theorem clauseTokensOk_cons (n t t2 : Int) (ts : List Int) :
    ClauseTokensOk n (t :: t2 :: ts) ↔
      t ≠ 0 ∧ (t.natAbs : Int) ≤ n ∧ ClauseTokensOk n (t2 :: ts) := by
  unfold ClauseTokensOk
  simp only [List.getLast?_cons_cons, List.dropLast_cons₂, List.mem_cons, forall_eq_or_imp]
  constructor
  · rintro ⟨h1, ⟨h2, h3⟩, h4, h5, h6⟩
    exact ⟨h2, h4, h1, h3, h5, h6⟩
  · rintro ⟨h2, h4, h1, h3, h5, h6⟩
    exact ⟨h1, ⟨h2, h3⟩, h4, h5, h6⟩

theorem range_iff_natAbs (num n : Int) :
    ¬ (num > n ∨ num < -n) ↔ (num.natAbs : Int) ≤ n := by
  omega

/-- The loop over a clause line whose words read as the integers `ts`: the
line is accepted exactly when `ClauseTokensOk` holds, and then the clause made
of the tokens before the final `0` is added. -/
theorem clauseLoop_spec (rd : NumReader) (ts : List Int) (words : List String)
    (clause : List Int) (st : ParseState)
    (htok : words.map rd.stoll = ts.map some) (hne : ts ≠ []) :
    (ClauseTokensOk st.cnf.declaredVarCount ts →
      clauseLoop rd words clause st =
        some { st with cnf := st.cnf.addClause (clause ++ ts.dropLast),
                       processedClauseCount := st.processedClauseCount + 1 }) ∧
    (¬ ClauseTokensOk st.cnf.declaredVarCount ts → clauseLoop rd words clause st = none) := by
  induction ts generalizing words clause with
  | nil => exact absurd rfl hne
  | cons t ts ih =>
    cases words with
    | nil => simp at htok
    | cons w ws =>
      simp only [List.map_cons, List.cons.injEq] at htok
      obtain ⟨hw, hws⟩ := htok
      cases ts with
      | nil =>
        have hwsnil : ws = [] := by
          simpa using hws
        subst hwsnil
        rw [clauseTokensOk_singleton]
        unfold clauseLoop
        rw [hw]
        simp only
        constructor
        · rintro ⟨rfl, hn⟩
          have hr : ¬ ((0 : Int) > st.cnf.declaredVarCount ∨ (0 : Int) < -st.cnf.declaredVarCount) := by
            omega
          rw [if_neg hr]
          simp [clauseLoop]
        · intro hnot
          by_cases hr : t > st.cnf.declaredVarCount ∨ t < -st.cnf.declaredVarCount
          · rw [if_pos hr]
          · rw [if_neg hr]
            by_cases ht : t = 0
            · exfalso
              apply hnot
              refine ⟨ht, ?_⟩
              subst ht
              omega
            · rw [if_neg ht]
              simp
      | cons t2 ts2 =>
        have hwsne : ws ≠ [] := by
          intro h
          rw [h] at hws
          simp at hws
        rw [clauseTokensOk_cons]
        unfold clauseLoop
        rw [hw]
        simp only
        obtain ⟨ih1, ih2⟩ := ih ws (clause ++ [t]) hws (by simp)
        constructor
        · rintro ⟨ht0, htr, hok⟩
          have hr : ¬ (t > st.cnf.declaredVarCount ∨ t < -st.cnf.declaredVarCount) :=
            (range_iff_natAbs t _).mpr htr
          rw [if_neg hr, if_neg ht0, if_neg hwsne, ih1 hok]
          simp [List.dropLast_cons₂]
        · intro hnot
          by_cases hr : t > st.cnf.declaredVarCount ∨ t < -st.cnf.declaredVarCount
          · rw [if_pos hr]
          · rw [if_neg hr]
            by_cases ht : t = 0
            · rw [if_pos ht]
              simp [hwsne]
            · rw [if_neg ht, if_neg hwsne]
              apply ih2
              intro hok
              exact hnot ⟨ht, (range_iff_natAbs t _).mp hr, hok⟩

/-- C5: once the header has been read, a line that is treated as a clause line
(its first word is none of `p`, `vp`, `c`, `w`) and whose words read as the
integers `ts = t1..tk`, `k ≥ 1`, is accepted exactly when `tk = 0`, no earlier
token is `0` and every token has absolute value at most the declared variable
count; when accepted, exactly the clause `[t1, ..., t(k-1)]` is appended at the
end of `clauses`; otherwise the line is fatal (no state results). -/
theorem C5_clause_line (rd : NumReader) (wf : WeightFormat) (st : ParseState)
    (words : List String) (ts : List Int)
    (hheader : st.problemLineIndex ≠ DUMMY_MIN_INT)
    (hstart : words.head? ≠ some PROBLEM_WORD ∧ words.head? ≠ some "vp" ∧
      words.head? ≠ some "c" ∧ words.head? ≠ some WEIGHT_WORD)
    (htok : words.map rd.stoll = ts.map some) (hne : ts ≠ []) :
    ((∃ st2, processLine rd wf st words = some st2) ↔
      ClauseTokensOk st.cnf.declaredVarCount ts) ∧
    (¬ ClauseTokensOk st.cnf.declaredVarCount ts → processLine rd wf st words = none) ∧
    (∀ st2, processLine rd wf st words = some st2 →
      st2.cnf.clauses = st.cnf.clauses ++ [ts.dropLast] ∧
      st2.cnf.declaredVarCount = st.cnf.declaredVarCount ∧
      st2.cnf.literalWeights = st.cnf.literalWeights ∧
      st2.cnf.additiveVars = st.cnf.additiveVars) := by
  have hproc : processLine rd wf st words =
      clauseLoop rd words [] { st with lineIndex := st.lineIndex + 1 } := by
    cases words with
    | nil =>
      cases ts with
      | nil => exact absurd rfl hne
      | cons t ts => simp at htok
    | cons w ws =>
      obtain ⟨h1, h2, h3, h4⟩ := hstart
      simp only [List.head?_cons, ne_eq, Option.some.injEq] at h1 h2 h3 h4
      unfold processLine
      simp only [h1, h2, h3, h4, if_false]
      unfold clauseLine
      rw [if_neg hheader]
  obtain ⟨hok, hbad⟩ := clauseLoop_spec rd ts words []
    { st with lineIndex := st.lineIndex + 1 } htok hne
  simp only [List.nil_append] at hok
  refine ⟨?_, ?_, ?_⟩
  · constructor
    · rintro ⟨st2, hst2⟩
      by_contra hnot
      rw [hproc, hbad hnot] at hst2
      exact Option.noConfusion hst2
    · intro h
      exact ⟨_, by rw [hproc, hok h]⟩
  · intro hnot
    rw [hproc, hbad hnot]
  · intro st2 hst2
    by_cases h : ClauseTokensOk st.cnf.declaredVarCount ts
    · rw [hproc, hok h] at hst2
      simp only [Option.some.injEq] at hst2
      subst hst2
      simp only
      exact ⟨addClause_clauses _ _, addClause_declaredVarCount _ _,
        addClause_literalWeights _ _, addClause_additiveVars _ _⟩
    · rw [hproc, hbad h] at hst2
      exact Option.noConfusion hst2

end Addmc

namespace Addmc

/-! ## The parsing loop: what every line maintains -/

theorem dummy_neg : DUMMY_MIN_INT < 0 := by decide

theorem mem_varRange (n v : Int) : v ∈ varRange n ↔ 1 ≤ v ∧ v ≤ n := by
  unfold varRange
  simp only [List.mem_map, List.mem_range]
  constructor
  · rintro ⟨k, hk, rfl⟩
    omega
  · rintro ⟨h1, h2⟩
    refine ⟨(v - 1).toNat, ?_, ?_⟩
    · omega
    · omega

theorem varRange_nodup (n : Int) : (varRange n).Nodup := by
  unfold varRange
  apply List.Nodup.map
  · intro a b h
    simpa using h
  · exact List.nodup_range _

theorem Map.find_set_isSome {V : Type} (m : Map V) (k : Int) (v : V) (k2 : Int)
    (h : (m.find k2).isSome = true) : ((m.set k v).find k2).isSome = true := by
  rw [Map.find_set]
  split
  · rfl
  · exact h

theorem Map.find_set_self {V : Type} (m : Map V) (k : Int) (v : V) :
    (m.set k v).find k = some v := by
  rw [Map.find_set, if_pos rfl]

/-- The result of the loop over a clause line: the state is unchanged, or one
clause of nonzero literals within the declared range has been added. -/
theorem clauseLoop_result (rd : NumReader) (ws : List String) (clause : List Int)
    (st st2 : ParseState)
    (hc : ∀ l ∈ clause, l ≠ 0 ∧ (l.natAbs : Int) ≤ st.cnf.declaredVarCount)
    (h : clauseLoop rd ws clause st = some st2) :
    st2 = st ∨ ∃ c, (∀ l ∈ c, l ≠ 0 ∧ (l.natAbs : Int) ≤ st.cnf.declaredVarCount) ∧
      st2 = { st with cnf := st.cnf.addClause c,
                      processedClauseCount := st.processedClauseCount + 1 } := by
  induction ws generalizing clause with
  | nil =>
    simp only [clauseLoop, Option.some.injEq] at h
    exact Or.inl h.symm
  | cons w ws ih =>
    unfold clauseLoop at h
    cases hw : rd.stoll w with
    | none => rw [hw] at h; exact Option.noConfusion h
    | some num =>
      rw [hw] at h
      simp only at h
      by_cases hr : num > st.cnf.declaredVarCount ∨ num < -st.cnf.declaredVarCount
      · rw [if_pos hr] at h; exact Option.noConfusion h
      · rw [if_neg hr] at h
        by_cases h0 : num = 0
        · rw [if_pos h0] at h
          by_cases hws : ws = []
          · subst hws
            simp only [ne_eq, not_true_eq_false, if_false, clauseLoop, Option.some.injEq] at h
            exact Or.inr ⟨clause, hc, h.symm⟩
          · rw [if_pos hws] at h; exact Option.noConfusion h
        · rw [if_neg h0] at h
          by_cases hws : ws = []
          · rw [if_pos hws] at h; exact Option.noConfusion h
          · rw [if_neg hws] at h
            apply ih (clause ++ [num]) _ h
            intro l hl
            rcases List.mem_append.mp hl with hl | hl
            · exact hc l hl
            · simp only [List.mem_singleton] at hl
              subst hl
              exact ⟨h0, (range_iff_natAbs l _).mp hr⟩

theorem minic2dLoop_total (rd : NumReader) (words : List String) (vars : List Int)
    (lw lw2 : Map ℚ) (h : minic2dLoop rd words vars lw = some lw2) :
    (∀ v ∈ vars, (lw2.find v).isSome = true ∧ (lw2.find (-v)).isSome = true) ∧
    (∀ k, (lw.find k).isSome = true → (lw2.find k).isSome = true) := by
  induction vars generalizing lw with
  | nil =>
    simp only [minic2dLoop, Option.some.injEq] at h
    subst h
    exact ⟨by simp, fun k hk => hk⟩
  | cons var vars ih =>
    unfold minic2dLoop at h
    cases h1 : words[(var * 2).toNat]? with
    | none => rw [h1] at h; exact Option.noConfusion h
    | some wp =>
      rw [h1] at h
      simp only at h
      cases h2 : rd.stold wp with
      | none => rw [h2] at h; exact Option.noConfusion h
      | some p =>
        rw [h2] at h
        simp only at h
        cases h3 : words[(var * 2 + 1).toNat]? with
        | none => rw [h3] at h; exact Option.noConfusion h
        | some wn =>
          rw [h3] at h
          simp only at h
          cases h4 : rd.stold wn with
          | none => rw [h4] at h; exact Option.noConfusion h
          | some q =>
            rw [h4] at h
            simp only at h
            obtain ⟨ih1, ih2⟩ := ih _ h
            constructor
            · intro v hv
              rcases List.mem_cons.mp hv with rfl | hv
              · constructor
                · apply ih2
                  apply Map.find_set_isSome
                  rw [Map.find_set_self]
                  rfl
                · apply ih2
                  rw [Map.find_set_self]
                  rfl
              · exact ih1 v hv
            · intro k hk
              apply ih2
              apply Map.find_set_isSome
              apply Map.find_set_isSome
              exact hk

theorem parseInv_init (d0 : Int) (wf : WeightFormat) : ParseInv wf (ParseState.init d0 wf) where
  lineIndex_nonneg := le_refl _
  before_header := fun _ => ⟨rfl, rfl, rfl, rfl⟩
  apparent_nodup := List.nodup_nil
  apparent_range := by intro x hx; simp [ParseState.init, Cnf.init] at hx
  clause_vars := by intro c hc; simp [ParseState.init, Cnf.init] at hc
  apparent_first := rfl
  minic2d_total := by intro _ h; exact absurd rfl h

theorem parseInv_addClause (wf : WeightFormat) (st : ParseState) (c : List Int)
    (hinv : ParseInv wf st) (hh : st.problemLineIndex ≠ DUMMY_MIN_INT)
    (hc : ∀ l ∈ c, l ≠ 0 ∧ (l.natAbs : Int) ≤ st.cnf.declaredVarCount) :
    ParseInv wf { st with cnf := st.cnf.addClause c,
                          processedClauseCount := st.processedClauseCount + 1 } where
  lineIndex_nonneg := hinv.lineIndex_nonneg
  before_header := fun h => absurd h hh
  apparent_nodup := by
    simp only [addClause_apparentVars]
    exact IntSet.nodup_foldl_insert _ _ hinv.apparent_nodup
  apparent_range := by
    intro x hx
    simp only [addClause_apparentVars, IntSet.mem_foldl_insert, List.mem_map] at hx
    simp only [addClause_declaredVarCount]
    rcases hx with hx | ⟨l, hl, rfl⟩
    · exact hinv.apparent_range x hx
    · obtain ⟨h0, hr⟩ := hc l hl
      unfold getCnfVar
      constructor
      · omega
      · exact hr
  clause_vars := by
    intro c2 hc2 l hl
    simp only [addClause_clauses, List.mem_append, List.mem_singleton] at hc2
    simp only [addClause_apparentVars, IntSet.mem_foldl_insert, List.mem_map]
    rcases hc2 with hc2 | rfl
    · exact ⟨(hinv.clause_vars c2 hc2 l hl).1, Or.inl (hinv.clause_vars c2 hc2 l hl).2⟩
    · exact ⟨(hc l hl).1, Or.inr ⟨l, hl, rfl⟩⟩
  apparent_first := addClause_first st.cnf c hinv.apparent_first
  minic2d_total := by
    intro hwf hm v h1 h2
    simp only [addClause_declaredVarCount] at h2
    simp only [addClause_literalWeights]
    exact hinv.minic2d_total hwf hm v h1 h2

theorem parseInv_step_index (wf : WeightFormat) (st : ParseState) (hinv : ParseInv wf st) :
    ParseInv wf { st with lineIndex := st.lineIndex + 1 } where
  lineIndex_nonneg := by have := hinv.lineIndex_nonneg; simp only; omega
  before_header := hinv.before_header
  apparent_nodup := hinv.apparent_nodup
  apparent_range := hinv.apparent_range
  clause_vars := hinv.clause_vars
  apparent_first := hinv.apparent_first
  minic2d_total := hinv.minic2d_total

theorem problemLine_inv (rd : NumReader) (wf : WeightFormat) (st st2 : ParseState)
    (words : List String) (hinv : ParseInv wf st) (hl : 1 ≤ st.lineIndex)
    (h : problemLine rd st words = some st2) : ParseInv wf st2 := by
  unfold problemLine at h
  by_cases hp : st.problemLineIndex ≠ DUMMY_MIN_INT
  · rw [if_pos hp] at h; exact Option.noConfusion h
  · rw [if_neg hp] at h
    simp only [ne_eq, not_not] at hp
    obtain ⟨hc, ha, hw, hm⟩ := hinv.before_header hp
    by_cases hlen : words.length ≠ 4
    · rw [if_pos hlen] at h; exact Option.noConfusion h
    · rw [if_neg hlen] at h
      cases h2 : words[2]? with
      | none => rw [h2] at h; exact Option.noConfusion h
      | some w2 =>
        cases h3 : words[3]? with
        | none => rw [h2, h3] at h; exact Option.noConfusion h
        | some w3 =>
          rw [h2, h3] at h
          simp only at h
          cases h4 : rd.stoll w2 with
          | none => rw [h4] at h; exact Option.noConfusion h
          | some n =>
            cases h5 : rd.stoll w3 with
            | none => rw [h4, h5] at h; exact Option.noConfusion h
            | some m =>
              rw [h4, h5] at h
              simp only [Option.some.injEq] at h
              subst h
              exact {
                lineIndex_nonneg := hinv.lineIndex_nonneg
                before_header := by
                  intro hd
                  simp only at hd
                  have := dummy_neg
                  omega
                apparent_nodup := hinv.apparent_nodup
                apparent_range := by
                  intro x hx
                  simp only [ha] at hx
                  exact absurd hx (List.not_mem_nil x)
                clause_vars := by
                  intro c hc2
                  simp only [hc] at hc2
                  exact absurd hc2 (List.not_mem_nil c)
                apparent_first := by
                  simp only [ha, hc]
                  rfl
                minic2d_total := by
                  intro _ hm2
                  exact absurd hm hm2 }

theorem vpLine_inv (rd : NumReader) (wf : WeightFormat) (st st2 : ParseState)
    (words : List String) (hinv : ParseInv wf st)
    (h : vpLine rd wf st words = some st2) : ParseInv wf st2 := by
  unfold vpLine at h
  by_cases hwf : wf = WeightFormat.WPCNF
  · rw [if_pos hwf] at h
    cases hv : vpLoop rd st.cnf.declaredVarCount words.tail st.cnf.additiveVars with
    | none => rw [hv] at h; exact Option.noConfusion h
    | some s =>
      rw [hv] at h
      simp only [Option.some.injEq] at h
      subst h
      exact {
        lineIndex_nonneg := hinv.lineIndex_nonneg
        before_header := hinv.before_header
        apparent_nodup := hinv.apparent_nodup
        apparent_range := hinv.apparent_range
        clause_vars := hinv.clause_vars
        apparent_first := hinv.apparent_first
        minic2d_total := hinv.minic2d_total }
  · rw [if_neg hwf] at h
    simp only [Option.some.injEq] at h
    subst h
    exact hinv

theorem commentLine_inv (rd : NumReader) (wf : WeightFormat) (st st2 : ParseState)
    (words : List String) (hinv : ParseInv wf st)
    (h : commentLine rd wf st words = some st2) : ParseInv wf st2 := by
  unfold commentLine at h
  by_cases hcond : wf = WeightFormat.MINIC2D ∧ words.length > 1 ∧ words[1]? = some WEIGHTS_WORD
  · rw [if_pos hcond] at h
    by_cases hp : st.problemLineIndex = DUMMY_MIN_INT
    · rw [if_pos hp] at h; exact Option.noConfusion h
    · rw [if_neg hp] at h
      by_cases hm : st.minic2dWeightsLineIndex ≠ DUMMY_MIN_INT
      · rw [if_pos hm] at h; exact Option.noConfusion h
      · rw [if_neg hm] at h
        by_cases hlen : (words.length : Int) ≠ 2 + st.cnf.declaredVarCount * 2
        · rw [if_pos hlen] at h; exact Option.noConfusion h
        · rw [if_neg hlen] at h
          cases hloop : minic2dLoop rd words (varRange st.cnf.declaredVarCount)
              st.cnf.literalWeights with
          | none => rw [hloop] at h; exact Option.noConfusion h
          | some lw =>
            rw [hloop] at h
            simp only [Option.some.injEq] at h
            subst h
            obtain ⟨ht, _⟩ := minic2dLoop_total rd words _ _ _ hloop
            exact {
              lineIndex_nonneg := hinv.lineIndex_nonneg
              before_header := fun hd => absurd hd hp
              apparent_nodup := hinv.apparent_nodup
              apparent_range := hinv.apparent_range
              clause_vars := hinv.clause_vars
              apparent_first := hinv.apparent_first
              minic2d_total := by
                intro _ _ v h1 h2
                exact ht v ((mem_varRange _ v).mpr ⟨h1, h2⟩) }
  · rw [if_neg hcond] at h
    simp only [Option.some.injEq] at h
    subst h
    exact hinv

theorem parseInv_setWeight (wf : WeightFormat) (st : ParseState) (k : Int) (weight : ℚ)
    (hinv : ParseInv wf st) (hh : st.problemLineIndex ≠ DUMMY_MIN_INT) :
    ParseInv wf { st with cnf := { st.cnf with
      literalWeights := st.cnf.literalWeights.set k weight } } where
  lineIndex_nonneg := hinv.lineIndex_nonneg
  before_header := fun h => absurd h hh
  apparent_nodup := hinv.apparent_nodup
  apparent_range := hinv.apparent_range
  clause_vars := hinv.clause_vars
  apparent_first := hinv.apparent_first
  minic2d_total := by
    intro hwf hm v h1 h2
    obtain ⟨a, b⟩ := hinv.minic2d_total hwf hm v h1 h2
    exact ⟨Map.find_set_isSome _ _ _ _ a, Map.find_set_isSome _ _ _ _ b⟩

/-- The result of a weight line: one entry of `literalWeights` is set. -/
theorem weightLine_result (rd : NumReader) (wf : WeightFormat) (st st2 : ParseState)
    (words : List String) (h : weightLine rd wf st words = some st2) :
    st.problemLineIndex ≠ DUMMY_MIN_INT ∧
    ∃ w1 w2 k weight, words[1]? = some w1 ∧ words[2]? = some w2 ∧
      rd.stoll w1 = some k ∧ rd.stold w2 = some weight ∧
      (wf = WeightFormat.CACHET → 1 ≤ k ∧ k ≤ st.cnf.declaredVarCount) ∧
      1 ≤ getCnfVar k ∧ getCnfVar k ≤ st.cnf.declaredVarCount ∧
      (wf = WeightFormat.CACHET ∨ wf = WeightFormat.WCNF ∨ wf = WeightFormat.WPCNF) ∧
      st2 = { st with cnf := { st.cnf with
        literalWeights := st.cnf.literalWeights.set k weight } } := by
  unfold weightLine at h
  by_cases hp : st.problemLineIndex = DUMMY_MIN_INT
  · rw [if_pos hp] at h; exact Option.noConfusion h
  · rw [if_neg hp] at h
    refine ⟨hp, ?_⟩
    by_cases hc : wf = WeightFormat.CACHET ∧
        (words.length = 3 ∨ (words.length = 4 ∧ words[3]? = some LINE_END_WORD))
    · rw [if_pos hc] at h
      cases h1 : words[1]? with
      | none => rw [h1] at h; exact Option.noConfusion h
      | some w1 =>
        cases h2 : words[2]? with
        | none => rw [h1, h2] at h; exact Option.noConfusion h
        | some w2 =>
          rw [h1, h2] at h
          simp only at h
          cases h3 : rd.stoll w1 with
          | none => rw [h3] at h; exact Option.noConfusion h
          | some var =>
            rw [h3] at h
            simp only at h
            by_cases hr : var ≤ 0 ∨ var > st.cnf.declaredVarCount
            · rw [if_pos hr] at h; exact Option.noConfusion h
            · rw [if_neg hr] at h
              cases h4 : rd.stold w2 with
              | none => rw [h4] at h; exact Option.noConfusion h
              | some weight =>
                rw [h4] at h
                simp only [Option.some.injEq] at h
                refine ⟨w1, w2, var, weight, rfl, rfl, h3, h4, ?_, ?_, ?_, Or.inl hc.1, h.symm⟩
                · intro _; omega
                · unfold getCnfVar; omega
                · unfold getCnfVar; omega
    · rw [if_neg hc] at h
      by_cases hd : (wf = WeightFormat.WCNF ∨ wf = WeightFormat.WPCNF) ∧
          (words.length = 3 ∨ (words.length = 4 ∧ words[3]? = some LINE_END_WORD))
      · rw [if_pos hd] at h
        cases h1 : words[1]? with
        | none => rw [h1] at h; exact Option.noConfusion h
        | some w1 =>
          cases h2 : words[2]? with
          | none => rw [h1, h2] at h; exact Option.noConfusion h
          | some w2 =>
            rw [h1, h2] at h
            simp only at h
            cases h3 : rd.stoll w1 with
            | none => rw [h3] at h; exact Option.noConfusion h
            | some literal =>
              rw [h3] at h
              simp only at h
              by_cases hr : getCnfVar literal ≤ 0 ∨ getCnfVar literal > st.cnf.declaredVarCount
              · rw [if_pos hr] at h; exact Option.noConfusion h
              · rw [if_neg hr] at h
                cases h4 : rd.stold w2 with
                | none => rw [h4] at h; exact Option.noConfusion h
                | some weight =>
                  rw [h4] at h
                  simp only [Option.some.injEq] at h
                  refine ⟨w1, w2, literal, weight, rfl, rfl, h3, h4, ?_, ?_, ?_,
                    Or.inr hd.1, h.symm⟩
                  · intro hcachet
                    rcases hd.1 with hx | hx <;> rw [hx] at hcachet <;>
                      exact WeightFormat.noConfusion hcachet
                  · omega
                  · omega
      · rw [if_neg hd] at h; exact Option.noConfusion h

theorem weightLine_inv (rd : NumReader) (wf : WeightFormat) (st st2 : ParseState)
    (words : List String) (hinv : ParseInv wf st)
    (h : weightLine rd wf st words = some st2) : ParseInv wf st2 := by
  obtain ⟨hp, _, _, k, weight, _, _, _, _, _, _, _, _, rfl⟩ := weightLine_result rd wf st st2 words h
  exact parseInv_setWeight wf st k weight hinv hp

theorem clauseLine_inv (rd : NumReader) (wf : WeightFormat) (st st2 : ParseState)
    (words : List String) (hinv : ParseInv wf st)
    (h : clauseLine rd st words = some st2) : ParseInv wf st2 := by
  unfold clauseLine at h
  by_cases hp : st.problemLineIndex = DUMMY_MIN_INT
  · rw [if_pos hp] at h; exact Option.noConfusion h
  · rw [if_neg hp] at h
    rcases clauseLoop_result rd words [] st st2 (by simp) h with rfl | ⟨c, hc, rfl⟩
    · exact hinv
    · exact parseInv_addClause wf st c hinv hp hc

/-- Every line that is accepted maintains the invariant of the loop. -/
theorem processLine_inv (rd : NumReader) (wf : WeightFormat) (st st2 : ParseState)
    (words : List String) (hinv : ParseInv wf st)
    (h : processLine rd wf st words = some st2) : ParseInv wf st2 := by
  have hinv1 := parseInv_step_index wf st hinv
  have hl : 1 ≤ ({ st with lineIndex := st.lineIndex + 1 } : ParseState).lineIndex := by
    have := hinv.lineIndex_nonneg
    simp only
    omega
  unfold processLine at h
  cases words with
  | nil =>
    simp only [Option.some.injEq] at h
    subst h
    exact hinv1
  | cons w ws =>
    simp only at h
    by_cases h1 : w = PROBLEM_WORD
    · rw [if_pos h1] at h
      exact problemLine_inv rd wf _ st2 _ hinv1 hl h
    · rw [if_neg h1] at h
      by_cases h2 : w = "vp"
      · rw [if_pos h2] at h
        exact vpLine_inv rd wf _ st2 _ hinv1 h
      · rw [if_neg h2] at h
        by_cases h3 : w = "c"
        · rw [if_pos h3] at h
          exact commentLine_inv rd wf _ st2 _ hinv1 h
        · rw [if_neg h3] at h
          by_cases h4 : w = WEIGHT_WORD
          · rw [if_pos h4] at h
            exact weightLine_inv rd wf _ st2 _ hinv1 h
          · rw [if_neg h4] at h
            exact clauseLine_inv rd wf _ st2 _ hinv1 h

theorem parseLines_inv (rd : NumReader) (wf : WeightFormat) (lines : List (List String))
    (st st2 : ParseState) (hinv : ParseInv wf st)
    (h : parseLines rd wf st lines = some st2) : ParseInv wf st2 := by
  induction lines generalizing st with
  | nil =>
    simp only [parseLines, Option.some.injEq] at h
    subst h
    exact hinv
  | cons words rest ih =>
    unfold parseLines at h
    cases hstep : processLine rd wf st words with
    | none => rw [hstep] at h; exact Option.noConfusion h
    | some st1 =>
      rw [hstep] at h
      exact ih st1 (processLine_inv rd wf st st1 words hinv hstep) h

/-- What the part of the constructor after the loop leaves as it was. -/
theorem finalize_fields (wf : WeightFormat) (st : ParseState) (f : Cnf) (warned : List Int)
    (h : finalize wf st = some (f, warned)) :
    st.problemLineIndex ≠ DUMMY_MIN_INT ∧
    f.apparentVars = st.cnf.apparentVars ∧ f.declaredVarCount = st.cnf.declaredVarCount ∧
    f.clauses = st.cnf.clauses ∧ completeWeights wf st = some f.literalWeights ∧
    f.checkLiteralWeights = some warned := by
  unfold finalize at h
  by_cases hp : st.problemLineIndex = DUMMY_MIN_INT
  · rw [if_pos hp] at h; exact Option.noConfusion h
  · rw [if_neg hp] at h
    simp only at h
    cases hc : completeWeights wf st with
    | none => rw [hc] at h; exact Option.noConfusion h
    | some lw =>
      rw [hc] at h
      simp only at h
      split at h
      · exact Option.noConfusion h
      · rename_i warned2 hw
        simp only [Option.some.injEq, Prod.mk.injEq] at h
        obtain ⟨hf, hw2⟩ := h
        subst hf
        subst hw2
        exact ⟨hp, rfl, rfl, rfl, rfl, hw⟩

theorem parse_unfold (rd : NumReader) (d0 : Int) (wf : WeightFormat)
    (lines : List (List String)) (r : Cnf × List Int)
    (h : Cnf.parse rd d0 wf lines = some r) :
    ∃ st, parseLines rd wf (ParseState.init d0 wf) lines = some st ∧
      finalize wf st = some r := by
  unfold Cnf.parse at h
  cases hp : parseLines rd wf (ParseState.init d0 wf) lines with
  | none => rw [hp] at h; exact Option.noConfusion h
  | some st =>
    rw [hp] at h
    exact ⟨st, rfl, h⟩

/-- C9: whenever parsing succeeds, in any dialect, every element of
`apparentVars` lies between 1 and the declared variable count, and no variable
occurs twice in `apparentVars`. -/
theorem C9_apparentVars_in_range (rd : NumReader) (d0 : Int) (wf : WeightFormat)
    (lines : List (List String)) (f : Cnf) (warned : List Int)
    (h : Cnf.parse rd d0 wf lines = some (f, warned)) :
    (∀ x ∈ f.apparentVars, 1 ≤ x ∧ x ≤ f.declaredVarCount) ∧ f.apparentVars.Nodup := by
  obtain ⟨st, hst, hfin⟩ := parse_unfold rd d0 wf lines _ h
  have hinv := parseLines_inv rd wf lines _ st (parseInv_init d0 wf) hst
  obtain ⟨_, ha, hd, _, _, _⟩ := finalize_fields wf st f warned hfin
  rw [ha, hd]
  exact ⟨hinv.apparent_range, hinv.apparent_nodup⟩

end Addmc

namespace Addmc

/-! ## The completion of the weights -/

theorem fold_frame (step : Map ℚ → Int → Map ℚ) (hstep : FrameStep step) (vars : List Int)
    (lw : Map ℚ) (k : Int) (hk : ∀ x ∈ vars, k ≠ x ∧ k ≠ -x) :
    (vars.foldl step lw).find k = lw.find k := by
  induction vars generalizing lw with
  | nil => rfl
  | cons x xs ih =>
    simp only [List.foldl_cons]
    rw [ih _ (fun y hy => hk y (List.mem_cons_of_mem _ hy))]
    exact hstep lw x k (hk x (List.mem_cons_self _ _)).1 (hk x (List.mem_cons_self _ _)).2

/-- After the completion loop the two literals of a variable `v` of the loop
hold what the step for `v` gave them, computed from a map that agrees with
the initial one on `v` and `-v`. -/
theorem fold_at (step : Map ℚ → Int → Map ℚ) (hstep : FrameStep step) (vars : List Int)
    (hnd : vars.Nodup) (hpos : ∀ x ∈ vars, 1 ≤ x) (lw : Map ℚ) (v : Int) (hv : v ∈ vars) :
    ∃ lw1, lw1.find v = lw.find v ∧ lw1.find (-v) = lw.find (-v) ∧
      (vars.foldl step lw).find v = (step lw1 v).find v ∧
      (vars.foldl step lw).find (-v) = (step lw1 v).find (-v) := by
  induction vars generalizing lw with
  | nil => exact absurd hv (List.not_mem_nil v)
  | cons x xs ih =>
    simp only [List.foldl_cons]
    obtain ⟨hx, hxs⟩ := List.nodup_cons.mp hnd
    by_cases hvx : v = x
    · subst hvx
      have hv1 : 1 ≤ v := hpos v (List.mem_cons_self _ _)
      refine ⟨lw, rfl, rfl, ?_, ?_⟩
      · apply fold_frame step hstep
        intro y hy
        have hy1 : 1 ≤ y := hpos y (List.mem_cons_of_mem _ hy)
        constructor
        · intro h; exact hx (h ▸ hy)
        · omega
      · apply fold_frame step hstep
        intro y hy
        have hy1 : 1 ≤ y := hpos y (List.mem_cons_of_mem _ hy)
        constructor
        · omega
        · intro h
          have : v = y := by omega
          exact hx (this ▸ hy)
    · have hvxs : v ∈ xs := by
        rcases List.mem_cons.mp hv with h | h
        · exact absurd h hvx
        · exact h
      have hv1 : 1 ≤ v := hpos v hv
      have hx1 : 1 ≤ x := hpos x (List.mem_cons_self _ _)
      obtain ⟨lw1, h1, h2, h3, h4⟩ := ih hxs (fun y hy => hpos y (List.mem_cons_of_mem _ hy))
        (step lw x) hvxs
      refine ⟨lw1, ?_, ?_, h3, h4⟩
      · rw [h1]
        exact hstep lw x v hvx (by omega)
      · rw [h2]
        exact hstep lw x (-v) (by omega) (by omega)

theorem frame_unweighted :
    FrameStep (fun lw var => (lw.set var 1).set (-var) 1) := by
  intro lw x k h1 h2
  simp only
  rw [Map.find_set, if_neg (fun h => h2 h.symm), Map.find_set, if_neg (fun h => h1 h.symm)]

theorem frame_cachet : FrameStep cachetComplete := by
  intro lw x k h1 h2
  unfold cachetComplete
  simp only
  split
  · rw [Map.find_set, if_neg (fun h => h2 h.symm), Map.find_set, if_neg (fun h => h1 h.symm)]
  · rw [Map.find_set, if_neg (fun h => h2 h.symm), Map.find_set, if_neg (fun h => h1 h.symm)]

theorem frame_default : FrameStep defaultComplete := by
  intro lw x k h1 h2
  unfold defaultComplete
  simp only
  split
  · split
    · rw [Map.find_set, if_neg (fun h => h2 h.symm), Map.find_set, if_neg (fun h => h1 h.symm)]
    · rw [Map.find_set, if_neg (fun h => h1 h.symm)]
  · split
    · rw [Map.find_set, if_neg (fun h => h2 h.symm)]
    · rfl

theorem unweighted_at (lw : Map ℚ) (v : Int) :
    ((lw.set v 1).set (-v) 1).find v = some 1 ∧ ((lw.set v 1).set (-v) 1).find (-v) = some 1 := by
  constructor
  · rw [Map.find_set]
    split
    · rfl
    · exact Map.find_set_self _ _ _
  · exact Map.find_set_self _ _ _

/-- The CACHET completion of one variable `v ≥ 1`, from the weight `p` given
to `v` (0.5 when none is given). -/
theorem cachet_at (lw : Map ℚ) (v : Int) (hv : 1 ≤ v) :
    ((lw.find v).getD (1 / 2) = -1 →
      (cachetComplete lw v).find v = some 1 ∧ (cachetComplete lw v).find (-v) = some 1) ∧
    ((lw.find v).getD (1 / 2) ≠ -1 →
      (cachetComplete lw v).find v = some ((lw.find v).getD (1 / 2)) ∧
      (cachetComplete lw v).find (-v) = some (1 - (lw.find v).getD (1 / 2))) := by
  have hne : ¬ (-v = v) := by omega
  have hp : (match lw.find v with
      | some p => p
      | none => (1 / 2 : ℚ)) = (lw.find v).getD (1 / 2) := by
    cases lw.find v <;> rfl
  unfold cachetComplete
  simp only
  rw [hp]
  constructor
  · intro h
    rw [if_pos h]
    exact ⟨by rw [Map.find_set, if_neg hne, Map.find_set_self], Map.find_set_self _ _ _⟩
  · intro h
    rw [if_neg h]
    exact ⟨by rw [Map.find_set, if_neg hne, Map.find_set_self], Map.find_set_self _ _ _⟩

theorem default_at (lw : Map ℚ) (v : Int) :
    ((defaultComplete lw v).find v).isSome = true ∧
    ((defaultComplete lw v).find (-v)).isSome = true := by
  unfold defaultComplete
  simp only
  by_cases h1 : lw.find v = none
  · rw [if_pos h1]
    by_cases h2 : (lw.set v 1).find (-v) = none
    · rw [if_pos h2]
      constructor
      · apply Map.find_set_isSome
        rw [Map.find_set_self]; rfl
      · rw [Map.find_set_self]; rfl
    · rw [if_neg h2]
      constructor
      · rw [Map.find_set_self]; rfl
      · cases hf : (lw.set v 1).find (-v) with
        | none => exact absurd hf h2
        | some q => rfl
  · rw [if_neg h1]
    by_cases h2 : lw.find (-v) = none
    · rw [if_pos h2]
      constructor
      · apply Map.find_set_isSome
        cases hf : lw.find v with
        | none => exact absurd hf h1
        | some q => rfl
      · rw [Map.find_set_self]; rfl
    · rw [if_neg h2]
      constructor
      · cases hf : lw.find v with
        | none => exact absurd hf h1
        | some q => rfl
      · cases hf : lw.find (-v) with
        | none => exact absurd hf h2
        | some q => rfl

/-- After the loop and the completion, both literals of every declared
variable have a weight. -/
theorem completeWeights_total (rd : NumReader) (d0 : Int) (wf : WeightFormat)
    (lines : List (List String)) (st : ParseState) (lw : Map ℚ)
    (h1 : parseLines rd wf (ParseState.init d0 wf) lines = some st)
    (h2 : completeWeights wf st = some lw) (v : Int) (hv1 : 1 ≤ v)
    (hv2 : v ≤ st.cnf.declaredVarCount) :
    (lw.find v).isSome = true ∧ (lw.find (-v)).isSome = true := by
  have hinv := parseLines_inv rd wf lines _ st (parseInv_init d0 wf) h1
  have hmem : v ∈ varRange st.cnf.declaredVarCount := (mem_varRange _ v).mpr ⟨hv1, hv2⟩
  have hpos : ∀ x ∈ varRange st.cnf.declaredVarCount, 1 ≤ x :=
    fun x hx => ((mem_varRange _ x).mp hx).1
  cases wf with
  | MINIC2D =>
    simp only [completeWeights] at h2
    by_cases hm : st.minic2dWeightsLineIndex = DUMMY_MIN_INT
    · rw [if_pos hm] at h2; exact Option.noConfusion h2
    · rw [if_neg hm] at h2
      simp only [Option.some.injEq] at h2
      subst h2
      exact hinv.minic2d_total rfl hm v hv1 hv2
  | UNWEIGHTED =>
    simp only [completeWeights, Option.some.injEq] at h2
    subst h2
    obtain ⟨lw1, _, _, h3, h4⟩ := fold_at _ frame_unweighted _ (varRange_nodup _) hpos
      st.cnf.literalWeights v hmem
    rw [h3, h4, (unweighted_at lw1 v).1, (unweighted_at lw1 v).2]
    exact ⟨rfl, rfl⟩
  | CACHET =>
    simp only [completeWeights, Option.some.injEq] at h2
    subst h2
    obtain ⟨lw1, _, _, h3, h4⟩ := fold_at _ frame_cachet _ (varRange_nodup _) hpos
      st.cnf.literalWeights v hmem
    rw [h3, h4]
    obtain ⟨ha, hb⟩ := cachet_at lw1 v hv1
    by_cases hp : (lw1.find v).getD (1 / 2) = -1
    · rw [(ha hp).1, (ha hp).2]; exact ⟨rfl, rfl⟩
    · rw [(hb hp).1, (hb hp).2]; exact ⟨rfl, rfl⟩
  | WCNF =>
    simp only [completeWeights, Option.some.injEq] at h2
    subst h2
    obtain ⟨lw1, _, _, h3, h4⟩ := fold_at _ frame_default _ (varRange_nodup _) hpos
      st.cnf.literalWeights v hmem
    rw [h3, h4]
    exact default_at lw1 v
  | WPCNF =>
    simp only [completeWeights, Option.some.injEq] at h2
    subst h2
    obtain ⟨lw1, _, _, h3, h4⟩ := fold_at _ frame_default _ (varRange_nodup _) hpos
      st.cnf.literalWeights v hmem
    rw [h3, h4]
    exact default_at lw1 v

/-! ## `checkLiteralWeights` -/

theorem checkLoop_isSome (lw : Map ℚ) (lits : List Int)
    (h : ∀ lit ∈ lits, (lw.find lit).isSome = true) :
    ∃ warned, checkLiteralWeightsLoop lw lits = some warned := by
  induction lits with
  | nil => exact ⟨[], rfl⟩
  | cons lit lits ih =>
    obtain ⟨warned, hw⟩ := ih (fun l hl => h l (List.mem_cons_of_mem _ hl))
    have hlit := h lit (List.mem_cons_self _ _)
    cases hf : lw.find lit with
    | none => rw [hf] at hlit; exact absurd hlit (by simp)
    | some weight =>
      unfold checkLiteralWeightsLoop
      rw [hf, hw]
      exact ⟨_, rfl⟩

/-- When `checkLiteralWeights` returns, every literal it visits has a weight
and the literals warned about are those of weight at most 0. -/
theorem checkLoop_spec (lw : Map ℚ) (lits warned : List Int)
    (h : checkLiteralWeightsLoop lw lits = some warned) :
    (∀ lit ∈ lits, ∃ w, lw.find lit = some w) ∧
    (∀ x, x ∈ warned ↔ x ∈ lits ∧ ∃ w, lw.find x = some w ∧ w ≤ 0) := by
  induction lits generalizing warned with
  | nil =>
    simp only [checkLiteralWeightsLoop, Option.some.injEq] at h
    subst h
    simp
  | cons lit lits ih =>
    unfold checkLiteralWeightsLoop at h
    cases hf : lw.find lit with
    | none => rw [hf] at h; exact Option.noConfusion h
    | some weight =>
      rw [hf] at h
      simp only at h
      cases hr : checkLiteralWeightsLoop lw lits with
      | none => rw [hr] at h; exact Option.noConfusion h
      | some warned2 =>
        rw [hr] at h
        simp only [Option.some.injEq] at h
        obtain ⟨ih1, ih2⟩ := ih warned2 hr
        constructor
        · intro l hl
          rcases List.mem_cons.mp hl with rfl | hl
          · exact ⟨weight, hf⟩
          · exact ih1 l hl
        · intro x
          rw [← h]
          by_cases hw : weight ≤ 0
          · rw [if_pos hw]
            simp only [List.mem_cons, ih2]
            constructor
            · rintro (rfl | ⟨h1, h2⟩)
              · exact ⟨Or.inl rfl, weight, hf, hw⟩
              · exact ⟨Or.inr h1, h2⟩
            · rintro ⟨rfl | h1, h2⟩
              · exact Or.inl rfl
              · exact Or.inr ⟨h1, h2⟩
          · rw [if_neg hw]
            simp only [List.mem_cons, ih2]
            constructor
            · rintro ⟨h1, h2⟩
              exact ⟨Or.inr h1, h2⟩
            · rintro ⟨rfl | h1, w, h2, h3⟩
              · rw [hf] at h2
                simp only [Option.some.injEq] at h2
                rw [h2] at hw
                exact absurd h3 hw
              · exact ⟨h1, w, h2, h3⟩

theorem mem_checked_literals (n v : Int) (h1 : 1 ≤ v) (h2 : v ≤ n) :
    v ∈ (varRange n).flatMap (fun var => [var, -var]) ∧
    -v ∈ (varRange n).flatMap (fun var => [var, -var]) := by
  have hmem : v ∈ varRange n := (mem_varRange n v).mpr ⟨h1, h2⟩
  simp only [List.mem_flatMap, List.mem_cons, List.mem_singleton]
  exact ⟨⟨v, hmem, Or.inl rfl⟩, ⟨v, hmem, Or.inr (Or.inl rfl)⟩⟩

/-- When the loop over the lines and the completion of the weights succeed,
both literals of every declared variable have a weight, the lookups of
`checkLiteralWeights` succeed, and the constructor returns if the header was
read. -/
theorem weights_total_of_loop (rd : NumReader) (d0 : Int) (wf : WeightFormat)
    (lines : List (List String)) (st : ParseState) (lw : Map ℚ)
    (h1 : parseLines rd wf (ParseState.init d0 wf) lines = some st)
    (h2 : completeWeights wf st = some lw) :
    (∀ v, 1 ≤ v → v ≤ st.cnf.declaredVarCount →
      (lw.find v).isSome = true ∧ (lw.find (-v)).isSome = true) ∧
    (∃ warned, Cnf.checkLiteralWeights { st.cnf with literalWeights := lw } = some warned) ∧
    (st.problemLineIndex ≠ DUMMY_MIN_INT →
      ∃ f warned, Cnf.parse rd d0 wf lines = some (f, warned) ∧ f.literalWeights = lw ∧
        f.declaredVarCount = st.cnf.declaredVarCount ∧
        ∀ v, 1 ≤ v → v ≤ f.declaredVarCount →
          (f.literalWeights.find v).isSome = true ∧
          (f.literalWeights.find (-v)).isSome = true) := by
  have htotal := completeWeights_total rd d0 wf lines st lw h1 h2
  have hcheck : ∃ warned, checkLiteralWeightsLoop lw
      ((varRange st.cnf.declaredVarCount).flatMap (fun var => [var, -var])) = some warned := by
    apply checkLoop_isSome
    intro lit hlit
    simp only [List.mem_flatMap, List.mem_cons, List.mem_singleton] at hlit
    obtain ⟨var, hvar, hl⟩ := hlit
    obtain ⟨hv1, hv2⟩ := (mem_varRange _ var).mp hvar
    rcases hl with rfl | rfl | hl
    · exact (htotal _ hv1 hv2).1
    · exact (htotal _ hv1 hv2).2
    · exact absurd hl (List.not_mem_nil _)
  refine ⟨htotal, ?_, ?_⟩
  · exact hcheck
  · intro hp
    obtain ⟨warned, hw⟩ := hcheck
    refine ⟨{ st.cnf with
      additiveVars :=
        if wf ≠ WeightFormat.WPCNF then
          (varRange st.cnf.declaredVarCount).foldl IntSet.insert st.cnf.additiveVars
        else st.cnf.additiveVars,
      literalWeights := lw }, warned, ?_, rfl, rfl, htotal⟩
    unfold Cnf.parse
    rw [h1]
    simp only
    unfold finalize
    rw [if_neg hp, h2]
    simp only
    unfold Cnf.checkLiteralWeights
    simp only
    rw [hw]

/-- C6: in every dialect, for every input on which parsing succeeds with
declared variable count `n`, `literalWeights` has an entry for `v` and for
`-v` for every `v` in `[1, n]`; and whenever the loop over the lines and the
completion of the weights succeed, the lookups of `checkLiteralWeights` do
not fail. -/
theorem C6_literalWeights_total (rd : NumReader) (d0 : Int) (wf : WeightFormat)
    (lines : List (List String)) :
    (∀ f warned, Cnf.parse rd d0 wf lines = some (f, warned) →
      ∀ v, 1 ≤ v → v ≤ f.declaredVarCount →
        (f.literalWeights.find v).isSome = true ∧
        (f.literalWeights.find (-v)).isSome = true) ∧
    (∀ st lw, parseLines rd wf (ParseState.init d0 wf) lines = some st →
      completeWeights wf st = some lw →
      (∀ v, 1 ≤ v → v ≤ st.cnf.declaredVarCount →
        (lw.find v).isSome = true ∧ (lw.find (-v)).isSome = true) ∧
      (∃ warned, Cnf.checkLiteralWeights { st.cnf with literalWeights := lw } = some warned) ∧
      (st.problemLineIndex ≠ DUMMY_MIN_INT →
        ∃ f warned, Cnf.parse rd d0 wf lines = some (f, warned) ∧ f.literalWeights = lw)) := by
  constructor
  · intro f warned h v hv1 hv2
    obtain ⟨st, hst, hfin⟩ := parse_unfold rd d0 wf lines _ h
    obtain ⟨_, _, hd, _, hc, _⟩ := finalize_fields wf st f warned hfin
    rw [hd] at hv2
    exact completeWeights_total rd d0 wf lines st _ hst hc v hv1 hv2
  · intro st lw h1 h2
    obtain ⟨a, b, c⟩ := weights_total_of_loop rd d0 wf lines st lw h1 h2
    refine ⟨a, b, ?_⟩
    intro hp
    obtain ⟨f, warned, hf, hlw, _⟩ := c hp
    exact ⟨f, warned, hf, hlw⟩

end Addmc

namespace Addmc

/-! ## CACHET: the weight lines seen by the loop -/

theorem cachetLineWeight_of_ne (rd : NumReader) (v : Int) (w : String) (ws : List String)
    (h : w ≠ WEIGHT_WORD) : cachetLineWeight rd v (w :: ws) = none := by
  unfold cachetLineWeight
  split
  · rename_i w2 a b rest heq
    simp only [List.cons.injEq] at heq
    rw [← heq.1]
    rw [if_neg (fun hc => h hc.1)]
  · rfl

theorem lastCachetWeight_append (rd : NumReader) (processed : List (List String))
    (words : List String) (v : Int) :
    lastCachetWeight rd (processed ++ [words]) v =
      match cachetLineWeight rd v words with
      | some p => some p
      | none => lastCachetWeight rd processed v := by
  unfold lastCachetWeight
  rw [List.reverse_append, List.reverse_singleton, List.singleton_append, List.findSome?_cons]
  cases cachetLineWeight rd v words <;> rfl

theorem problemLine_literalWeights (rd : NumReader) (st st2 : ParseState) (words : List String)
    (h : problemLine rd st words = some st2) :
    st2.cnf.literalWeights = st.cnf.literalWeights := by
  unfold problemLine at h
  split at h
  · exact Option.noConfusion h
  · split at h
    · exact Option.noConfusion h
    · split at h
      · split at h
        · simp only [Option.some.injEq] at h
          subst h
          rfl
        · exact Option.noConfusion h
      · exact Option.noConfusion h

theorem vpLine_literalWeights (rd : NumReader) (wf : WeightFormat) (st st2 : ParseState)
    (words : List String) (h : vpLine rd wf st words = some st2) :
    st2.cnf.literalWeights = st.cnf.literalWeights := by
  unfold vpLine at h
  split at h
  · split at h
    · exact Option.noConfusion h
    · simp only [Option.some.injEq] at h
      subst h
      rfl
  · simp only [Option.some.injEq] at h
    subst h
    rfl

theorem commentLine_of_not_minic2d (rd : NumReader) (wf : WeightFormat) (st : ParseState)
    (words : List String) (h : wf ≠ WeightFormat.MINIC2D) :
    commentLine rd wf st words = some st := by
  unfold commentLine
  rw [if_neg (fun hc => h hc.1)]

theorem clauseLine_literalWeights (rd : NumReader) (st st2 : ParseState) (words : List String)
    (h : clauseLine rd st words = some st2) :
    st2.cnf.literalWeights = st.cnf.literalWeights := by
  unfold clauseLine at h
  split at h
  · exact Option.noConfusion h
  · rcases clauseLoop_result rd words [] st st2 (by simp) h with rfl | ⟨c, _, rfl⟩
    · rfl
    · exact addClause_literalWeights _ _

theorem words_shape (words : List String) (w w1 w2 : String) (ws : List String)
    (h0 : words = w :: ws) (h1 : words[1]? = some w1) (h2 : words[2]? = some w2) :
    ∃ rest, words = w :: w1 :: w2 :: rest := by
  subst h0
  cases ws with
  | nil => simp at h1
  | cons a t =>
    cases t with
    | nil => simp at h2
    | cons b rest =>
      simp only [List.getElem?_cons_succ, List.getElem?_cons_zero, Option.some.injEq] at h1 h2
      subst h1
      subst h2
      exact ⟨rest, rfl⟩

/-- In the CACHET dialect an accepted line changes the weight stored for `v`
exactly when it is a line `w v p`, and then to `p`. -/
theorem processLine_cachet (rd : NumReader) (st st2 : ParseState) (words : List String)
    (h : processLine rd WeightFormat.CACHET st words = some st2) (v : Int) :
    st2.cnf.literalWeights.find v =
      match cachetLineWeight rd v words with
      | some p => some p
      | none => st.cnf.literalWeights.find v := by
  unfold processLine at h
  cases words with
  | nil =>
    simp only [Option.some.injEq] at h
    subst h
    rfl
  | cons w ws =>
    simp only at h
    by_cases h1 : w = PROBLEM_WORD
    · rw [if_pos h1] at h
      have hne : w ≠ WEIGHT_WORD := by rw [h1]; decide
      rw [cachetLineWeight_of_ne rd v w ws hne, problemLine_literalWeights rd _ st2 _ h]
    · rw [if_neg h1] at h
      by_cases h2 : w = "vp"
      · rw [if_pos h2] at h
        have hne : w ≠ WEIGHT_WORD := by rw [h2]; decide
        rw [cachetLineWeight_of_ne rd v w ws hne, vpLine_literalWeights rd _ _ st2 _ h]
      · rw [if_neg h2] at h
        by_cases h3 : w = "c"
        · rw [if_pos h3] at h
          have hne : w ≠ WEIGHT_WORD := by rw [h3]; decide
          rw [commentLine_of_not_minic2d rd _ _ _ (by decide)] at h
          simp only [Option.some.injEq] at h
          subst h
          rw [cachetLineWeight_of_ne rd v w ws hne]
        · rw [if_neg h3] at h
          by_cases h4 : w = WEIGHT_WORD
          · rw [if_pos h4] at h
            obtain ⟨_, w1, w2, k, weight, hw1, hw2, hk, hweight, _, _, _, _, rfl⟩ :=
              weightLine_result rd _ _ st2 _ h
            obtain ⟨rest, hshape⟩ := words_shape (w :: ws) w w1 w2 ws rfl hw1 hw2
            rw [hshape]
            simp only [cachetLineWeight, h4, true_and, hk, Option.some.injEq, Map.find_set]
            by_cases hkv : k = v
            · rw [if_pos hkv, if_pos hkv, hweight]
            · rw [if_neg hkv, if_neg hkv]
          · rw [if_neg h4] at h
            rw [cachetLineWeight_of_ne rd v w ws h4, clauseLine_literalWeights rd _ st2 _ h]

theorem parseLines_cachet (rd : NumReader) (lines processed : List (List String))
    (st st2 : ParseState) (h : parseLines rd WeightFormat.CACHET st lines = some st2)
    (hI : ∀ v, st.cnf.literalWeights.find v = lastCachetWeight rd processed v) :
    ∀ v, st2.cnf.literalWeights.find v = lastCachetWeight rd (processed ++ lines) v := by
  induction lines generalizing st processed with
  | nil =>
    simp only [parseLines, Option.some.injEq] at h
    subst h
    simpa using hI
  | cons words rest ih =>
    unfold parseLines at h
    cases hstep : processLine rd WeightFormat.CACHET st words with
    | none => rw [hstep] at h; exact Option.noConfusion h
    | some st1 =>
      rw [hstep] at h
      have := ih (processed ++ [words]) st1 h (by
        intro v
        rw [processLine_cachet rd st st1 words hstep v, lastCachetWeight_append, hI v])
      simpa using this

/-- C7: after a successful CACHET parse with declared count `n`, for every `v`
in `[1, n]`, with `p` the weight of the last line `w v p` for `v`, or 1/2 if
there is none: if `p = -1` both literal weights of `v` are 1; otherwise the
weight of `v` is `p` and that of `-v` is `1 - p`, and the two add up to 1. -/
theorem C7_cachet_completion (rd : NumReader) (d0 : Int) (lines : List (List String))
    (f : Cnf) (warned : List Int)
    (h : Cnf.parse rd d0 WeightFormat.CACHET lines = some (f, warned))
    (v : Int) (hv1 : 1 ≤ v) (hv2 : v ≤ f.declaredVarCount) :
    ((lastCachetWeight rd lines v).getD (1 / 2) = -1 →
      f.literalWeights.find v = some 1 ∧ f.literalWeights.find (-v) = some 1) ∧
    ((lastCachetWeight rd lines v).getD (1 / 2) ≠ -1 →
      f.literalWeights.find v = some ((lastCachetWeight rd lines v).getD (1 / 2)) ∧
      f.literalWeights.find (-v) = some (1 - (lastCachetWeight rd lines v).getD (1 / 2)) ∧
      ∃ a b, f.literalWeights.find v = some a ∧ f.literalWeights.find (-v) = some b ∧
        a + b = 1) := by
  obtain ⟨st, hst, hfin⟩ := parse_unfold rd d0 _ lines _ h
  obtain ⟨_, _, hd, _, hc, _⟩ := finalize_fields _ st f warned hfin
  have htrack := parseLines_cachet rd lines [] _ st hst (by
    intro v
    simp [ParseState.init, Cnf.init, Map.find, lastCachetWeight])
  simp only [List.nil_append] at htrack
  simp only [completeWeights, Option.some.injEq] at hc
  rw [hd] at hv2
  have hmem : v ∈ varRange st.cnf.declaredVarCount := (mem_varRange _ v).mpr ⟨hv1, hv2⟩
  have hpos : ∀ x ∈ varRange st.cnf.declaredVarCount, 1 ≤ x :=
    fun x hx => ((mem_varRange _ x).mp hx).1
  obtain ⟨lw1, h1, _, h3, h4⟩ := fold_at _ frame_cachet _ (varRange_nodup _) hpos
    st.cnf.literalWeights v hmem
  rw [hc] at h3 h4
  obtain ⟨ha, hb⟩ := cachet_at lw1 v hv1
  rw [h1, htrack v] at ha hb
  rw [h3, h4]
  constructor
  · exact ha
  · intro hp
    obtain ⟨hb1, hb2⟩ := hb hp
    refine ⟨hb1, hb2, _, _, hb1, hb2, ?_⟩
    ring

end Addmc

namespace Addmc

/-! ## The statements at concrete inputs -/

/-- C5 at the line `1 -2 0` after the header `p cnf 3 2`. -/
theorem C5_clause_line_witness :
    ((∃ st2, processLine decimalReader WeightFormat.UNWEIGHTED exampleHeaderState
        ["1", "-2", "0"] = some st2) ↔
      ClauseTokensOk exampleHeaderState.cnf.declaredVarCount [1, -2, 0]) ∧
    (¬ ClauseTokensOk exampleHeaderState.cnf.declaredVarCount [1, -2, 0] →
      processLine decimalReader WeightFormat.UNWEIGHTED exampleHeaderState
        ["1", "-2", "0"] = none) ∧
    (∀ st2, processLine decimalReader WeightFormat.UNWEIGHTED exampleHeaderState
        ["1", "-2", "0"] = some st2 →
      st2.cnf.clauses = exampleHeaderState.cnf.clauses ++ [[1, -2, 0].dropLast] ∧
      st2.cnf.declaredVarCount = exampleHeaderState.cnf.declaredVarCount ∧
      st2.cnf.literalWeights = exampleHeaderState.cnf.literalWeights ∧
      st2.cnf.additiveVars = exampleHeaderState.cnf.additiveVars) :=
  C5_clause_line decimalReader WeightFormat.UNWEIGHTED exampleHeaderState
    ["1", "-2", "0"] [1, -2, 0] (by decide) (by decide) (by decide) (by decide)

/-- C6 at the input `p cnf 3 2 / 1 -2 0 / 2 3 0`, UNWEIGHTED, for the variable 3. -/
theorem C6_literalWeights_total_witness :
    Cnf.parse decimalReader 0 WeightFormat.UNWEIGHTED exampleUnweightedLines
      = some (exampleUnweightedCnf, []) ∧
    (exampleUnweightedCnf.literalWeights.find 3).isSome = true ∧
    (exampleUnweightedCnf.literalWeights.find (-3)).isSome = true :=
  ⟨by decide,
    (C6_literalWeights_total decimalReader 0 WeightFormat.UNWEIGHTED
      exampleUnweightedLines).1 exampleUnweightedCnf [] (by decide) 3 (by decide) (by decide)⟩

/-- C7 at the input `p cnf 2 1 / w 1 0.3 / 1 2 0`, for the variable 1. -/
theorem C7_cachet_completion_witness :
    ((lastCachetWeight decimalReader exampleCachetLines 1).getD (1 / 2) = -1 →
      exampleCachetCnf.literalWeights.find 1 = some 1 ∧
      exampleCachetCnf.literalWeights.find (-1) = some 1) ∧
    ((lastCachetWeight decimalReader exampleCachetLines 1).getD (1 / 2) ≠ -1 →
      exampleCachetCnf.literalWeights.find 1
        = some ((lastCachetWeight decimalReader exampleCachetLines 1).getD (1 / 2)) ∧
      exampleCachetCnf.literalWeights.find (-1)
        = some (1 - (lastCachetWeight decimalReader exampleCachetLines 1).getD (1 / 2)) ∧
      ∃ a b, exampleCachetCnf.literalWeights.find 1 = some a ∧
        exampleCachetCnf.literalWeights.find (-1) = some b ∧ a + b = 1) :=
  C7_cachet_completion decimalReader 0 exampleCachetLines exampleCachetCnf []
    (by decide!) 1 (by decide) (by decide)

/-- C9 at the input `p cnf 3 2 / 1 -2 0 / 2 3 0`, UNWEIGHTED. -/
theorem C9_apparentVars_in_range_witness :
    (∀ x ∈ exampleUnweightedCnf.apparentVars,
      1 ≤ x ∧ x ≤ exampleUnweightedCnf.declaredVarCount) ∧
    exampleUnweightedCnf.apparentVars.Nodup :=
  C9_apparentVars_in_range decimalReader 0 WeightFormat.UNWEIGHTED exampleUnweightedLines
    exampleUnweightedCnf [] (by decide)

end Addmc

namespace Addmc

/-! ## The Gaifman graph and the orderings of every constructed formula -/

theorem parse_varsRecorded (rd : NumReader) (d0 : Int) (wf : WeightFormat)
    (lines : List (List String)) (f : Cnf) (warned : List Int)
    (h : Cnf.parse rd d0 wf lines = some (f, warned)) : f.VarsRecorded := by
  obtain ⟨st, hst, hfin⟩ := parse_unfold rd d0 wf lines _ h
  have hinv := parseLines_inv rd wf lines _ st (parseInv_init d0 wf) hst
  obtain ⟨_, ha, _, hc, _, _⟩ := finalize_fields wf st f warned hfin
  unfold Cnf.VarsRecorded
  rw [ha, hc]
  exact ⟨hinv.apparent_nodup, fun c hc2 l hl => (hinv.clause_vars c hc2 l hl).2⟩

theorem gaifman_spec (f : Cnf) (hf : f.VarsRecorded) : IsGaifmanGraphOf f f.getGaifmanGraph := by
  refine ⟨gaifman_vertices f, gaifman_vertices_nodup f, ?_, ?_, ?_, ?_⟩
  · intro u v huv
    exact gaifman_isNeighbor f hf.2 u v huv
  · intro u v; exact Graph.isNeighbor_comm _ u v
  · intro u v; rw [Graph.isNeighbor_iff, Graph.mem_neighbors]
  · intro u; exact Graph.Loopless.not_isNeighbor_self _ (gaifman_loopless f) u

theorem lexp_ordering (f : Cnf) (hf : f.VarsRecorded) : IsOrderingOf f f.getLexpVarOrdering := by
  obtain ⟨l, hl, hp⟩ := lexp_perm_of_nodup f hf.1
  exact ⟨l, hl, hp, hp.nodup_iff.mpr hf.1⟩

theorem lexm_ordering (f : Cnf) (hf : f.VarsRecorded) : IsOrderingOf f f.getLexmVarOrdering := by
  obtain ⟨l, hl, hp⟩ := lexm_perm_of_nodup f hf.1
  exact ⟨l, hl, hp, hp.nodup_iff.mpr hf.1⟩

theorem mcs_ordering (f : Cnf) (hf : f.VarsRecorded) (k : Nat) :
    IsOrderingOf f (f.getMcsVarOrdering (f.apparentVars.length + k)) ∧
    (f.getMcsVarOrdering (f.apparentVars.length + k) = some [] ↔ f.apparentVars = []) := by
  obtain ⟨l, hl, hp⟩ := mcs_perm_of_nodup f hf.1 k
  refine ⟨⟨l, hl, hp, hp.nodup_iff.mpr hf.1⟩, ?_⟩
  rw [hl]
  simp only [Option.some.injEq]
  constructor
  · intro h
    rw [h] at hp
    exact List.nil_perm.mp hp
  · intro h
    rw [h] at hp
    exact List.perm_nil.mp hp

theorem minfill_ordering (f : Cnf) (hf : f.VarsRecorded) (k : Nat) :
    (∃ l, f.getMinfillVarOrdering (f.apparentVars.length + k)
        = some (l, f.apparentVars.length) ∧ l.Perm f.apparentVars ∧ l.Nodup) ∧
    (∀ fuel, fuel < f.apparentVars.length → f.getMinfillVarOrdering fuel = none) := by
  have hnd := hf.1
  have hv := gaifman_vertices_eq f hnd
  constructor
  · obtain ⟨l, hl, hp⟩ := minfillLoop_perm (f.apparentVars.length + k)
      f.getGaifmanGraph [] 0 (by rw [hv]; exact hnd) (by rw [hv]; omega)
    rw [hv] at hl hp
    refine ⟨l, ?_, by simpa using hp, ?_⟩
    · unfold Cnf.getMinfillVarOrdering
      rw [hl]
      simp
    · exact (List.Perm.nodup_iff (by simpa using hp)).mpr hnd
  · intro fuel hfuel
    unfold Cnf.getMinfillVarOrdering
    exact minfillLoop_none fuel _ [] 0 (by rw [hv]; exact hnd) (by rw [hv]; exact hfuel)

/-- C1: for every clause list `cs`, the graph returned by `getGaifmanGraph`
for the formula built from `cs` has as vertices exactly the apparent
variables, has for `u ≠ v` the edge `{u,v}` exactly when one clause of `cs`
has a literal of variable `u` and a literal of variable `v`, and has no
self-loop; the same holds of every formula returned by the parser. -/
theorem C1_gaifman_graph :
    (∀ (d0 : Int) (cs : List (List Int)),
      (Cnf.ofClauses d0 cs).clauses = cs ∧
      IsGaifmanGraphOf (Cnf.ofClauses d0 cs) (Cnf.ofClauses d0 cs).getGaifmanGraph) ∧
    (∀ (rd : NumReader) (d0 : Int) (wf : WeightFormat) (lines : List (List String))
      (f : Cnf) (warned : List Int), Cnf.parse rd d0 wf lines = some (f, warned) →
      IsGaifmanGraphOf f f.getGaifmanGraph) := by
  constructor
  · intro d0 cs
    exact ⟨ofClauses_clauses d0 cs, gaifman_spec _ (ofClauses_varsRecorded d0 cs)⟩
  · intro rd d0 wf lines f warned h
    exact gaifman_spec f (parse_varsRecorded rd d0 wf lines f warned h)

/-- C2: for every formula, built from a clause list or returned by the
parser, `getLexpVarOrdering` and `getLexmVarOrdering` each return a list (the
selection of a maximum-label vertex never meets an empty map) in which every
apparent variable occurs exactly once and nothing else occurs. -/
theorem C2_lexp_lexm_permutation :
    (∀ (d0 : Int) (cs : List (List Int)),
      IsOrderingOf (Cnf.ofClauses d0 cs) (Cnf.ofClauses d0 cs).getLexpVarOrdering ∧
      IsOrderingOf (Cnf.ofClauses d0 cs) (Cnf.ofClauses d0 cs).getLexmVarOrdering) ∧
    (∀ (rd : NumReader) (d0 : Int) (wf : WeightFormat) (lines : List (List String))
      (f : Cnf) (warned : List Int), Cnf.parse rd d0 wf lines = some (f, warned) →
      IsOrderingOf f f.getLexpVarOrdering ∧ IsOrderingOf f f.getLexmVarOrdering) := by
  constructor
  · intro d0 cs
    exact ⟨lexp_ordering _ (ofClauses_varsRecorded d0 cs),
      lexm_ordering _ (ofClauses_varsRecorded d0 cs)⟩
  · intro rd d0 wf lines f warned h
    have hf := parse_varsRecorded rd d0 wf lines f warned h
    exact ⟨lexp_ordering f hf, lexm_ordering f hf⟩

/-- C3: for every formula, built from a clause list or returned by the parser
(whatever the shape of its Gaifman graph), and every bound on the iterations
not below the number of apparent variables, `getMcsVarOrdering` ends within
the bound and returns a permutation of `apparentVars`; it returns the empty
list exactly when the formula has no apparent variable. -/
theorem C3_mcs_permutation :
    (∀ (d0 : Int) (cs : List (List Int)) (k : Nat),
      IsOrderingOf (Cnf.ofClauses d0 cs)
        ((Cnf.ofClauses d0 cs).getMcsVarOrdering
          ((Cnf.ofClauses d0 cs).apparentVars.length + k)) ∧
      ((Cnf.ofClauses d0 cs).getMcsVarOrdering
          ((Cnf.ofClauses d0 cs).apparentVars.length + k) = some [] ↔
        (Cnf.ofClauses d0 cs).apparentVars = [])) ∧
    (∀ (rd : NumReader) (d0 : Int) (wf : WeightFormat) (lines : List (List String))
      (f : Cnf) (warned : List Int) (k : Nat), Cnf.parse rd d0 wf lines = some (f, warned) →
      IsOrderingOf f (f.getMcsVarOrdering (f.apparentVars.length + k)) ∧
      (f.getMcsVarOrdering (f.apparentVars.length + k) = some [] ↔ f.apparentVars = [])) := by
  constructor
  · intro d0 cs k
    exact mcs_ordering _ (ofClauses_varsRecorded d0 cs) k
  · intro rd d0 wf lines f warned k h
    exact mcs_ordering f (parse_varsRecorded rd d0 wf lines f warned h) k

/-- C4: for every formula, built from a clause list or returned by the
parser, with `n` its number of apparent variables: `getMinfillVarOrdering`
ends as soon as the bound on the iterations is at least `n`, after exactly `n`
iterations, and returns a list with every apparent variable exactly once; a
bound below `n` is reached; and in every iteration (a working graph with a
vertex) the min-fill vertex is a vertex of the graph, `fillInEdges` leaves the
vertex set as it is and the iteration removes exactly that one vertex. -/
theorem C4_minfill_terminates :
    (∀ (d0 : Int) (cs : List (List Int)) (k : Nat),
      (∃ l, (Cnf.ofClauses d0 cs).getMinfillVarOrdering
          ((Cnf.ofClauses d0 cs).apparentVars.length + k)
          = some (l, (Cnf.ofClauses d0 cs).apparentVars.length) ∧
        l.Perm (Cnf.ofClauses d0 cs).apparentVars ∧ l.Nodup) ∧
      (∀ fuel, fuel < (Cnf.ofClauses d0 cs).apparentVars.length →
        (Cnf.ofClauses d0 cs).getMinfillVarOrdering fuel = none)) ∧
    (∀ (rd : NumReader) (d0 : Int) (wf : WeightFormat) (lines : List (List String))
      (f : Cnf) (warned : List Int) (k : Nat), Cnf.parse rd d0 wf lines = some (f, warned) →
      (∃ l, f.getMinfillVarOrdering (f.apparentVars.length + k)
          = some (l, f.apparentVars.length) ∧ l.Perm f.apparentVars ∧ l.Nodup) ∧
      (∀ fuel, fuel < f.apparentVars.length → f.getMinfillVarOrdering fuel = none)) ∧
    (∀ g : Graph, g.vertices.Nodup → g.vertices ≠ [] →
      ∃ v, g.getMinfillVertex = some v ∧ v ∈ g.vertices ∧
        (g.fillInEdges v).vertices = g.vertices ∧
        g.vertices.Perm (v :: ((g.fillInEdges v).removeVertex v).vertices) ∧
        ((g.fillInEdges v).removeVertex v).vertices.length + 1 = g.vertices.length) := by
  refine ⟨?_, ?_, ?_⟩
  · intro d0 cs k
    exact minfill_ordering _ (ofClauses_varsRecorded d0 cs) k
  · intro rd d0 wf lines f warned k h
    exact minfill_ordering f (parse_varsRecorded rd d0 wf lines f warned h) k
  · intro g hn hne
    obtain ⟨v, h1, h2, h3, h4, _, h6⟩ := minfill_step g hn hne
    exact ⟨v, h1, h2, h3, h4, h6⟩

/-- C10: the formula built from a clause list `cs`, and equally the formula
obtained from the empty one by calling `addClause` on the clauses of `cs` in
turn, has as `apparentVars` the absolute values of the literals of `cs`, read
clause by clause and left to right, with every occurrence after the first of
each variable removed; `getAppearanceVarOrdering` returns this list; a
further `addClause` on any formula keeps `apparentVars` equal to that list
for the clauses it then has; and so it is for every formula returned by the
parser. -/
theorem C10_apparentVars_first_occurrences (d0 : Int) (cs : List (List Int)) :
    (Cnf.ofClauses d0 cs).clauses = cs ∧
    (Cnf.ofClauses d0 cs).apparentVars = firstOccurrences (literalVars cs) ∧
    (Cnf.ofClauses d0 cs).getAppearanceVarOrdering = firstOccurrences (literalVars cs) ∧
    (cs.foldl Cnf.addClause (Cnf.init d0)).clauses = cs ∧
    (cs.foldl Cnf.addClause (Cnf.init d0)).apparentVars = firstOccurrences (literalVars cs) ∧
    (cs.foldl Cnf.addClause (Cnf.init d0)).getAppearanceVarOrdering
      = firstOccurrences (literalVars cs) ∧
    (∀ (f : Cnf) (clause : List Int),
      f.apparentVars = firstOccurrences (literalVars f.clauses) →
      (f.addClause clause).clauses = f.clauses ++ [clause] ∧
      (f.addClause clause).getAppearanceVarOrdering
        = firstOccurrences (literalVars (f.clauses ++ [clause]))) ∧
    (∀ (rd : NumReader) (wf : WeightFormat) (lines : List (List String)) (f : Cnf)
      (warned : List Int), Cnf.parse rd d0 wf lines = some (f, warned) →
      f.getAppearanceVarOrdering = firstOccurrences (literalVars f.clauses)) := by
  have h1 : (Cnf.ofClauses d0 cs).apparentVars = firstOccurrences (literalVars cs) := by
    rw [ofClauses_apparentVars, firstOccurrences_eq_foldl]
  have h2 : (cs.foldl Cnf.addClause (Cnf.init d0)).apparentVars
      = firstOccurrences (literalVars cs) := by
    rw [foldl_addClause_apparentVars, firstOccurrences_eq_foldl]
    rfl
  have h3 : (cs.foldl Cnf.addClause (Cnf.init d0)).clauses = cs := by
    rw [foldl_addClause_clauses]
    rfl
  refine ⟨ofClauses_clauses d0 cs, h1, h1, h3, h2, h2, ?_, ?_⟩
  · intro f clause hf
    refine ⟨addClause_clauses f clause, ?_⟩
    have := addClause_first f clause hf
    rw [addClause_clauses] at this
    exact this
  · intro rd wf lines f warned h
    obtain ⟨st, hst, hfin⟩ := parse_unfold rd d0 wf lines _ h
    have hinv := parseLines_inv rd wf lines _ st (parseInv_init d0 wf) hst
    obtain ⟨_, ha, _, hc, _, _⟩ := finalize_fields wf st f warned hfin
    unfold Cnf.getAppearanceVarOrdering
    rw [ha, hc]
    exact hinv.apparent_first

end Addmc

namespace Addmc

/-! ## The restricted ordering and the declaration ordering -/

theorem restrict_fold_eq (S : IntSet) (l acc : List Int) :
    l.foldl (fun restrictedVarOrdering var =>
      if var ∈ S then restrictedVarOrdering ++ [var] else restrictedVarOrdering) acc
      = acc ++ l.filter (fun var => decide (var ∈ S)) := by
  induction l generalizing acc with
  | nil => simp
  | cons x xs ih =>
    simp only [List.foldl_cons]
    rw [ih]
    by_cases hx : x ∈ S
    · simp [hx, List.filter_cons]
    · simp [hx, List.filter_cons]

/-- C15: for every formula, every heuristic (the random one with its
permutation fixed), every inverse flag and every variable set `S`,
`getRestrictedVarOrdering` is `getVarOrdering` with the elements outside `S`
removed, the order of the others unchanged. -/
theorem C15_restricted_is_filter (shuffle : List Int → List Int) (fuel : Nat) (f : Cnf)
    (H : VarOrderingHeuristic) (b : Bool) (S : IntSet) :
    f.getRestrictedVarOrdering shuffle fuel H b S
      = (f.getVarOrdering shuffle fuel H b).map
          (fun l => l.filter (fun var => decide (var ∈ S))) := by
  unfold Cnf.getRestrictedVarOrdering
  congr 1
  funext l
  rw [restrict_fold_eq]
  rfl

theorem declaration_perm (f : Cnf) : f.getDeclarationVarOrdering.Perm f.apparentVars :=
  List.perm_insertionSort _ _

theorem declaration_sorted (f : Cnf) (h : f.apparentVars.Nodup) :
    f.getDeclarationVarOrdering.Pairwise (fun a b => a < b) := by
  have h1 : List.Sorted (fun a b : Int => a ≤ b) f.getDeclarationVarOrdering :=
    List.sorted_insertionSort _ _
  have h2 : f.getDeclarationVarOrdering.Nodup := (declaration_perm f).nodup_iff.mpr h
  exact List.Sorted.lt_of_le h1 h2

/-- C16: for every formula, built from a clause list or returned by the
parser, `getDeclarationVarOrdering` returns a permutation of `apparentVars`
that is strictly increasing. -/
theorem C16_declaration_sorted :
    (∀ (d0 : Int) (cs : List (List Int)),
      (Cnf.ofClauses d0 cs).getDeclarationVarOrdering.Perm (Cnf.ofClauses d0 cs).apparentVars ∧
      (Cnf.ofClauses d0 cs).getDeclarationVarOrdering.Pairwise (fun a b => a < b)) ∧
    (∀ (rd : NumReader) (d0 : Int) (wf : WeightFormat) (lines : List (List String))
      (f : Cnf) (warned : List Int), Cnf.parse rd d0 wf lines = some (f, warned) →
      f.getDeclarationVarOrdering.Perm f.apparentVars ∧
      f.getDeclarationVarOrdering.Pairwise (fun a b => a < b)) := by
  constructor
  · intro d0 cs
    exact ⟨declaration_perm _, declaration_sorted _ (ofClauses_varsRecorded d0 cs).1⟩
  · intro rd d0 wf lines f warned h
    exact ⟨declaration_perm _,
      declaration_sorted _ (parse_varsRecorded rd d0 wf lines f warned h).1⟩

end Addmc

namespace Addmc

/-! ## The clause-list constructor: `additiveVars` and `declaredVarCount` -/

theorem ofClausesStep_additiveVars (f : Cnf) (clause : List Int) :
    (f.ofClausesStep clause).additiveVars =
      (clause.map getCnfVar).foldl IntSet.insert f.additiveVars := by
  unfold Cnf.ofClausesStep
  simp only
  rw [(additive_fold_fields _ _).2.2, addClause_additiveVars]

theorem foldl_ofClausesStep_additiveVars (cs : List (List Int)) (f : Cnf) :
    (cs.foldl Cnf.ofClausesStep f).additiveVars =
      (literalVars cs).foldl IntSet.insert f.additiveVars := by
  induction cs generalizing f with
  | nil => rfl
  | cons c cs ih =>
    simp only [List.foldl_cons]
    rw [ih, ofClausesStep_additiveVars, literalVars_cons, List.foldl_append]

theorem ofClauses_additiveVars (d0 : Int) (cs : List (List Int)) :
    (Cnf.ofClauses d0 cs).additiveVars = (Cnf.ofClauses d0 cs).apparentVars := by
  rw [ofClauses_apparentVars]
  unfold Cnf.ofClauses
  simp only
  rw [foldl_ofClausesStep_additiveVars]
  rfl

theorem ofClauses_declaredVarCount (d0 : Int) (cs : List (List Int)) :
    (Cnf.ofClauses d0 cs).declaredVarCount = ((Cnf.ofClauses d0 cs).apparentVars.length : Int) :=
  rfl

theorem varRange_length (n : Int) : (varRange n).length = n.toNat := by
  simp [varRange]

/-- A duplicate-free list of `k` integers, all between 1 and `k`, has every
integer between 1 and `k`. -/
theorem nodup_range_full (l : List Int) (hnd : l.Nodup)
    (h : ∀ x ∈ l, 1 ≤ x ∧ x ≤ (l.length : Int)) (x : Int) (h1 : 1 ≤ x)
    (h2 : x ≤ (l.length : Int)) : x ∈ l := by
  have hsub : l ⊆ varRange (l.length : Int) := by
    intro y hy
    exact (mem_varRange _ y).mpr (h y hy)
  have hperm : l.Perm (varRange (l.length : Int)) :=
    (hnd.subperm hsub).perm_of_length_le (by rw [varRange_length]; simp)
  exact hperm.mem_iff.mpr ((mem_varRange _ x).mpr ⟨h1, h2⟩)

/-- C13, as the code has it: for every clause list `cs`, the formula built
from `cs` has as `additiveVars` exactly the variables occurring in `cs`, each
once, and as `declaredVarCount` their number; `additiveVars` lies within
`[1, declaredVarCount]` exactly when the variables occurring in `cs` are
`1, ..., declaredVarCount`. -/
theorem C13_additiveVars_of_clauses (d0 : Int) (cs : List (List Int)) :
    (∀ x, x ∈ (Cnf.ofClauses d0 cs).additiveVars ↔ ∃ c ∈ cs, ∃ l ∈ c, getCnfVar l = x) ∧
    (Cnf.ofClauses d0 cs).additiveVars.Nodup ∧
    (Cnf.ofClauses d0 cs).declaredVarCount = ((Cnf.ofClauses d0 cs).additiveVars.length : Int) ∧
    (Cnf.ofClauses d0 cs).declaredVarCount = ((Cnf.ofClauses d0 cs).apparentVars.length : Int) ∧
    ((∀ x ∈ (Cnf.ofClauses d0 cs).additiveVars,
        1 ≤ x ∧ x ≤ (Cnf.ofClauses d0 cs).declaredVarCount) ↔
      (∀ x, x ∈ (Cnf.ofClauses d0 cs).additiveVars ↔
        1 ≤ x ∧ x ≤ (Cnf.ofClauses d0 cs).declaredVarCount)) := by
  have hadd := ofClauses_additiveVars d0 cs
  have hnd : (Cnf.ofClauses d0 cs).additiveVars.Nodup := by
    rw [hadd]; exact (ofClauses_varsRecorded d0 cs).1
  have hd : (Cnf.ofClauses d0 cs).declaredVarCount
      = ((Cnf.ofClauses d0 cs).additiveVars.length : Int) := by
    rw [hadd]; rfl
  refine ⟨?_, hnd, hd, rfl, ?_⟩
  · intro x
    rw [hadd, ofClauses_apparentVars, IntSet.mem_foldl_insert]
    simp only [List.not_mem_nil, false_or, literalVars, List.mem_map, List.mem_flatten]
    constructor
    · rintro ⟨l, ⟨c, hc, hl⟩, rfl⟩
      exact ⟨c, hc, l, hl, rfl⟩
    · rintro ⟨c, hc, l, hl, rfl⟩
      exact ⟨l, ⟨c, hc, hl⟩, rfl⟩
  · constructor
    · intro h x
      constructor
      · exact h x
      · rintro ⟨h1, h2⟩
        rw [hd] at h h2
        exact nodup_range_full _ hnd h x h1 h2
    · intro h x hx
      exact (h x).mp hx

/-- C13 fails as stated: for the clause list `[[5]]` the constructor gives
`additiveVars = {5}` and `declaredVarCount = 1`, and 5 is not in `[1, 1]`. -/
theorem C13_counterexample :
    (Cnf.ofClauses 0 [[5]]).additiveVars = [5] ∧
    (Cnf.ofClauses 0 [[5]]).declaredVarCount = 1 ∧
    ¬ (∀ x ∈ (Cnf.ofClauses 0 [[5]]).additiveVars,
        1 ≤ x ∧ x ≤ (Cnf.ofClauses 0 [[5]]).declaredVarCount) := by
  refine ⟨by decide, by decide, ?_⟩
  intro h
  have := h 5 (by decide)
  revert this
  decide

/-! ## The `vp` line without a final `0` -/

/-- C14 does not hold of the code: in the WPCNF dialect the line `vp 1 3`,
which has no final `0`, is accepted after the header `p wpcnf 3 1` and puts 1
and 3 into `additiveVars`, whereas the clause line `1 2 3` without final `0`
is fatal. -/
theorem C14_unterminated_vp_accepted :
    (Cnf.parse decimalReader 0 WeightFormat.WPCNF
        [["p", "wpcnf", "3", "1"], ["vp", "1", "3"], ["1", "2", "3", "0"]]).map
      (fun r => r.1.additiveVars) = some [1, 3] ∧
    Cnf.parse decimalReader 0 WeightFormat.WPCNF
        [["p", "wpcnf", "3", "1"], ["vp", "1", "3", "0"], ["1", "2", "3"]] = none := by
  constructor <;> decide

end Addmc

namespace Addmc

/-! ## The parsing loop: the shape of the state after each kind of line -/

theorem problemLine_result (rd : NumReader) (st st2 : ParseState) (words : List String)
    (h : problemLine rd st words = some st2) :
    st.problemLineIndex = DUMMY_MIN_INT ∧
    ∃ n m, st2 = { st with problemLineIndex := st.lineIndex,
                           cnf := { st.cnf with declaredVarCount := n },
                           declaredClauseCount := m } := by
  unfold problemLine at h
  split at h
  · exact Option.noConfusion h
  · rename_i hp
    simp only [ne_eq, not_not] at hp
    refine ⟨hp, ?_⟩
    split at h
    · exact Option.noConfusion h
    · split at h
      · split at h
        · rename_i n m _ _
          simp only [Option.some.injEq] at h
          exact ⟨n, m, h.symm⟩
        · exact Option.noConfusion h
      · exact Option.noConfusion h

theorem vpLine_result (rd : NumReader) (wf : WeightFormat) (st st2 : ParseState)
    (words : List String) (h : vpLine rd wf st words = some st2) :
    (wf ≠ WeightFormat.WPCNF ∧ st2 = st) ∨
    (wf = WeightFormat.WPCNF ∧ ∃ s,
      vpLoop rd st.cnf.declaredVarCount words.tail st.cnf.additiveVars = some s ∧
      st2 = { st with cnf := { st.cnf with additiveVars := s } }) := by
  unfold vpLine at h
  split at h
  · rename_i hwf
    split at h
    · exact Option.noConfusion h
    · rename_i s hs
      simp only [Option.some.injEq] at h
      exact Or.inr ⟨hwf, s, hs, h.symm⟩
  · rename_i hwf
    simp only [Option.some.injEq] at h
    exact Or.inl ⟨hwf, h.symm⟩

theorem commentLine_result (rd : NumReader) (wf : WeightFormat) (st st2 : ParseState)
    (words : List String) (h : commentLine rd wf st words = some st2) :
    st2 = st ∨
    (wf = WeightFormat.MINIC2D ∧ st.problemLineIndex ≠ DUMMY_MIN_INT ∧ ∃ lw,
      st2 = { st with minic2dWeightsLineIndex := st.lineIndex,
                      cnf := { st.cnf with literalWeights := lw } }) := by
  unfold commentLine at h
  split at h
  · rename_i hc
    split at h
    · exact Option.noConfusion h
    · rename_i hp
      split at h
      · exact Option.noConfusion h
      · split at h
        · exact Option.noConfusion h
        · split at h
          · exact Option.noConfusion h
          · rename_i lw _
            simp only [Option.some.injEq] at h
            exact Or.inr ⟨hc.1, hp, lw, h.symm⟩
  · simp only [Option.some.injEq] at h
    exact Or.inl h.symm

theorem clauseLine_result (rd : NumReader) (st st2 : ParseState) (words : List String)
    (h : clauseLine rd st words = some st2) :
    st.problemLineIndex ≠ DUMMY_MIN_INT ∧
    (st2 = st ∨
      ∃ c, st2 = { st with cnf := st.cnf.addClause c,
                           processedClauseCount := st.processedClauseCount + 1 }) := by
  unfold clauseLine at h
  split at h
  · exact Option.noConfusion h
  · rename_i hp
    refine ⟨hp, ?_⟩
    rcases clauseLoop_result rd words [] st st2 (by simp) h with h1 | ⟨c, _, h1⟩
    · exact Or.inl h1
    · exact Or.inr ⟨c, h1⟩

/-- The lines of the loop, by kind. -/
theorem processLine_cases (rd : NumReader) (wf : WeightFormat) (st st2 : ParseState)
    (words : List String) (h : processLine rd wf st words = some st2) :
    (words = [] ∧ st2 = { st with lineIndex := st.lineIndex + 1 }) ∨
    (∃ w ws, words = w :: ws ∧ w = PROBLEM_WORD ∧
      problemLine rd { st with lineIndex := st.lineIndex + 1 } words = some st2) ∨
    (∃ w ws, words = w :: ws ∧ w = "vp" ∧
      vpLine rd wf { st with lineIndex := st.lineIndex + 1 } words = some st2) ∨
    (∃ w ws, words = w :: ws ∧ w ≠ "vp" ∧ w = "c" ∧
      commentLine rd wf { st with lineIndex := st.lineIndex + 1 } words = some st2) ∨
    (∃ w ws, words = w :: ws ∧ w ≠ "vp" ∧ w = WEIGHT_WORD ∧
      weightLine rd wf { st with lineIndex := st.lineIndex + 1 } words = some st2) ∨
    (∃ w ws, words = w :: ws ∧ w ≠ "vp" ∧
      clauseLine rd { st with lineIndex := st.lineIndex + 1 } words = some st2) := by
  unfold processLine at h
  cases words with
  | nil =>
    simp only [Option.some.injEq] at h
    exact Or.inl ⟨rfl, h.symm⟩
  | cons w ws =>
    simp only at h
    by_cases h1 : w = PROBLEM_WORD
    · rw [if_pos h1] at h
      exact Or.inr (Or.inl ⟨w, ws, rfl, h1, h⟩)
    · rw [if_neg h1] at h
      by_cases h2 : w = "vp"
      · rw [if_pos h2] at h
        exact Or.inr (Or.inr (Or.inl ⟨w, ws, rfl, h2, h⟩))
      · rw [if_neg h2] at h
        by_cases h3 : w = "c"
        · rw [if_pos h3] at h
          exact Or.inr (Or.inr (Or.inr (Or.inl ⟨w, ws, rfl, h2, h3, h⟩)))
        · rw [if_neg h3] at h
          by_cases h4 : w = WEIGHT_WORD
          · rw [if_pos h4] at h
            exact Or.inr (Or.inr (Or.inr (Or.inr (Or.inl ⟨w, ws, rfl, h2, h4, h⟩))))
          · rw [if_neg h4] at h
            exact Or.inr (Or.inr (Or.inr (Or.inr (Or.inr ⟨w, ws, rfl, h2, h⟩))))

theorem vpLineNumbers_of_ne (rd : NumReader) (w : String) (ws : List String) (h : w ≠ "vp") :
    vpLineNumbers rd (w :: ws) = [] := by
  simp [vpLineNumbers, h]

/-- The loop of a `vp` line adds exactly the nonzero numbers of the line, all
of which lie between 1 and the declared variable count. -/
theorem vpLoop_spec (rd : NumReader) (n : Int) (ws : List String) (s s2 : IntSet)
    (h : vpLoop rd n ws s = some s2) :
    (∀ x, x ∈ s2 ↔ x ∈ s ∨ x ∈ (ws.filterMap rd.stoll).filter (fun x => decide (x ≠ 0))) ∧
    (∀ x ∈ s2, x ∈ s ∨ (1 ≤ x ∧ x ≤ n)) ∧
    (s.Nodup → s2.Nodup) := by
  induction ws generalizing s with
  | nil =>
    simp only [vpLoop, Option.some.injEq] at h
    subst h
    exact ⟨by simp, fun x hx => Or.inl hx, fun hs => hs⟩
  | cons w ws ih =>
    unfold vpLoop at h
    cases hw : rd.stoll w with
    | none => rw [hw] at h; exact Option.noConfusion h
    | some num =>
      rw [hw] at h
      simp only at h
      by_cases hr : num < 0 ∨ num > n
      · rw [if_pos hr] at h; exact Option.noConfusion h
      · rw [if_neg hr] at h
        by_cases h0 : num = 0
        · rw [if_pos h0] at h
          by_cases hws : ws ≠ []
          · rw [if_pos hws] at h; exact Option.noConfusion h
          · rw [if_neg hws] at h
            obtain ⟨i1, i2, i3⟩ := ih s h
            refine ⟨?_, i2, i3⟩
            intro x
            rw [i1 x]
            simp [List.filterMap_cons, hw, h0]
        · rw [if_neg h0] at h
          obtain ⟨i1, i2, i3⟩ := ih (s.insert num) h
          refine ⟨?_, ?_, ?_⟩
          · intro x
            rw [i1 x, IntSet.mem_insert]
            simp only [List.filterMap_cons, hw, List.filter_cons, ne_eq, h0, not_false_eq_true,
              decide_True, if_true, List.mem_cons]
            tauto
          · intro x hx
            rcases i2 x hx with hx2 | hx2
            · rcases (IntSet.mem_insert s num x).mp hx2 with hx3 | hx3
              · exact Or.inl hx3
              · right
                subst hx3
                omega
            · exact Or.inr hx2
          · intro hs
            exact i3 (IntSet.nodup_insert s num hs)

end Addmc

namespace Addmc

/-! ## The additive variables -/

theorem vpNumbers_append (rd : NumReader) (processed : List (List String))
    (words : List String) :
    vpNumbers rd (processed ++ [words]) = vpNumbers rd processed ++ vpLineNumbers rd words := by
  simp [vpNumbers, List.flatMap_append]

theorem additiveInv_init (rd : NumReader) (d0 : Int) (wf : WeightFormat) :
    AdditiveInv rd d0 wf [] (ParseState.init d0 wf) where
  line_nonneg := le_refl _
  count_before_header := fun _ => rfl
  add_range := by intro x hx; simp [ParseState.init, Cnf.init] at hx
  add_nodup := List.nodup_nil
  add_other := fun _ => rfl
  add_vp := by intro _ x; simp [ParseState.init, Cnf.init, vpNumbers]

/-- A line that leaves `additiveVars`, `declaredVarCount` and the index of the
header as they were, and lists no `vp` numbers, maintains the invariant. -/
theorem additiveInv_of_same (rd : NumReader) (d0 : Int) (wf : WeightFormat)
    (processed : List (List String)) (words : List String) (st st2 : ParseState)
    (hinv : AdditiveInv rd d0 wf processed st)
    (h1 : st2.cnf.additiveVars = st.cnf.additiveVars)
    (h2 : st2.cnf.declaredVarCount = st.cnf.declaredVarCount)
    (h3 : st2.problemLineIndex = st.problemLineIndex)
    (h4 : st2.lineIndex = st.lineIndex + 1)
    (h5 : vpLineNumbers rd words = []) :
    AdditiveInv rd d0 wf (processed ++ [words]) st2 where
  line_nonneg := by have := hinv.line_nonneg; omega
  count_before_header := by
    intro h
    rw [h3] at h
    rw [h2]
    exact hinv.count_before_header h
  add_range := by
    intro x hx
    rw [h1] at hx
    rw [h2]
    exact hinv.add_range x hx
  add_nodup := by rw [h1]; exact hinv.add_nodup
  add_other := by intro h; rw [h1]; exact hinv.add_other h
  add_vp := by
    intro h x
    rw [h1, vpNumbers_append, h5, List.append_nil]
    exact hinv.add_vp h x

theorem processLine_additiveInv (rd : NumReader) (d0 : Int) (hd0 : d0 < 1) (wf : WeightFormat)
    (processed : List (List String)) (words : List String) (st st2 : ParseState)
    (hinv : AdditiveInv rd d0 wf processed st)
    (h : processLine rd wf st words = some st2) :
    AdditiveInv rd d0 wf (processed ++ [words]) st2 := by
  have hnn := hinv.line_nonneg
  rcases processLine_cases rd wf st st2 words h with
    ⟨hw, rfl⟩ | ⟨w, ws, hw, hp, hb⟩ | ⟨w, ws, hw, hv, hb⟩ | ⟨w, ws, hw, hv, _, hb⟩ |
    ⟨w, ws, hw, hv, _, hb⟩ | ⟨w, ws, hw, hv, hb⟩
  · exact additiveInv_of_same rd d0 wf processed words st _ hinv rfl rfl rfl rfl
      (by rw [hw]; rfl)
  · obtain ⟨hpli, n, m, rfl⟩ := problemLine_result rd _ st2 words hb
    simp only at hpli
    have hempty : ∀ x, x ∉ st.cnf.additiveVars := by
      intro x hx
      have := hinv.add_range x hx
      rw [hinv.count_before_header hpli] at this
      omega
    have hvp : vpLineNumbers rd words = [] := by
      rw [hw]
      apply vpLineNumbers_of_ne
      rw [hp]
      decide
    exact {
      line_nonneg := by simp only; omega
      count_before_header := by
        intro hd
        simp only at hd
        have := dummy_neg
        omega
      add_range := by
        intro x hx
        exact absurd hx (hempty x)
      add_nodup := hinv.add_nodup
      add_other := hinv.add_other
      add_vp := by
        intro hwf x
        rw [vpNumbers_append, hvp, List.append_nil]
        exact hinv.add_vp hwf x }
  · rcases vpLine_result rd wf _ st2 words hb with ⟨hwf, rfl⟩ | ⟨hwf, s, hs, rfl⟩
    · exact {
        line_nonneg := by simp only; omega
        count_before_header := hinv.count_before_header
        add_range := hinv.add_range
        add_nodup := hinv.add_nodup
        add_other := hinv.add_other
        add_vp := fun h => absurd h hwf }
    · obtain ⟨i1, i2, i3⟩ := vpLoop_spec rd _ _ _ _ hs
      have htail : words.tail = ws := by rw [hw]; rfl
      exact {
        line_nonneg := by simp only; omega
        count_before_header := hinv.count_before_header
        add_range := by
          intro x hx
          rcases i2 x hx with h1 | h1
          · exact hinv.add_range x h1
          · exact h1
        add_nodup := i3 hinv.add_nodup
        add_other := fun h => absurd hwf h
        add_vp := by
          intro _ x
          simp only
          rw [i1 x, vpNumbers_append, List.mem_append, hinv.add_vp hwf x, htail, hw]
          simp [vpLineNumbers, hv] }
  · have hvp : vpLineNumbers rd words = [] := by rw [hw]; exact vpLineNumbers_of_ne rd w ws hv
    rcases commentLine_result rd wf _ st2 words hb with rfl | ⟨_, _, lw, rfl⟩
    · exact additiveInv_of_same rd d0 wf processed words st _ hinv rfl rfl rfl rfl hvp
    · exact additiveInv_of_same rd d0 wf processed words st _ hinv rfl rfl rfl rfl hvp
  · have hvp : vpLineNumbers rd words = [] := by rw [hw]; exact vpLineNumbers_of_ne rd w ws hv
    obtain ⟨_, _, _, k, weight, _, _, _, _, _, _, _, _, rfl⟩ := weightLine_result rd wf _ st2 words hb
    exact additiveInv_of_same rd d0 wf processed words st _ hinv rfl rfl rfl rfl hvp
  · have hvp : vpLineNumbers rd words = [] := by rw [hw]; exact vpLineNumbers_of_ne rd w ws hv
    rcases clauseLine_result rd _ st2 words hb with ⟨_, rfl | ⟨c, rfl⟩⟩
    · exact additiveInv_of_same rd d0 wf processed words st _ hinv rfl rfl rfl rfl hvp
    · exact additiveInv_of_same rd d0 wf processed words st _ hinv
        (addClause_additiveVars _ _) (addClause_declaredVarCount _ _) rfl rfl hvp

theorem parseLines_additiveInv (rd : NumReader) (d0 : Int) (hd0 : d0 < 1) (wf : WeightFormat)
    (lines processed : List (List String)) (st st2 : ParseState)
    (hinv : AdditiveInv rd d0 wf processed st)
    (h : parseLines rd wf st lines = some st2) :
    AdditiveInv rd d0 wf (processed ++ lines) st2 := by
  induction lines generalizing st processed with
  | nil =>
    simp only [parseLines, Option.some.injEq] at h
    subst h
    simpa using hinv
  | cons words rest ih =>
    unfold parseLines at h
    cases hstep : processLine rd wf st words with
    | none => rw [hstep] at h; exact Option.noConfusion h
    | some st1 =>
      rw [hstep] at h
      have := ih (processed ++ [words]) st1
        (processLine_additiveInv rd d0 hd0 wf processed words st st1 hinv hstep) h
      simpa using this

theorem finalize_additiveVars (wf : WeightFormat) (st : ParseState) (f : Cnf)
    (warned : List Int) (h : finalize wf st = some (f, warned)) :
    f.additiveVars =
      if wf ≠ WeightFormat.WPCNF then
        (varRange st.cnf.declaredVarCount).foldl IntSet.insert st.cnf.additiveVars
      else st.cnf.additiveVars := by
  unfold finalize at h
  split at h
  · exact Option.noConfusion h
  · simp only at h
    split at h
    · exact Option.noConfusion h
    · split at h
      · exact Option.noConfusion h
      · simp only [Option.some.injEq, Prod.mk.injEq] at h
        rw [← h.1]

theorem mem_getDisjunctiveVars (f : Cnf) (x : Int) :
    x ∈ f.getDisjunctiveVars ↔ (1 ≤ x ∧ x ≤ f.declaredVarCount) ∧ x ∉ f.additiveVars := by
  have key : ∀ (L : List Int) (s : IntSet),
      x ∈ L.foldl (fun disjunctiveVars var =>
        if var ∉ f.additiveVars then disjunctiveVars.insert var else disjunctiveVars) s
      ↔ x ∈ s ∨ (x ∈ L ∧ x ∉ f.additiveVars) := by
    intro L
    induction L with
    | nil => intro s; simp
    | cons y ys ih =>
      intro s
      simp only [List.foldl_cons]
      rw [ih]
      by_cases hy : y ∉ f.additiveVars
      · rw [if_pos hy, IntSet.mem_insert]
        simp only [List.mem_cons]
        constructor
        · rintro ((h | h) | h)
          · exact Or.inl h
          · exact Or.inr ⟨Or.inl h, h ▸ hy⟩
          · exact Or.inr ⟨Or.inr h.1, h.2⟩
        · rintro (h | ⟨h | h, h2⟩)
          · exact Or.inl (Or.inl h)
          · exact Or.inl (Or.inr h)
          · exact Or.inr ⟨h, h2⟩
      · rw [if_neg hy]
        simp only [not_not] at hy
        simp only [List.mem_cons]
        constructor
        · rintro (h | h)
          · exact Or.inl h
          · exact Or.inr ⟨Or.inr h.1, h.2⟩
        · rintro (h | ⟨h | h, h2⟩)
          · exact Or.inl h
          · exact absurd (h ▸ hy) h2
          · exact Or.inr ⟨h, h2⟩
  unfold Cnf.getDisjunctiveVars
  rw [key, mem_varRange]
  simp

/-- The additive variables of a parsed formula, from the invariant of the loop. -/
theorem parse_additiveVars (rd : NumReader) (d0 : Int) (hd0 : d0 < 1) (wf : WeightFormat)
    (lines : List (List String)) (f : Cnf) (warned : List Int)
    (h : Cnf.parse rd d0 wf lines = some (f, warned)) :
    (wf ≠ WeightFormat.WPCNF → f.additiveVars = varRange f.declaredVarCount) ∧
    (wf = WeightFormat.WPCNF →
      (∀ x, x ∈ f.additiveVars ↔ x ∈ vpNumbers rd lines) ∧
      ∀ x ∈ f.additiveVars, 1 ≤ x ∧ x ≤ f.declaredVarCount) := by
  obtain ⟨st, hst, hfin⟩ := parse_unfold rd d0 wf lines _ h
  have hinv := parseLines_additiveInv rd d0 hd0 wf lines [] _ st (additiveInv_init rd d0 wf) hst
  simp only [List.nil_append] at hinv
  obtain ⟨_, _, hd, _, _, _⟩ := finalize_fields wf st f warned hfin
  have hadd := finalize_additiveVars wf st f warned hfin
  constructor
  · intro hwf
    rw [hadd, if_pos hwf, hinv.add_other hwf, hd]
    exact foldl_insert_nil_of_nodup _ (varRange_nodup _)
  · intro hwf
    have hn : ¬ (wf ≠ WeightFormat.WPCNF) := fun hc => hc hwf
    rw [hadd, if_neg hn, hd]
    exact ⟨hinv.add_vp hwf, hinv.add_range⟩

/-- C11: for every input on which parsing succeeds, in any dialect, with
declared variable count `n` (the initial value of `declaredVarCount` admitting
no variable), `additiveVars` lies within `[1, n]`, `additiveVars` and
`getDisjunctiveVars` are disjoint and together are exactly `{1, ..., n}`; in
the WPCNF dialect `additiveVars` is exactly the set of nonzero numbers listed
on the `vp` lines. -/
theorem C11_additive_partition (rd : NumReader) (d0 : Int) (wf : WeightFormat)
    (lines : List (List String)) (f : Cnf) (warned : List Int) (hd0 : d0 < 1)
    (h : Cnf.parse rd d0 wf lines = some (f, warned)) :
    (∀ x ∈ f.additiveVars, 1 ≤ x ∧ x ≤ f.declaredVarCount) ∧
    (∀ x, ¬ (x ∈ f.additiveVars ∧ x ∈ f.getDisjunctiveVars)) ∧
    (∀ x, (x ∈ f.additiveVars ∨ x ∈ f.getDisjunctiveVars) ↔
      (1 ≤ x ∧ x ≤ f.declaredVarCount)) ∧
    (wf = WeightFormat.WPCNF → ∀ x, x ∈ f.additiveVars ↔ x ∈ vpNumbers rd lines) := by
  obtain ⟨h1, h2⟩ := parse_additiveVars rd d0 hd0 wf lines f warned h
  have hrange : ∀ x ∈ f.additiveVars, 1 ≤ x ∧ x ≤ f.declaredVarCount := by
    intro x hx
    by_cases hwf : wf = WeightFormat.WPCNF
    · exact (h2 hwf).2 x hx
    · rw [h1 hwf] at hx
      exact (mem_varRange _ x).mp hx
  refine ⟨hrange, ?_, ?_, fun hwf => (h2 hwf).1⟩
  · rintro x ⟨ha, hb⟩
    exact ((mem_getDisjunctiveVars f x).mp hb).2 ha
  · intro x
    rw [mem_getDisjunctiveVars]
    constructor
    · rintro (ha | hb)
      · exact hrange x ha
      · exact hb.1
    · intro hx
      by_cases ha : x ∈ f.additiveVars
      · exact Or.inl ha
      · exact Or.inr ⟨hx, ha⟩

end Addmc

namespace Addmc

/-! ## Lines that are ignored: the states up to the line indices -/

theorem sameUpToIndex_step (st st2 : ParseState) (h : SameUpToIndex st st2) :
    SameUpToIndex { st with lineIndex := st.lineIndex + 1 }
      { st2 with lineIndex := st2.lineIndex + 1 } := by
  obtain ⟨h1, h2, h3, h4, h5, h6, h7⟩ := h
  refine ⟨h1, h2, h3, h4, h5, ?_, ?_⟩
  · simp only; omega
  · simp only; omega

theorem problemLine_same (rd : NumReader) (st st2 : ParseState) (words : List String)
    (h : SameUpToIndex st st2) (hl : 1 ≤ st.lineIndex) (hl2 : 1 ≤ st2.lineIndex) :
    OptSame (problemLine rd st words) (problemLine rd st2 words) := by
  obtain ⟨h1, h2, h3, h4, h5, h6, h7⟩ := h
  have hd := dummy_neg
  unfold problemLine
  by_cases hp : st.problemLineIndex = DUMMY_MIN_INT
  · have hp2 := h4.mp hp
    simp only [hp, hp2, ne_eq, not_true_eq_false, if_false]
    split
    · trivial
    · split
      · split
        · refine ⟨?_, rfl, h3, ?_, h5, h6, h7⟩
          · simp only [h1]
          · simp only
            constructor <;> intro hc <;> omega
        · trivial
      · trivial
  · have hp2 : ¬ st2.problemLineIndex = DUMMY_MIN_INT := fun hc => hp (h4.mpr hc)
    simp only [hp, hp2, ne_eq, not_false_eq_true, if_true]
    trivial

theorem commentLine_same (rd : NumReader) (wf : WeightFormat) (st st2 : ParseState)
    (words : List String) (h : SameUpToIndex st st2) (hl : 1 ≤ st.lineIndex)
    (hl2 : 1 ≤ st2.lineIndex) :
    OptSame (commentLine rd wf st words) (commentLine rd wf st2 words) := by
  have hh := h
  obtain ⟨h1, h2, h3, h4, h5, h6, h7⟩ := h
  have hd := dummy_neg
  unfold commentLine
  split
  · by_cases hp : st.problemLineIndex = DUMMY_MIN_INT
    · have hp2 := h4.mp hp
      simp only [hp, hp2, if_true]
      trivial
    · have hp2 : ¬ st2.problemLineIndex = DUMMY_MIN_INT := fun hc => hp (h4.mpr hc)
      simp only [hp, hp2, if_false]
      by_cases hm : st.minic2dWeightsLineIndex = DUMMY_MIN_INT
      · have hm2 := h5.mp hm
        simp only [hm, hm2, ne_eq, not_true_eq_false, if_false, h1]
        split
        · trivial
        · split
          · trivial
          · refine ⟨?_, h2, h3, ?_, ?_, h6, h7⟩
            · simp only [h1]
            · exact h4
            · simp only
              constructor <;> intro hc <;> omega
      · have hm2 : ¬ st2.minic2dWeightsLineIndex = DUMMY_MIN_INT := fun hc => hm (h5.mpr hc)
        simp only [hm, hm2, ne_eq, not_false_eq_true, if_true]
        trivial
  · exact hh

theorem weightLine_same (rd : NumReader) (wf : WeightFormat) (st st2 : ParseState)
    (words : List String) (h : SameUpToIndex st st2) :
    OptSame (weightLine rd wf st words) (weightLine rd wf st2 words) := by
  obtain ⟨h1, h2, h3, h4, h5, h6, h7⟩ := h
  unfold weightLine
  by_cases hp : st.problemLineIndex = DUMMY_MIN_INT
  · have hp2 := h4.mp hp
    simp only [hp, hp2, if_true]
    trivial
  · have hp2 : ¬ st2.problemLineIndex = DUMMY_MIN_INT := fun hc => hp (h4.mpr hc)
    simp only [hp, hp2, if_false, h1]
    split
    · split
      · split
        · trivial
        · split
          · trivial
          · split
            · trivial
            · exact ⟨by simp only [h1], h2, h3, h4, h5, h6, h7⟩
      · trivial
    · split
      · split
        · split
          · trivial
          · split
            · trivial
            · split
              · trivial
              · exact ⟨by simp only [h1], h2, h3, h4, h5, h6, h7⟩
        · trivial
      · trivial

theorem clauseLoop_same (rd : NumReader) (ws : List String) (clause : List Int)
    (st st2 : ParseState) (h : SameUpToIndex st st2) :
    OptSame (clauseLoop rd ws clause st) (clauseLoop rd ws clause st2) := by
  induction ws generalizing clause st st2 with
  | nil => exact h
  | cons w ws ih =>
    have hh := h
    obtain ⟨h1, h2, h3, h4, h5, h6, h7⟩ := h
    unfold clauseLoop
    cases rd.stoll w with
    | none => trivial
    | some num =>
      simp only [h1]
      split
      · trivial
      · split
        · split
          · trivial
          · apply ih
            exact ⟨by simp only [h1], h2, by simp only [h3], h4, h5, h6, h7⟩
        · split
          · trivial
          · exact ih _ _ _ hh

theorem clauseLine_same (rd : NumReader) (st st2 : ParseState) (words : List String)
    (h : SameUpToIndex st st2) :
    OptSame (clauseLine rd st words) (clauseLine rd st2 words) := by
  have h4 := h.2.2.2.1
  unfold clauseLine
  by_cases hp : st.problemLineIndex = DUMMY_MIN_INT
  · have hp2 := h4.mp hp
    simp only [hp, hp2, if_true]
    trivial
  · have hp2 : ¬ st2.problemLineIndex = DUMMY_MIN_INT := fun hc => hp (h4.mpr hc)
    simp only [hp, hp2, if_false]
    exact clauseLoop_same rd words [] st st2 h

/-- Outside the WPCNF dialect a line has the same effect on two states that
are the same up to the indices. -/
theorem processLine_same (rd : NumReader) (wf : WeightFormat) (hwf : wf ≠ WeightFormat.WPCNF)
    (st st2 : ParseState) (words : List String) (h : SameUpToIndex st st2) :
    OptSame (processLine rd wf st words) (processLine rd wf st2 words) := by
  have hs := sameUpToIndex_step st st2 h
  have hl : 1 ≤ ({ st with lineIndex := st.lineIndex + 1 } : ParseState).lineIndex := by
    have := h.2.2.2.2.2.1
    simp only
    omega
  have hl2 : 1 ≤ ({ st2 with lineIndex := st2.lineIndex + 1 } : ParseState).lineIndex := by
    have := h.2.2.2.2.2.2
    simp only
    omega
  unfold processLine
  cases words with
  | nil => exact hs
  | cons w ws =>
    simp only
    split
    · exact problemLine_same rd _ _ _ hs hl hl2
    · split
      · unfold vpLine
        rw [if_neg hwf, if_neg hwf]
        exact hs
      · split
        · exact commentLine_same rd wf _ _ _ hs hl hl2
        · split
          · exact weightLine_same rd wf _ _ _ hs
          · exact clauseLine_same rd _ _ _ hs

/-- Outside the WPCNF dialect a `vp` line only advances the line counter. -/
theorem processLine_vp_skip (rd : NumReader) (wf : WeightFormat)
    (hwf : wf ≠ WeightFormat.WPCNF) (st : ParseState) (words : List String)
    (hvp : notVpLine words = false) :
    processLine rd wf st words = some { st with lineIndex := st.lineIndex + 1 } := by
  cases words with
  | nil => simp [notVpLine] at hvp
  | cons w ws =>
    have hw : w = "vp" := by simpa [notVpLine] using hvp
    have hne : ¬ w = PROBLEM_WORD := by rw [hw]; decide
    unfold processLine
    simp only
    rw [if_neg hne, if_pos hw]
    unfold vpLine
    rw [if_neg hwf]

theorem parseLines_cons (rd : NumReader) (wf : WeightFormat) (st : ParseState)
    (words : List String) (rest : List (List String)) :
    parseLines rd wf st (words :: rest) =
      match processLine rd wf st words with
      | none => none
      | some st1 => parseLines rd wf st1 rest := by
  rw [parseLines]

theorem parseLines_same (rd : NumReader) (wf : WeightFormat) (hwf : wf ≠ WeightFormat.WPCNF)
    (lines : List (List String)) (st st2 : ParseState) (h : SameUpToIndex st st2) :
    OptSame (parseLines rd wf st lines) (parseLines rd wf st2 (lines.filter notVpLine)) := by
  induction lines generalizing st st2 with
  | nil => exact h
  | cons words rest ih =>
    by_cases hvp : notVpLine words = true
    · rw [List.filter_cons_of_pos hvp]
      unfold parseLines
      have hstep := processLine_same rd wf hwf st st2 words h
      cases h1 : processLine rd wf st words with
      | none =>
        cases h2 : processLine rd wf st2 words with
        | none => trivial
        | some b => rw [h1, h2] at hstep; exact hstep.elim
      | some a =>
        cases h2 : processLine rd wf st2 words with
        | none => rw [h1, h2] at hstep; exact hstep.elim
        | some b =>
          rw [h1, h2] at hstep
          exact ih a b hstep
    · rw [List.filter_cons_of_neg hvp]
      simp only [Bool.not_eq_true] at hvp
      rw [parseLines_cons, processLine_vp_skip rd wf hwf st words hvp]
      simp only
      have hrel : SameUpToIndex { st with lineIndex := st.lineIndex + 1 } st2 := by
        obtain ⟨h1, h2, h3, h4, h5, h6, h7⟩ := h
        refine ⟨h1, h2, h3, h4, h5, ?_, h7⟩
        simp only
        omega
      exact ih _ st2 hrel

theorem finalize_same (wf : WeightFormat) (st st2 : ParseState) (h : SameUpToIndex st st2) :
    finalize wf st = finalize wf st2 := by
  obtain ⟨h1, h2, h3, h4, h5, h6, h7⟩ := h
  have hc : completeWeights wf st = completeWeights wf st2 := by
    unfold completeWeights
    cases wf with
    | MINIC2D =>
      simp only
      by_cases hm : st.minic2dWeightsLineIndex = DUMMY_MIN_INT
      · rw [if_pos hm, if_pos (h5.mp hm)]
      · rw [if_neg hm, if_neg (fun hc => hm (h5.mpr hc)), h1]
    | UNWEIGHTED => simp only [h1]
    | CACHET => simp only [h1]
    | WCNF => simp only [h1]
    | WPCNF => simp only [h1]
  unfold finalize
  by_cases hp : st.problemLineIndex = DUMMY_MIN_INT
  · rw [if_pos hp, if_pos (h4.mp hp)]
  · rw [if_neg hp, if_neg (fun hc => hp (h4.mpr hc)), hc, h1]

/-- Outside the WPCNF dialect removing the `vp` lines does not change the
outcome of the constructor. -/
theorem parse_filter_vp (rd : NumReader) (d0 : Int) (wf : WeightFormat)
    (hwf : wf ≠ WeightFormat.WPCNF) (lines : List (List String)) :
    Cnf.parse rd d0 wf (lines.filter notVpLine) = Cnf.parse rd d0 wf lines := by
  have hrefl : SameUpToIndex (ParseState.init d0 wf) (ParseState.init d0 wf) :=
    ⟨rfl, rfl, rfl, Iff.rfl, Iff.rfl, le_refl _, le_refl _⟩
  have hsame := parseLines_same rd wf hwf lines _ _ hrefl
  unfold Cnf.parse
  cases h1 : parseLines rd wf (ParseState.init d0 wf) lines with
  | none =>
    cases h2 : parseLines rd wf (ParseState.init d0 wf) (lines.filter notVpLine) with
    | none => rfl
    | some b => rw [h1, h2] at hsame; exact hsame.elim
  | some a =>
    cases h2 : parseLines rd wf (ParseState.init d0 wf) (lines.filter notVpLine) with
    | none => rw [h1, h2] at hsame; exact hsame.elim
    | some b =>
      rw [h1, h2] at hsame
      simp only
      exact (finalize_same wf a b hsame).symm

/-- C12: in every dialect other than WPCNF, for every input on which parsing
succeeds with declared variable count `n`, `additiveVars` is exactly
`{1, ..., n}` and `getDisjunctiveVars` is empty; and every input with the same
lines apart from `vp` lines is parsed to the same formula. -/
theorem C12_additive_all_unless_wpcnf (rd : NumReader) (d0 : Int) (wf : WeightFormat)
    (lines : List (List String)) (f : Cnf) (warned : List Int)
    (hwf : wf ≠ WeightFormat.WPCNF)
    (h : Cnf.parse rd d0 wf lines = some (f, warned)) :
    f.additiveVars = varRange f.declaredVarCount ∧
    (∀ x, x ∈ f.additiveVars ↔ 1 ≤ x ∧ x ≤ f.declaredVarCount) ∧
    f.getDisjunctiveVars = [] ∧
    (∀ lines2 : List (List String), lines2.filter notVpLine = lines.filter notVpLine →
      Cnf.parse rd d0 wf lines2 = some (f, warned)) := by
  have hadd : f.additiveVars = varRange f.declaredVarCount := by
    obtain ⟨st, hst, hfin⟩ := parse_unfold rd d0 wf lines _ h
    obtain ⟨_, _, hd, _, _, _⟩ := finalize_fields wf st f warned hfin
    have hfa := finalize_additiveVars wf st f warned hfin
    have hempty : st.cnf.additiveVars = [] := by
      have key : ∀ (ls : List (List String)) (s s2 : ParseState),
          s.cnf.additiveVars = [] → parseLines rd wf s ls = some s2 →
          s2.cnf.additiveVars = [] := by
        intro ls
        induction ls with
        | nil =>
          intro s s2 hs hp
          simp only [parseLines, Option.some.injEq] at hp
          rw [← hp]; exact hs
        | cons words rest ih =>
          intro s s2 hs hp
          rw [parseLines_cons] at hp
          cases hstep : processLine rd wf s words with
          | none => rw [hstep] at hp; exact Option.noConfusion hp
          | some s1 =>
            rw [hstep] at hp
            refine ih s1 s2 ?_ hp
            rcases processLine_cases rd wf s s1 words hstep with
              ⟨_, rfl⟩ | ⟨w, ws, _, _, hb⟩ | ⟨w, ws, _, _, hb⟩ | ⟨w, ws, _, _, _, hb⟩ |
              ⟨w, ws, _, _, _, hb⟩ | ⟨w, ws, _, _, hb⟩
            · exact hs
            · obtain ⟨_, n, m, rfl⟩ := problemLine_result rd _ s1 words hb
              exact hs
            · rcases vpLine_result rd wf _ s1 words hb with ⟨_, rfl⟩ | ⟨hc, _⟩
              · exact hs
              · exact absurd hc hwf
            · rcases commentLine_result rd wf _ s1 words hb with rfl | ⟨_, _, lw, rfl⟩
              · exact hs
              · exact hs
            · obtain ⟨_, _, _, k, weight, _, _, _, _, _, _, _, _, rfl⟩ :=
                weightLine_result rd wf _ s1 words hb
              exact hs
            · rcases clauseLine_result rd _ s1 words hb with ⟨_, rfl | ⟨c, rfl⟩⟩
              · exact hs
              · simp only [addClause_additiveVars]
                exact hs
      exact key lines _ st rfl hst
    rw [hfa, if_pos hwf, hempty, hd]
    exact foldl_insert_nil_of_nodup _ (varRange_nodup _)
  refine ⟨hadd, ?_, ?_, ?_⟩
  · intro x
    rw [hadd, mem_varRange]
  · rw [List.eq_nil_iff_forall_not_mem]
    intro x hx
    obtain ⟨hr, hn⟩ := (mem_getDisjunctiveVars f x).mp hx
    apply hn
    rw [hadd, mem_varRange]
    exact hr
  · intro lines2 hl
    rw [← parse_filter_vp rd d0 wf hwf lines2, hl, parse_filter_vp rd d0 wf hwf lines]
    exact h

end Addmc

namespace Addmc

/-! ## The statements about the additive variables at concrete inputs -/

/-- C11 at the input `p wpcnf 3 1 / vp 1 3 0 / w 2 0.5 0 / w -2 0.5 0 / 1 2 3 0`. -/
theorem C11_additive_partition_witness :
    (∀ x ∈ exampleWpcnfCnf.additiveVars, 1 ≤ x ∧ x ≤ exampleWpcnfCnf.declaredVarCount) ∧
    (∀ x, ¬ (x ∈ exampleWpcnfCnf.additiveVars ∧ x ∈ exampleWpcnfCnf.getDisjunctiveVars)) ∧
    (∀ x, (x ∈ exampleWpcnfCnf.additiveVars ∨ x ∈ exampleWpcnfCnf.getDisjunctiveVars) ↔
      (1 ≤ x ∧ x ≤ exampleWpcnfCnf.declaredVarCount)) ∧
    (WeightFormat.WPCNF = WeightFormat.WPCNF →
      ∀ x, x ∈ exampleWpcnfCnf.additiveVars ↔ x ∈ vpNumbers decimalReader exampleWpcnfLines) :=
  C11_additive_partition decimalReader 0 WeightFormat.WPCNF exampleWpcnfLines
    exampleWpcnfCnf [] (by decide) (by decide!)

/-- C12 at the input `p cnf 3 2 / 1 -2 0 / 2 3 0`, UNWEIGHTED. -/
theorem C12_additive_all_unless_wpcnf_witness :
    exampleUnweightedCnf.additiveVars = varRange exampleUnweightedCnf.declaredVarCount ∧
    (∀ x, x ∈ exampleUnweightedCnf.additiveVars ↔
      1 ≤ x ∧ x ≤ exampleUnweightedCnf.declaredVarCount) ∧
    exampleUnweightedCnf.getDisjunctiveVars = [] ∧
    (∀ lines2 : List (List String),
      lines2.filter notVpLine = exampleUnweightedLines.filter notVpLine →
      Cnf.parse decimalReader 0 WeightFormat.UNWEIGHTED lines2
        = some (exampleUnweightedCnf, [])) :=
  C12_additive_all_unless_wpcnf decimalReader 0 WeightFormat.UNWEIGHTED
    exampleUnweightedLines exampleUnweightedCnf [] (by decide) (by decide)

/-! ## LEX-M: the subgraph is not rebuilt -/

/-- C17 does not hold of the code: for the clauses `[[1,2],[1,3]]` (Gaifman
edges 1-2 and 1-3), in the first iteration (`v = 1`, `i = 3`, the unnumbered
vertices 2 and 3 with empty labels) the loop of the source leaves the label
of 3 empty, because vertex 3 was removed from the subgraph while 2 was
handled; with the subgraph rebuilt for every `w`, 3 is reached from 1 and
gets the number 3. -/
theorem C17_subgraph_carried_over :
    (Cnf.ofClauses 0 [[1, 2], [1, 3]]).getGaifmanGraph
      = { vertices := [1, 2, 3], edges := [(1, 2), (1, 3)] } ∧
    maxElement (initialLabels (Cnf.ofClauses 0 [[1, 2], [1, 3]]).apparentVars)
      = some (1, []) ∧
    (lexmInner 1 3 [1] [2, 3] (Cnf.ofClauses 0 [[1, 2], [1, 3]]).getGaifmanGraph
      [(2, []), (3, [])]).2 = [(2, [3]), (3, [])] ∧
    (lexmSubgraphSpec (Cnf.ofClauses 0 [[1, 2], [1, 3]]).getGaifmanGraph 1 3
      [(2, [3]), (3, [])] []).hasPath 1 3 = true ∧
    lexmInnerSpec (Cnf.ofClauses 0 [[1, 2], [1, 3]]).getGaifmanGraph 1 3 [2, 3]
      [(2, []), (3, [])] = [(2, [3]), (3, [3])] ∧
    lexmLoop (Cnf.ofClauses 0 [[1, 2], [1, 3]]) 3
        (initialLabels (Cnf.ofClauses 0 [[1, 2], [1, 3]]).apparentVars) []
      = lexmLoop (Cnf.ofClauses 0 [[1, 2], [1, 3]]) 2 [(2, [3]), (3, [])] [1] := by
  refine ⟨by decide, by decide, by decide, by decide, by decide, by decide⟩

end Addmc

namespace Addmc

/-! ## The neighbours of a vertex are listed once -/

theorem addEdge_edgesDistinct (g : Graph) (a b : Int) (h : g.EdgesDistinct) :
    (g.addEdge a b).EdgesDistinct := by
  unfold Graph.addEdge
  split
  · exact h
  · rename_i hc
    simp only [not_or, not_not, Bool.not_eq_true] at hc
    obtain ⟨_, hn, _, _⟩ := hc
    unfold Graph.EdgesDistinct
    simp only
    rw [List.pairwise_append]
    refine ⟨h, List.pairwise_singleton _ _, ?_⟩
    intro e he e2 he2
    simp only [List.mem_singleton] at he2
    subst he2
    rintro (⟨h1, h2⟩ | ⟨h1, h2⟩)
    · have : g.isNeighbor a b = true := by
        rw [Graph.isNeighbor_iff]
        left
        have : e = (a, b) := Prod.ext h1 h2
        rw [← this]; exact he
      rw [hn] at this
      exact Bool.false_ne_true this
    · have : g.isNeighbor a b = true := by
        rw [Graph.isNeighbor_iff]
        right
        have : e = (b, a) := Prod.ext h1 h2
        rw [← this]; exact he
      rw [hn] at this
      exact Bool.false_ne_true this

theorem foldl_addEdge_edgesDistinct (ps : List (Int × Int)) (g : Graph) (φ : Int → Int)
    (h : g.EdgesDistinct) :
    (ps.foldl (fun g p => g.addEdge (φ p.1) (φ p.2)) g).EdgesDistinct := by
  induction ps generalizing g with
  | nil => exact h
  | cons p ps ih => simp only [List.foldl_cons]; exact ih _ (addEdge_edgesDistinct g _ _ h)

theorem gaifman_edgesDistinct (f : Cnf) : f.getGaifmanGraph.EdgesDistinct := by
  unfold Cnf.getGaifmanGraph
  simp only
  have key : ∀ (cs : List (List Int)) (g : Graph), g.EdgesDistinct →
      (cs.foldl addClauseEdges g).EdgesDistinct := by
    intro cs
    induction cs with
    | nil => intro g hg; exact hg
    | cons c cs ih =>
      intro g hg
      simp only [List.foldl_cons]
      exact ih _ (foldl_addEdge_edgesDistinct _ g getCnfVar hg)
  apply key
  unfold Graph.EdgesDistinct Graph.ofVertices
  exact List.Pairwise.nil

theorem neighbors_nodup (g : Graph) (h : g.EdgesDistinct) (v : Int) :
    (g.neighbors v).Nodup := by
  unfold Graph.neighbors
  apply List.Pairwise.filterMap _ _ h
  intro e e2 hne b hb b2 hb2 hbb
  apply hne
  simp only [Option.mem_def] at hb hb2
  subst hbb
  split at hb
  · rename_i h1
    simp only [Option.some.injEq] at hb
    split at hb2
    · rename_i h2
      simp only [Option.some.injEq] at hb2
      exact Or.inl ⟨h1.trans h2.symm, hb.trans hb2.symm⟩
    · split at hb2
      · rename_i h2 h3
        simp only [Option.some.injEq] at hb2
        exact Or.inr ⟨h1.trans h3.symm, hb.trans hb2.symm⟩
      · exact Option.noConfusion hb2
  · split at hb
    · rename_i h0 h1
      simp only [Option.some.injEq] at hb
      split at hb2
      · rename_i h2
        simp only [Option.some.injEq] at hb2
        exact Or.inr ⟨hb.trans hb2.symm, h1.trans h2.symm⟩
      · split at hb2
        · rename_i h2 h3
          simp only [Option.some.injEq] at hb2
          exact Or.inl ⟨hb.trans hb2.symm, h1.trans h3.symm⟩
        · exact Option.noConfusion hb2
    · exact Option.noConfusion hb

theorem mem_neighbors_iff_isNeighbor (g : Graph) (u v : Int) :
    u ∈ g.neighbors v ↔ g.isNeighbor u v = true := by
  rw [Graph.mem_neighbors, Graph.isNeighbor_iff]
  exact Or.comm

/-! ## MCS: the counts and the selection -/

theorem rankedNeighborCount_append (G : Graph) (ranked : List Int) (r u : Int) :
    rankedNeighborCount G (ranked ++ [r]) u =
      rankedNeighborCount G ranked u + (if G.isNeighbor u r = true then 1 else 0) := by
  unfold rankedNeighborCount
  rw [List.filter_append, List.length_append]
  by_cases h : G.isNeighbor u r = true
  · simp [List.filter_cons, h]
  · simp [List.filter_cons, h]

theorem Map.find_of_mem {V : Type} (m : Map V) (hn : m.keys.Nodup) (k : Int) (v : V)
    (h : (k, v) ∈ m) : m.find k = some v := by
  induction m with
  | nil => exact absurd h (List.not_mem_nil _)
  | cons a t ih =>
    obtain ⟨k1, v1⟩ := a
    simp only [Map.keys, List.map_cons, List.nodup_cons] at hn
    unfold Map.find
    rcases List.mem_cons.mp h with h1 | h1
    · simp only [Prod.mk.injEq] at h1
      rw [if_pos h1.1.symm, h1.2]
    · have hk : k1 ≠ k := by
        intro hc
        apply hn.1
        rw [hc]
        exact List.mem_map_of_mem Prod.fst h1
      rw [if_neg hk]
      exact ih hn.2 h1

theorem Map.find_erase {V : Type} (m : Map V) (k k2 : Int) :
    (m.erase k).find k2 = if k2 = k then none else m.find k2 := by
  induction m with
  | nil => simp [Map.erase, Map.find]
  | cons a t ih =>
    obtain ⟨k1, v1⟩ := a
    unfold Map.erase at ih ⊢
    by_cases h1 : k1 = k
    · simp only [List.filter_cons, h1, ne_eq, not_true_eq_false, decide_False,
        Bool.false_eq_true, if_false, ih]
      by_cases h2 : k2 = k
      · simp [h2]
      · have : ¬ k = k2 := fun hc => h2 hc.symm
        simp [h2, Map.find, this]
    · simp only [List.filter_cons, ne_eq, h1, not_false_eq_true, decide_True, if_true]
      unfold Map.find
      by_cases h2 : k1 = k2
      · have : ¬ k2 = k := fun hc => h1 (h2.trans hc)
        simp [h2, this]
      · simp only [h2, if_false]
        exact ih

theorem mcsBump_find (counts : Map Int) (ns : List Int) (u : Int) :
    (mcsBump counts ns).find u = (counts.find u).map (fun c => c + (ns.count u : Int)) := by
  unfold mcsBump
  induction ns generalizing counts with
  | nil => cases h : counts.find u <;> simp [h]
  | cons n ns ih =>
    simp only [List.foldl_cons]
    rw [ih]
    by_cases hnu : n = u
    · subst hnu
      cases hf : counts.find n with
      | none => simp [hf]
      | some c =>
        simp only [Map.find_set, if_true, Option.map_some', List.count_cons_self, Nat.cast_add,
          Nat.cast_one, Option.some.injEq]
        ring
    · have hc : (n :: ns).count u = ns.count u := by
        rw [List.count_cons]
        simp [hnu]
      rw [hc]
      cases hf : counts.find n with
      | none => rfl
      | some c =>
        simp only [Map.find_set, hnu, if_false]

theorem mcsSelect_fold_max (xs : List (Int × Int)) (b : Int × Int) :
    ∀ e ∈ xs,
      e.2 ≤ (xs.foldl (fun b entry => if entry.2 > b.1 then (entry.2, entry.1) else b) b).1 := by
  induction xs generalizing b with
  | nil => intro e he; exact absurd he (List.not_mem_nil _)
  | cons x xs ih =>
    intro e he
    simp only [List.foldl_cons]
    rcases List.mem_cons.mp he with rfl | he
    · refine le_trans ?_ (mcsSelect_fold_ge xs _)
      split
      · exact le_refl _
      · rename_i h
        exact not_lt.mp h
    · exact ih _ e he

theorem mcsSelect_max (counts : Map Int) (bestVertex : Int) :
    ∀ e ∈ counts, e.2 ≤ (mcsSelect counts bestVertex).1 :=
  mcsSelect_fold_max counts _

end Addmc

namespace Addmc

/-- After a vertex has been ranked, the counts of the vertices still unranked
are again their numbers of ranked neighbours. -/
theorem mcs_counts_step (G : Graph) (hG : G.EdgesDistinct) (counts : Map Int) (best : Int)
    (acc : List Int) (hn : counts.keys.Nodup)
    (hcount : ∀ u c, (u, c) ∈ counts → c = (rankedNeighborCount G acc u : Int)) :
    ∀ u c, (u, c) ∈ mcsBump (counts.erase best) (G.neighbors best) →
      c = (rankedNeighborCount G (acc ++ [best]) u : Int) := by
  intro u c hmem
  have hkeys : (mcsBump (counts.erase best) (G.neighbors best)).keys
      = counts.keys.filter (fun y => decide (y ≠ best)) := by
    rw [mcsBump_keys, Map.keys_erase]
  have hnd : (mcsBump (counts.erase best) (G.neighbors best)).keys.Nodup := by
    rw [hkeys]; exact hn.filter _
  have hfind := Map.find_of_mem _ hnd u c hmem
  rw [mcsBump_find, Map.find_erase] at hfind
  by_cases hub : u = best
  · rw [if_pos hub] at hfind
    exact Option.noConfusion hfind
  · rw [if_neg hub] at hfind
    cases hf : counts.find u with
    | none => rw [hf] at hfind; exact Option.noConfusion hfind
    | some c0 =>
      rw [hf] at hfind
      simp only [Option.map_some', Option.some.injEq] at hfind
      have hc0 := hcount u c0 (Map.mem_of_find _ _ _ hf)
      rw [rankedNeighborCount_append, ← hfind, hc0,
        List.count_eq_of_nodup (neighbors_nodup G hG best)]
      by_cases hnb : u ∈ G.neighbors best
      · have := (mem_neighbors_iff_isNeighbor G u best).mp hnb
        simp [hnb, this]
      · have : ¬ G.isNeighbor u best = true :=
          fun hc => hnb ((mem_neighbors_iff_isNeighbor G u best).mpr hc)
        simp [hnb, this]

/-- The invariant of the MCS loop: the counts are the numbers of ranked
neighbours and the vertex to be appended has a largest one; then every vertex
appended from here on has, when it is appended, at least as many ranked
neighbours as every vertex appended after it. -/
theorem mcsLoop_greedy (G : Graph) (hG : G.EdgesDistinct) (fuel : Nat) (counts : Map Int)
    (best : Int) (acc : List Int) (hn : counts.keys.Nodup)
    (hcount : ∀ u c, (u, c) ∈ counts → c = (rankedNeighborCount G acc u : Int))
    (hbest : ∀ u ∈ counts.keys, rankedNeighborCount G acc u ≤ rankedNeighborCount G acc best)
    (hfuel : (counts.keys.filter (fun y => decide (y ≠ best))).length + 1 ≤ fuel) :
    ∃ s, mcsLoop G fuel counts best acc = some (acc ++ s) ∧
      (∀ y ∈ s, y = best ∨ y ∈ counts.keys) ∧
      ∀ s1 x s2, s = s1 ++ x :: s2 → ∀ y ∈ s2,
        rankedNeighborCount G (acc ++ s1) y ≤ rankedNeighborCount G (acc ++ s1) x := by
  induction fuel generalizing counts best acc with
  | zero => omega
  | succ n ih =>
    unfold mcsLoop
    simp only
    have hkeys : (mcsBump (counts.erase best) (G.neighbors best)).keys
        = counts.keys.filter (fun y => decide (y ≠ best)) := by
      rw [mcsBump_keys, Map.keys_erase]
    have hcount2 := mcs_counts_step G hG counts best acc hn hcount
    have hpos2 : ∀ e ∈ mcsBump (counts.erase best) (G.neighbors best), 0 ≤ e.2 := by
      intro e he
      rw [hcount2 e.1 e.2 he]
      exact Int.natCast_nonneg _
    by_cases hempty : mcsBump (counts.erase best) (G.neighbors best) = []
    · rw [hempty, mcsSelect_nil]
      simp only [ne_eq, not_true_eq_false, if_false]
      refine ⟨[best], rfl, ?_, ?_⟩
      · intro y hy
        simp only [List.mem_singleton] at hy
        exact Or.inl hy
      · intro s1 x s2 hs y hy
        cases s1 with
        | nil =>
          simp only [List.nil_append, List.cons.injEq] at hs
          rw [← hs.2] at hy
          exact absurd hy (List.not_mem_nil _)
        | cons a t =>
          simp only [List.cons_append, List.cons.injEq] at hs
          have := hs.2
          cases t <;> simp at this
    · obtain ⟨h1, h2⟩ := mcsSelect_of_ne_nil _ best hempty hpos2
      rw [if_pos h1]
      have hmem : (mcsSelect (mcsBump (counts.erase best) (G.neighbors best)) best).2
          ∈ (mcsBump (counts.erase best) (G.neighbors best)).keys :=
        List.mem_map_of_mem Prod.fst h2
      have hnd : (mcsBump (counts.erase best) (G.neighbors best)).keys.Nodup := by
        rw [hkeys]; exact hn.filter _
      have hperm := nodup_perm_cons_filter _ _ hnd hmem
      have hsel := hcount2 _ _ h2
      have hbest2 : ∀ u ∈ (mcsBump (counts.erase best) (G.neighbors best)).keys,
          rankedNeighborCount G (acc ++ [best]) u ≤
            rankedNeighborCount G (acc ++ [best])
              (mcsSelect (mcsBump (counts.erase best) (G.neighbors best)) best).2 := by
        intro u hu
        obtain ⟨e, he, heu⟩ := List.mem_map.mp hu
        have hle := mcsSelect_max _ best e he
        have hce := hcount2 e.1 e.2 he
        rw [heu] at hce
        rw [hce, hsel] at hle
        exact_mod_cast hle
      obtain ⟨s, hs, hsmem, hsg⟩ := ih (mcsBump (counts.erase best) (G.neighbors best))
        (mcsSelect (mcsBump (counts.erase best) (G.neighbors best)) best).2
        (acc ++ [best]) hnd hcount2 hbest2
        (by
          have := hperm.length_eq
          simp only [List.length_cons] at this
          have hk2 := congrArg List.length hkeys
          omega)
      have hsub : ∀ y ∈ s, y ∈ counts.keys := by
        intro y hy
        have hy2 : y ∈ (mcsBump (counts.erase best) (G.neighbors best)).keys := by
          rcases hsmem y hy with h | h
          · rw [h]; exact hmem
          · exact h
        rw [hkeys] at hy2
        exact (List.mem_filter.mp hy2).1
      refine ⟨best :: s, ?_, ?_, ?_⟩
      · rw [hs, List.append_assoc, List.singleton_append]
      · intro y hy
        rcases List.mem_cons.mp hy with h | h
        · exact Or.inl h
        · exact Or.inr (hsub y h)
      · intro s1 x s2 hsplit y hy
        cases s1 with
        | nil =>
          simp only [List.nil_append, List.cons.injEq] at hsplit
          obtain ⟨hx, hs2⟩ := hsplit
          rw [← hx, List.append_nil]
          apply hbest
          apply hsub
          rw [hs2]
          exact hy
        | cons a t =>
          simp only [List.cons_append, List.cons.injEq] at hsplit
          obtain ⟨ha, ht⟩ := hsplit
          have := hsg t x s2 ht y hy
          rw [← ha]
          simpa [List.append_assoc] using this

theorem rankedNeighborCount_nil (G : Graph) (u : Int) : rankedNeighborCount G [] u = 0 := rfl

theorem mcs_initial_entries (rest : List Int) :
    ∀ e ∈ rest.foldl (fun (m : Map Int) v => m.set v 0) [], e.2 = 0 := by
  have key : ∀ (xs : List Int) (m : Map Int), (∀ e ∈ m, e.2 = 0) →
      ∀ e ∈ xs.foldl (fun (m : Map Int) v => m.set v 0) m, e.2 = 0 := by
    intro xs
    induction xs with
    | nil => intro m hm; exact hm
    | cons x xs ih =>
      intro m hm
      simp only [List.foldl_cons]
      apply ih
      intro e he
      rcases Map.mem_set _ _ _ _ he with h1 | h1
      · exact hm e h1
      · exact h1
  exact key rest [] (by simp)

/-- The MCS ordering of a formula with recorded variables is greedy. -/
theorem mcs_greedy (f : Cnf) (hf : f.VarsRecorded) (k : Nat) :
    ∃ l, f.getMcsVarOrdering (f.apparentVars.length + k) = some l ∧
      ∀ s1 x s2, l = s1 ++ x :: s2 → ∀ y ∈ s2,
        rankedNeighborCount f.getGaifmanGraph s1 y ≤
          rankedNeighborCount f.getGaifmanGraph s1 x := by
  have hv := gaifman_vertices_eq f hf.1
  unfold Cnf.getMcsVarOrdering
  simp only
  rw [hv]
  cases hvars : f.apparentVars with
  | nil =>
    refine ⟨[], rfl, ?_⟩
    intro s1 x s2 h
    cases s1 <;> simp at h
  | cons start rest =>
    simp only
    have hnd := hf.1
    rw [hvars] at hnd
    have hrest : rest.Nodup := (List.nodup_cons.mp hnd).2
    have hstart : start ∉ rest := (List.nodup_cons.mp hnd).1
    obtain ⟨hk, _⟩ := mcs_initial_counts rest
    rw [foldl_insert_nil_of_nodup _ hrest] at hk
    have hfilter : rest.filter (fun y => decide (y ≠ start)) = rest := by
      rw [List.filter_eq_self]
      intro y hy
      simp only [decide_eq_true_eq]
      intro hys
      exact hstart (hys ▸ hy)
    obtain ⟨s, hs, _, hg⟩ := mcsLoop_greedy f.getGaifmanGraph (gaifman_edgesDistinct f)
      ((start :: rest).length + k)
      (rest.foldl (fun (m : Map Int) v => m.set v 0) []) start []
      (by rw [hk]; exact hrest)
      (by
        intro u c hu
        rw [rankedNeighborCount_nil]
        exact mcs_initial_entries rest (u, c) hu)
      (by intro u _; rw [rankedNeighborCount_nil, rankedNeighborCount_nil])
      (by rw [hk, hfilter]; simp only [List.length_cons]; omega)
    refine ⟨s, by simpa using hs, ?_⟩
    intro s1 x s2 h y hy
    simpa using hg s1 x s2 h y hy

end Addmc

namespace Addmc

/-! ## MCS: vertices without a ranked neighbour -/

theorem mcsSelect_stops_iff (counts : Map Int) (bestVertex : Int)
    (h : ∀ e ∈ counts, 0 ≤ e.2) :
    (mcsSelect counts bestVertex).1 = DUMMY_MIN_INT ↔ counts = [] := by
  constructor
  · intro hs
    by_contra hne
    exact (mcsSelect_of_ne_nil counts bestVertex hne h).1 hs
  · intro hc
    rw [hc, mcsSelect_nil]

theorem mcs_all_included (f : Cnf) (hf : f.VarsRecorded) (k : Nat) :
    ∃ l, f.getMcsVarOrdering (f.apparentVars.length + k) = some l ∧
      l.Perm f.apparentVars ∧
      ∀ s1 x s2, l = s1 ++ x :: s2 → rankedNeighborCount f.getGaifmanGraph s1 x = 0 →
        ∀ y ∈ s2, rankedNeighborCount f.getGaifmanGraph s1 y = 0 := by
  obtain ⟨l, hl, hp⟩ := mcs_perm_of_nodup f hf.1 k
  obtain ⟨l2, hl2, hg⟩ := mcs_greedy f hf k
  have hll : l2 = l := by
    rw [hl] at hl2
    exact (Option.some.inj hl2).symm
  subst hll
  refine ⟨l2, hl, hp, ?_⟩
  intro s1 x s2 hs hx y hy
  have := hg s1 x s2 hs y hy
  omega

/-- C18, as the code has it: for every formula, built from a clause list or
returned by the parser, the MCS ordering contains every apparent variable,
whatever component of the Gaifman graph it lies in; a vertex is appended
without a neighbour already in the ordering only when no vertex appended
later has one at that moment; and the loop stops exactly when the map of
unranked vertices is empty. -/
theorem C18_mcs_includes_every_vertex :
    (∀ (d0 : Int) (cs : List (List Int)) (k : Nat),
      ∃ l, (Cnf.ofClauses d0 cs).getMcsVarOrdering
          ((Cnf.ofClauses d0 cs).apparentVars.length + k) = some l ∧
        l.Perm (Cnf.ofClauses d0 cs).apparentVars ∧
        ∀ s1 x s2, l = s1 ++ x :: s2 →
          rankedNeighborCount (Cnf.ofClauses d0 cs).getGaifmanGraph s1 x = 0 →
          ∀ y ∈ s2, rankedNeighborCount (Cnf.ofClauses d0 cs).getGaifmanGraph s1 y = 0) ∧
    (∀ (rd : NumReader) (d0 : Int) (wf : WeightFormat) (lines : List (List String))
      (f : Cnf) (warned : List Int) (k : Nat), Cnf.parse rd d0 wf lines = some (f, warned) →
      ∃ l, f.getMcsVarOrdering (f.apparentVars.length + k) = some l ∧
        l.Perm f.apparentVars ∧
        ∀ s1 x s2, l = s1 ++ x :: s2 → rankedNeighborCount f.getGaifmanGraph s1 x = 0 →
          ∀ y ∈ s2, rankedNeighborCount f.getGaifmanGraph s1 y = 0) ∧
    (∀ (counts : Map Int) (bestVertex : Int), (∀ e ∈ counts, 0 ≤ e.2) →
      ((mcsSelect counts bestVertex).1 = DUMMY_MIN_INT ↔ counts = [])) := by
  refine ⟨?_, ?_, ?_⟩
  · intro d0 cs k
    exact mcs_all_included _ (ofClauses_varsRecorded d0 cs) k
  · intro rd d0 wf lines f warned k h
    exact mcs_all_included f (parse_varsRecorded rd d0 wf lines f warned h) k
  · intro counts bestVertex h
    exact mcsSelect_stops_iff counts bestVertex h

/-- C18 fails as stated: for the clauses `[[1],[2]]` the MCS ordering is
`[1, 2]`, and the vertex 2, which is not the first, has no neighbour in the
Gaifman graph, hence none already in the ordering when it is appended. -/
theorem C18_counterexample :
    (Cnf.ofClauses 0 [[1], [2]]).getMcsVarOrdering 2 = some [1, 2] ∧
    (Cnf.ofClauses 0 [[1], [2]]).getGaifmanGraph.neighbors 2 = [] ∧
    rankedNeighborCount (Cnf.ofClauses 0 [[1], [2]]).getGaifmanGraph [1] 2 = 0 := by
  refine ⟨by decide, by decide, by decide⟩

end Addmc

namespace Addmc

/-! ## Labels: order and `addNumber` -/

end Addmc

namespace Addmc

end Addmc

namespace Addmc

/-! ## Where each weight comes from -/

/-- Outside the MINIC2D dialect an accepted line changes the weight stored for
the key `l` exactly when it is a line `w l p`, and then to `p`. -/
theorem processLine_weight (rd : NumReader) (wf : WeightFormat) (hwf : wf ≠ WeightFormat.MINIC2D)
    (st st2 : ParseState) (words : List String)
    (h : processLine rd wf st words = some st2) (l : Int) :
    st2.cnf.literalWeights.find l =
      match cachetLineWeight rd l words with
      | some p => some p
      | none => st.cnf.literalWeights.find l := by
  unfold processLine at h
  cases words with
  | nil =>
    simp only [Option.some.injEq] at h
    subst h
    rfl
  | cons w ws =>
    simp only at h
    by_cases h1 : w = PROBLEM_WORD
    · rw [if_pos h1] at h
      have hne : w ≠ WEIGHT_WORD := by rw [h1]; decide
      rw [cachetLineWeight_of_ne rd l w ws hne, problemLine_literalWeights rd _ st2 _ h]
    · rw [if_neg h1] at h
      by_cases h2 : w = "vp"
      · rw [if_pos h2] at h
        have hne : w ≠ WEIGHT_WORD := by rw [h2]; decide
        rw [cachetLineWeight_of_ne rd l w ws hne, vpLine_literalWeights rd _ _ st2 _ h]
      · rw [if_neg h2] at h
        by_cases h3 : w = "c"
        · rw [if_pos h3] at h
          have hne : w ≠ WEIGHT_WORD := by rw [h3]; decide
          rw [commentLine_of_not_minic2d rd _ _ _ hwf] at h
          simp only [Option.some.injEq] at h
          subst h
          rw [cachetLineWeight_of_ne rd l w ws hne]
        · rw [if_neg h3] at h
          by_cases h4 : w = WEIGHT_WORD
          · rw [if_pos h4] at h
            obtain ⟨_, w1, w2, k, weight, hw1, hw2, hk, hweight, _, _, _, _, rfl⟩ :=
              weightLine_result rd _ _ st2 _ h
            obtain ⟨rest, hshape⟩ := words_shape (w :: ws) w w1 w2 ws rfl hw1 hw2
            rw [hshape]
            simp only [cachetLineWeight, h4, true_and, hk, Option.some.injEq, Map.find_set]
            by_cases hkl : k = l
            · rw [if_pos hkl, if_pos hkl, hweight]
            · rw [if_neg hkl, if_neg hkl]
          · rw [if_neg h4] at h
            rw [cachetLineWeight_of_ne rd l w ws h4, clauseLine_literalWeights rd _ st2 _ h]

theorem lastLiteralWeight_eq (rd : NumReader) (lines : List (List String)) (l : Int) :
    lastLiteralWeight rd lines l = lastCachetWeight rd lines l := rfl

theorem parseLines_weight (rd : NumReader) (wf : WeightFormat) (hwf : wf ≠ WeightFormat.MINIC2D)
    (lines processed : List (List String)) (st st2 : ParseState)
    (h : parseLines rd wf st lines = some st2)
    (hI : ∀ l, st.cnf.literalWeights.find l = lastLiteralWeight rd processed l) :
    ∀ l, st2.cnf.literalWeights.find l = lastLiteralWeight rd (processed ++ lines) l := by
  induction lines generalizing st processed with
  | nil =>
    simp only [parseLines, Option.some.injEq] at h
    subst h
    simpa using hI
  | cons words rest ih =>
    unfold parseLines at h
    cases hstep : processLine rd wf st words with
    | none => rw [hstep] at h; exact Option.noConfusion h
    | some st1 =>
      rw [hstep] at h
      have := ih (processed ++ [words]) st1 h (by
        intro l
        rw [processLine_weight rd wf hwf st st1 words hstep l, lastLiteralWeight_eq,
          lastCachetWeight_append, hI l, lastLiteralWeight_eq])
      simpa using this

/-- The WCNF and WPCNF completion of one variable `v ≥ 1`: a literal that has
a weight keeps it, a literal that has none gets 1. -/
theorem default_at_value (lw : Map ℚ) (v : Int) (hv : 1 ≤ v) :
    (defaultComplete lw v).find v = some ((lw.find v).getD 1) ∧
    (defaultComplete lw v).find (-v) = some ((lw.find (-v)).getD 1) := by
  have hne : ¬ (-v = v) := by omega
  have hne2 : ¬ (v = -v) := by omega
  unfold defaultComplete
  simp only
  by_cases h1 : lw.find v = none
  · rw [if_pos h1]
    have h3 : (lw.set v 1).find (-v) = lw.find (-v) := by
      rw [Map.find_set, if_neg hne2]
    by_cases h2 : lw.find (-v) = none
    · rw [if_pos (h3.trans h2)]
      refine ⟨?_, ?_⟩
      · rw [Map.find_set, if_neg hne, Map.find_set_self, h1]; rfl
      · rw [Map.find_set_self, h2]; rfl
    · rw [if_neg (fun hc => h2 (h3.symm.trans hc))]
      refine ⟨?_, ?_⟩
      · rw [Map.find_set_self, h1]; rfl
      · rw [h3]
        cases hf : lw.find (-v) with
        | none => exact absurd hf h2
        | some q => rfl
  · rw [if_neg h1]
    have h4 : lw.find v = some ((lw.find v).getD 1) := by
      cases hf : lw.find v with
      | none => exact absurd hf h1
      | some p => rfl
    by_cases h2 : lw.find (-v) = none
    · rw [if_pos h2]
      refine ⟨?_, ?_⟩
      · rw [Map.find_set, if_neg hne]
        exact h4
      · rw [Map.find_set_self, h2]; rfl
    · rw [if_neg h2]
      refine ⟨h4, ?_⟩
      cases hf : lw.find (-v) with
      | none => exact absurd hf h2
      | some q => rfl

/-- After a successful WCNF or WPCNF parse the weight of a literal of a
declared variable is that of the last line `w lit p` for it, and 1 when there
is no such line. -/
theorem literal_weights_of_parse (rd : NumReader) (d0 : Int) (wf : WeightFormat)
    (hwf : wf = WeightFormat.WCNF ∨ wf = WeightFormat.WPCNF)
    (lines : List (List String)) (f : Cnf) (warned : List Int)
    (h : Cnf.parse rd d0 wf lines = some (f, warned))
    (v : Int) (hv1 : 1 ≤ v) (hv2 : v ≤ f.declaredVarCount) :
    f.literalWeights.find v = some ((lastLiteralWeight rd lines v).getD 1) ∧
    f.literalWeights.find (-v) = some ((lastLiteralWeight rd lines (-v)).getD 1) := by
  obtain ⟨st, hst, hfin⟩ := parse_unfold rd d0 _ lines _ h
  obtain ⟨_, _, hd, _, hc, _⟩ := finalize_fields _ st f warned hfin
  have hnm : wf ≠ WeightFormat.MINIC2D := by
    rcases hwf with hx | hx <;> rw [hx] <;> decide
  have htrack := parseLines_weight rd wf hnm lines [] _ st hst (by
    intro l
    simp [ParseState.init, Cnf.init, Map.find, lastLiteralWeight])
  simp only [List.nil_append] at htrack
  have hc2 : f.literalWeights
      = (varRange st.cnf.declaredVarCount).foldl defaultComplete st.cnf.literalWeights := by
    rcases hwf with hx | hx <;> subst hx <;>
      simp only [completeWeights, Option.some.injEq] at hc <;> exact hc.symm
  rw [hd] at hv2
  have hmem : v ∈ varRange st.cnf.declaredVarCount := (mem_varRange _ v).mpr ⟨hv1, hv2⟩
  have hpos : ∀ x ∈ varRange st.cnf.declaredVarCount, 1 ≤ x :=
    fun x hx => ((mem_varRange _ x).mp hx).1
  obtain ⟨lw1, h1, h2, h3, h4⟩ := fold_at _ frame_default _ (varRange_nodup _) hpos
    st.cnf.literalWeights v hmem
  obtain ⟨ha, hb⟩ := default_at_value lw1 v hv1
  rw [hc2, h3, h4, ha, hb, h1, h2, htrack v, htrack (-v)]
  exact ⟨rfl, rfl⟩

/-- After a successful CACHET parse the weights of the two literals of a
declared variable `v` are 1 and 1 when the last line `w v p` has `p = -1`, and
`p` and `1 - p` otherwise, `p` being 1/2 when there is no such line. -/
theorem cachet_weights_of_parse (rd : NumReader) (d0 : Int) (lines : List (List String))
    (f : Cnf) (warned : List Int)
    (h : Cnf.parse rd d0 WeightFormat.CACHET lines = some (f, warned))
    (v : Int) (hv1 : 1 ≤ v) (hv2 : v ≤ f.declaredVarCount) :
    ((lastCachetWeight rd lines v).getD (1 / 2) = -1 →
      f.literalWeights.find v = some 1 ∧ f.literalWeights.find (-v) = some 1) ∧
    ((lastCachetWeight rd lines v).getD (1 / 2) ≠ -1 →
      f.literalWeights.find v = some ((lastCachetWeight rd lines v).getD (1 / 2)) ∧
      f.literalWeights.find (-v) = some (1 - (lastCachetWeight rd lines v).getD (1 / 2))) := by
  obtain ⟨st, hst, hfin⟩ := parse_unfold rd d0 _ lines _ h
  obtain ⟨_, _, hd, _, hc, _⟩ := finalize_fields _ st f warned hfin
  have htrack := parseLines_cachet rd lines [] _ st hst (by
    intro v
    simp [ParseState.init, Cnf.init, Map.find, lastCachetWeight])
  simp only [List.nil_append] at htrack
  simp only [completeWeights, Option.some.injEq] at hc
  rw [hd] at hv2
  have hmem : v ∈ varRange st.cnf.declaredVarCount := (mem_varRange _ v).mpr ⟨hv1, hv2⟩
  have hpos : ∀ x ∈ varRange st.cnf.declaredVarCount, 1 ≤ x :=
    fun x hx => ((mem_varRange _ x).mp hx).1
  obtain ⟨lw1, h1, _, h3, h4⟩ := fold_at _ frame_cachet _ (varRange_nodup _) hpos
    st.cnf.literalWeights v hmem
  rw [hc] at h3 h4
  obtain ⟨ha, hb⟩ := cachet_at lw1 v hv1
  rw [h1, htrack v] at ha hb
  rw [h3, h4]
  exact ⟨ha, hb⟩

/-! ## MINIC2D: the weights line -/

theorem minic2dLoop_frame (rd : NumReader) (words : List String) (vars : List Int)
    (lw lw2 : Map ℚ) (h : minic2dLoop rd words vars lw = some lw2) (k : Int)
    (hk : ∀ x ∈ vars, k ≠ x ∧ k ≠ -x) : lw2.find k = lw.find k := by
  induction vars generalizing lw with
  | nil =>
    simp only [minic2dLoop, Option.some.injEq] at h
    subst h
    rfl
  | cons var vars ih =>
    unfold minic2dLoop at h
    cases h1 : words[(var * 2).toNat]? with
    | none => rw [h1] at h; exact Option.noConfusion h
    | some wp =>
      rw [h1] at h
      simp only at h
      cases h2 : rd.stold wp with
      | none => rw [h2] at h; exact Option.noConfusion h
      | some p =>
        rw [h2] at h
        simp only at h
        cases h3 : words[(var * 2 + 1).toNat]? with
        | none => rw [h3] at h; exact Option.noConfusion h
        | some wn =>
          rw [h3] at h
          simp only at h
          cases h4 : rd.stold wn with
          | none => rw [h4] at h; exact Option.noConfusion h
          | some q =>
            rw [h4] at h
            simp only at h
            obtain ⟨hk1, hk2⟩ := hk var (List.mem_cons_self _ _)
            rw [ih _ h (fun x hx => hk x (List.mem_cons_of_mem _ hx)), Map.find_set,
              if_neg (fun hc => hk2 hc.symm), Map.find_set, if_neg (fun hc => hk1 hc.symm)]

/-- The loop of the MINIC2D weights line gives both literals of every variable
of the loop the numbers read at the positions `2 * v` and `2 * v + 1`. -/
theorem minic2dLoop_spec (rd : NumReader) (words : List String) (vars : List Int)
    (lw lw2 : Map ℚ) (h : minic2dLoop rd words vars lw = some lw2)
    (hnd : vars.Nodup) (hpos : ∀ x ∈ vars, 1 ≤ x) :
    ∀ v ∈ vars, ∃ wp wn p q,
      words[(v * 2).toNat]? = some wp ∧ rd.stold wp = some p ∧
      words[(v * 2 + 1).toNat]? = some wn ∧ rd.stold wn = some q ∧
      lw2.find v = some p ∧ lw2.find (-v) = some q := by
  induction vars generalizing lw with
  | nil => intro v hv; exact absurd hv (List.not_mem_nil v)
  | cons var vars ih =>
    have hloop := h
    unfold minic2dLoop at h
    cases h1 : words[(var * 2).toNat]? with
    | none => rw [h1] at h; exact Option.noConfusion h
    | some wp =>
      rw [h1] at h
      simp only at h
      cases h2 : rd.stold wp with
      | none => rw [h2] at h; exact Option.noConfusion h
      | some p =>
        rw [h2] at h
        simp only at h
        cases h3 : words[(var * 2 + 1).toNat]? with
        | none => rw [h3] at h; exact Option.noConfusion h
        | some wn =>
          rw [h3] at h
          simp only at h
          cases h4 : rd.stold wn with
          | none => rw [h4] at h; exact Option.noConfusion h
          | some q =>
            rw [h4] at h
            simp only at h
            obtain ⟨hx, hxs⟩ := List.nodup_cons.mp hnd
            have hvar1 : 1 ≤ var := hpos var (List.mem_cons_self _ _)
            intro v hv
            rcases List.mem_cons.mp hv with rfl | hv
            · refine ⟨wp, wn, p, q, h1, h2, h3, h4, ?_, ?_⟩
              · rw [minic2dLoop_frame rd words vars _ lw2 h v (by
                  intro y hy
                  have hy1 : 1 ≤ y := hpos y (List.mem_cons_of_mem _ hy)
                  constructor
                  · intro hc; exact hx (hc ▸ hy)
                  · omega)]
                rw [Map.find_set, if_neg (by omega), Map.find_set_self]
              · rw [minic2dLoop_frame rd words vars _ lw2 h (-v) (by
                  intro y hy
                  have hy1 : 1 ≤ y := hpos y (List.mem_cons_of_mem _ hy)
                  constructor
                  · omega
                  · intro hc
                    have : v = y := by omega
                    exact hx (this ▸ hy))]
                rw [Map.find_set_self]
            · exact ih _ h hxs (fun y hy => hpos y (List.mem_cons_of_mem _ hy)) v hv

/-- A comment line in the MINIC2D dialect: nothing changes, or it is the
first weights line, after the header, and the weights are those of its loop. -/
theorem commentLine_minic2d (rd : NumReader) (st st2 : ParseState) (words : List String)
    (h : commentLine rd WeightFormat.MINIC2D st words = some st2) :
    st2 = st ∨
    (words[1]? = some WEIGHTS_WORD ∧ st.problemLineIndex ≠ DUMMY_MIN_INT ∧
      st.minic2dWeightsLineIndex = DUMMY_MIN_INT ∧
      ∃ lw, minic2dLoop rd words (varRange st.cnf.declaredVarCount) st.cnf.literalWeights
          = some lw ∧
        st2 = { st with minic2dWeightsLineIndex := st.lineIndex,
                        cnf := { st.cnf with literalWeights := lw } }) := by
  unfold commentLine at h
  split at h
  · rename_i hc
    split at h
    · exact Option.noConfusion h
    · rename_i hp
      split at h
      · exact Option.noConfusion h
      · rename_i hm
        simp only [ne_eq, not_not] at hm
        split at h
        · exact Option.noConfusion h
        · split at h
          · exact Option.noConfusion h
          · rename_i lw hlw
            simp only [Option.some.injEq] at h
            exact Or.inr ⟨hc.2.2, hp, hm, lw, hlw, h.symm⟩
  · simp only [Option.some.injEq] at h
    exact Or.inl h.symm

theorem minic2dInv_mono (rd : NumReader) (processed : List (List String)) (words : List String)
    (st st2 : ParseState) (hI : Minic2dInv rd processed st)
    (h1 : st2.minic2dWeightsLineIndex = st.minic2dWeightsLineIndex)
    (h2 : st2.cnf.declaredVarCount = st.cnf.declaredVarCount)
    (h3 : st2.cnf.literalWeights = st.cnf.literalWeights) :
    Minic2dInv rd (processed ++ [words]) st2 := by
  intro hm
  rw [h1] at hm
  obtain ⟨ws, hws, hv⟩ := hI hm
  refine ⟨ws, List.mem_append_left _ hws, ?_⟩
  intro v hv1 hv2
  rw [h2] at hv2
  rw [h3]
  exact hv v hv1 hv2

/-- Every line accepted in the MINIC2D dialect maintains `Minic2dInv`. -/
theorem processLine_minic2d (rd : NumReader) (st st2 : ParseState) (words : List String)
    (processed : List (List String)) (hinv : ParseInv WeightFormat.MINIC2D st)
    (h : processLine rd WeightFormat.MINIC2D st words = some st2)
    (hI : Minic2dInv rd processed st) : Minic2dInv rd (processed ++ [words]) st2 := by
  rcases processLine_cases rd _ st st2 words h with ⟨_, rfl⟩ | ⟨w, ws, hw, _, hp⟩ |
    ⟨w, ws, hw, _, hp⟩ | ⟨w, ws, hw, _, hc, hp⟩ | ⟨w, ws, hw, _, _, hp⟩ | ⟨w, ws, hw, _, hp⟩
  · exact minic2dInv_mono rd processed words st _ hI rfl rfl rfl
  · obtain ⟨hd, n, m, rfl⟩ := problemLine_result rd _ st2 words hp
    intro hm
    exact absurd (hinv.before_header hd).2.2.2 hm
  · rcases vpLine_result rd _ _ st2 words hp with ⟨_, rfl⟩ | ⟨hwf, _⟩
    · exact minic2dInv_mono rd processed words st _ hI rfl rfl rfl
    · exact WeightFormat.noConfusion hwf
  · rcases commentLine_minic2d rd _ st2 words hp with rfl | ⟨hw1, _, _, lw, hloop, rfl⟩
    · exact minic2dInv_mono rd processed words st _ hI rfl rfl rfl
    · intro _
      refine ⟨words, by simp, ?_⟩
      intro v hv1 hv2
      simp only at hv2
      obtain ⟨wp, wn, p, q, a1, a2, a3, a4, a5, a6⟩ :=
        minic2dLoop_spec rd words _ _ lw hloop (varRange_nodup _)
          (fun x hx => ((mem_varRange _ x).mp hx).1) v ((mem_varRange _ v).mpr ⟨hv1, hv2⟩)
      refine ⟨p, q, ⟨?_, hw1, wp, wn, a1, a2, a3, a4⟩, a5, a6⟩
      rw [hw, hc]
      rfl
  · obtain ⟨_, _, _, _, _, _, _, _, _, _, _, _, hwf, _⟩ := weightLine_result rd _ _ st2 words hp
    rcases hwf with hx | hx | hx <;> exact WeightFormat.noConfusion hx
  · obtain ⟨_, hr⟩ := clauseLine_result rd _ st2 words hp
    rcases hr with rfl | ⟨c, rfl⟩
    · exact minic2dInv_mono rd processed words st _ hI rfl rfl rfl
    · exact minic2dInv_mono rd processed words st _ hI rfl
        (addClause_declaredVarCount _ _) (addClause_literalWeights _ _)

theorem parseLines_minic2d (rd : NumReader) (lines processed : List (List String))
    (st st2 : ParseState) (hinv : ParseInv WeightFormat.MINIC2D st)
    (h : parseLines rd WeightFormat.MINIC2D st lines = some st2)
    (hI : Minic2dInv rd processed st) : Minic2dInv rd (processed ++ lines) st2 := by
  induction lines generalizing st processed with
  | nil =>
    simp only [parseLines, Option.some.injEq] at h
    subst h
    simpa using hI
  | cons words rest ih =>
    unfold parseLines at h
    cases hstep : processLine rd WeightFormat.MINIC2D st words with
    | none => rw [hstep] at h; exact Option.noConfusion h
    | some st1 =>
      rw [hstep] at h
      have := ih (processed ++ [words]) st1
        (processLine_inv rd _ st st1 words hinv hstep) h
        (processLine_minic2d rd st st1 words processed hinv hstep hI)
      simpa using this

/-- After a successful MINIC2D parse the weights of the two literals of a
declared variable are the numbers that a weights line of the input gives
them. -/
theorem minic2d_weights_of_parse (rd : NumReader) (d0 : Int) (lines : List (List String))
    (f : Cnf) (warned : List Int)
    (h : Cnf.parse rd d0 WeightFormat.MINIC2D lines = some (f, warned))
    (v : Int) (hv1 : 1 ≤ v) (hv2 : v ≤ f.declaredVarCount) :
    ∃ words ∈ lines, ∃ p q, Minic2dLineGives rd words v p q ∧
      f.literalWeights.find v = some p ∧ f.literalWeights.find (-v) = some q := by
  obtain ⟨st, hst, hfin⟩ := parse_unfold rd d0 _ lines _ h
  obtain ⟨_, _, hd, _, hc, _⟩ := finalize_fields _ st f warned hfin
  simp only [completeWeights] at hc
  by_cases hm : st.minic2dWeightsLineIndex = DUMMY_MIN_INT
  · rw [if_pos hm] at hc; exact Option.noConfusion hc
  · rw [if_neg hm] at hc
    simp only [Option.some.injEq] at hc
    have hI := parseLines_minic2d rd lines [] _ st (parseInv_init d0 _) hst (by
      intro h0
      exact absurd rfl h0)
    simp only [List.nil_append] at hI
    obtain ⟨ws, hws, hv⟩ := hI hm
    rw [hd] at hv2
    obtain ⟨p, q, hg, hp, hq⟩ := hv v hv1 hv2
    rw [← hc]
    exact ⟨ws, hws, p, q, hg, hp, hq⟩

/-! ## The sign of the weights -/

/-- C8, as the code has it: after a successful parse in any dialect with
declared variable count `n`, for every `v` in `[1, n]` both literals of `v`
have a weight, and a literal is warned about exactly when its weight is not
strictly positive. Every weight that the parser supplies itself is strictly
positive: 1 for both literals in UNWEIGHTED; in CACHET 1/2 for both literals
when no line `w v p` is given and 1 for both when the last one has `p = -1`;
in WCNF and WPCNF 1 for a literal without a line `w lit p`. Every other weight
is a number of the input, of whatever sign: in CACHET `p` and `1 - p` for the
last line `w v p`; in WCNF and WPCNF the `p` of the last line `w lit p`; in
MINIC2D the tokens `2 * v` and `2 * v + 1` of the weights line. Hence a weight
is strictly positive unless it is such a number of the input. -/
theorem C8_weights_positive_unless_given (rd : NumReader) (d0 : Int) (wf : WeightFormat)
    (lines : List (List String)) (f : Cnf) (warned : List Int)
    (h : Cnf.parse rd d0 wf lines = some (f, warned))
    (v : Int) (hv1 : 1 ≤ v) (hv2 : v ≤ f.declaredVarCount) :
    ∃ p q, f.literalWeights.find v = some p ∧ f.literalWeights.find (-v) = some q ∧
      (0 < p ↔ v ∉ warned) ∧ (0 < q ↔ -v ∉ warned) ∧
      (wf = WeightFormat.UNWEIGHTED → p = 1 ∧ q = 1) ∧
      (wf = WeightFormat.CACHET →
        (lastCachetWeight rd lines v = none → p = 1 / 2 ∧ q = 1 / 2) ∧
        (lastCachetWeight rd lines v = some (-1) → p = 1 ∧ q = 1) ∧
        (∀ w, lastCachetWeight rd lines v = some w → w ≠ -1 → p = w ∧ q = 1 - w)) ∧
      (wf = WeightFormat.WCNF ∨ wf = WeightFormat.WPCNF →
        (lastLiteralWeight rd lines v = none → p = 1) ∧
        (∀ w, lastLiteralWeight rd lines v = some w → p = w) ∧
        (lastLiteralWeight rd lines (-v) = none → q = 1) ∧
        (∀ w, lastLiteralWeight rd lines (-v) = some w → q = w)) ∧
      (wf = WeightFormat.MINIC2D → ∃ words ∈ lines, Minic2dLineGives rd words v p q) ∧
      (0 < p ∨
        (wf = WeightFormat.MINIC2D ∧ ∃ words ∈ lines, Minic2dLineGives rd words v p q) ∨
        (wf = WeightFormat.CACHET ∧ lastCachetWeight rd lines v = some p) ∨
        ((wf = WeightFormat.WCNF ∨ wf = WeightFormat.WPCNF) ∧
          lastLiteralWeight rd lines v = some p)) ∧
      (0 < q ∨
        (wf = WeightFormat.MINIC2D ∧ ∃ words ∈ lines, Minic2dLineGives rd words v p q) ∨
        (wf = WeightFormat.CACHET ∧
          ∃ w, lastCachetWeight rd lines v = some w ∧ w ≠ -1 ∧ q = 1 - w) ∨
        ((wf = WeightFormat.WCNF ∨ wf = WeightFormat.WPCNF) ∧
          lastLiteralWeight rd lines (-v) = some q)) := by
  obtain ⟨st, hst, hfin⟩ := parse_unfold rd d0 wf lines _ h
  obtain ⟨_, _, hd, _, hc, hw⟩ := finalize_fields wf st f warned hfin
  unfold Cnf.checkLiteralWeights at hw
  obtain ⟨hs1, hs2⟩ := checkLoop_spec _ _ _ hw
  obtain ⟨hm1, hm2⟩ := mem_checked_literals f.declaredVarCount v hv1 hv2
  obtain ⟨p, hp⟩ := hs1 v hm1
  obtain ⟨q, hq⟩ := hs1 (-v) hm2
  have hU : wf = WeightFormat.UNWEIGHTED → p = 1 ∧ q = 1 := by
    intro hwf
    subst hwf
    simp only [completeWeights, Option.some.injEq] at hc
    rw [hd] at hv2
    have hmem : v ∈ varRange st.cnf.declaredVarCount := (mem_varRange _ v).mpr ⟨hv1, hv2⟩
    have hpos : ∀ x ∈ varRange st.cnf.declaredVarCount, 1 ≤ x :=
      fun x hx => ((mem_varRange _ x).mp hx).1
    obtain ⟨lw1, _, _, h3, h4⟩ := fold_at _ frame_unweighted _ (varRange_nodup _) hpos
      st.cnf.literalWeights v hmem
    rw [hc, (unweighted_at lw1 v).1, hp] at h3
    rw [hc, (unweighted_at lw1 v).2, hq] at h4
    simp only [Option.some.injEq] at h3 h4
    exact ⟨h3, h4⟩
  have hC : wf = WeightFormat.CACHET →
      (lastCachetWeight rd lines v = none → p = 1 / 2 ∧ q = 1 / 2) ∧
      (lastCachetWeight rd lines v = some (-1) → p = 1 ∧ q = 1) ∧
      (∀ w, lastCachetWeight rd lines v = some w → w ≠ -1 → p = w ∧ q = 1 - w) := by
    intro hwf
    subst hwf
    obtain ⟨ha, hb⟩ := cachet_weights_of_parse rd d0 lines f warned h v hv1 hv2
    rw [hp, hq] at ha hb
    simp only [Option.some.injEq] at ha hb
    refine ⟨?_, ?_, ?_⟩
    · intro hl
      rw [hl] at hb
      have := hb (by simp only [Option.getD_none]; norm_num)
      simp only [Option.getD_none] at this
      refine ⟨this.1, ?_⟩
      rw [this.2]
      norm_num
    · intro hl
      rw [hl] at ha
      exact ha rfl
    · intro w hl hw1
      rw [hl] at hb
      exact hb hw1
  have hW : wf = WeightFormat.WCNF ∨ wf = WeightFormat.WPCNF →
      (lastLiteralWeight rd lines v = none → p = 1) ∧
      (∀ w, lastLiteralWeight rd lines v = some w → p = w) ∧
      (lastLiteralWeight rd lines (-v) = none → q = 1) ∧
      (∀ w, lastLiteralWeight rd lines (-v) = some w → q = w) := by
    intro hwf
    obtain ⟨ha, hb⟩ := literal_weights_of_parse rd d0 wf hwf lines f warned h v hv1 hv2
    rw [hp] at ha
    rw [hq] at hb
    simp only [Option.some.injEq] at ha hb
    refine ⟨?_, ?_, ?_, ?_⟩
    · intro hl; rw [ha, hl]; rfl
    · intro w hl; rw [ha, hl]; rfl
    · intro hl; rw [hb, hl]; rfl
    · intro w hl; rw [hb, hl]; rfl
  have hM : wf = WeightFormat.MINIC2D →
      ∃ words ∈ lines, Minic2dLineGives rd words v p q := by
    intro hwf
    subst hwf
    obtain ⟨words, hwords, p2, q2, hg, hp2, hq2⟩ :=
      minic2d_weights_of_parse rd d0 lines f warned h v hv1 hv2
    rw [hp] at hp2
    rw [hq] at hq2
    simp only [Option.some.injEq] at hp2 hq2
    subst hp2
    subst hq2
    exact ⟨words, hwords, hg⟩
  refine ⟨p, q, hp, hq, ?_, ?_, hU, hC, hW, hM, ?_, ?_⟩
  · rw [hs2 v]
    constructor
    · rintro h0 ⟨_, w, h1, h2⟩
      rw [hp] at h1
      simp only [Option.some.injEq] at h1
      rw [← h1] at h2
      exact absurd h0 (not_lt.mpr h2)
    · intro hn
      by_contra h0
      exact hn ⟨hm1, p, hp, not_lt.mp h0⟩
  · rw [hs2 (-v)]
    constructor
    · rintro h0 ⟨_, w, h1, h2⟩
      rw [hq] at h1
      simp only [Option.some.injEq] at h1
      rw [← h1] at h2
      exact absurd h0 (not_lt.mpr h2)
    · intro hn
      by_contra h0
      exact hn ⟨hm2, q, hq, not_lt.mp h0⟩
  · cases hwf : wf with
    | MINIC2D => exact Or.inr (Or.inl ⟨rfl, hM hwf⟩)
    | UNWEIGHTED =>
      left
      rw [(hU hwf).1]
      norm_num
    | CACHET =>
      obtain ⟨c1, c2, c3⟩ := hC hwf
      cases hl : lastCachetWeight rd lines v with
      | none =>
        left
        rw [(c1 hl).1]
        norm_num
      | some w =>
        by_cases hw1 : w = -1
        · left
          rw [hw1] at hl
          rw [(c2 hl).1]
          norm_num
        · right; right; left
          rw [(c3 w hl hw1).1]
          exact ⟨rfl, rfl⟩
    | WCNF =>
      obtain ⟨c1, c2, _, _⟩ := hW (Or.inl hwf)
      cases hl : lastLiteralWeight rd lines v with
      | none =>
        left
        rw [c1 hl]
        norm_num
      | some w =>
        right; right; right
        rw [c2 w hl]
        exact ⟨Or.inl rfl, rfl⟩
    | WPCNF =>
      obtain ⟨c1, c2, _, _⟩ := hW (Or.inr hwf)
      cases hl : lastLiteralWeight rd lines v with
      | none =>
        left
        rw [c1 hl]
        norm_num
      | some w =>
        right; right; right
        rw [c2 w hl]
        exact ⟨Or.inr rfl, rfl⟩
  · cases hwf : wf with
    | MINIC2D => exact Or.inr (Or.inl ⟨rfl, hM hwf⟩)
    | UNWEIGHTED =>
      left
      rw [(hU hwf).2]
      norm_num
    | CACHET =>
      obtain ⟨c1, c2, c3⟩ := hC hwf
      cases hl : lastCachetWeight rd lines v with
      | none =>
        left
        rw [(c1 hl).2]
        norm_num
      | some w =>
        by_cases hw1 : w = -1
        · left
          rw [hw1] at hl
          rw [(c2 hl).2]
          norm_num
        · right; right; left
          exact ⟨rfl, w, rfl, hw1, (c3 w hl hw1).2⟩
    | WCNF =>
      obtain ⟨_, _, c1, c2⟩ := hW (Or.inl hwf)
      cases hl : lastLiteralWeight rd lines (-v) with
      | none =>
        left
        rw [c1 hl]
        norm_num
      | some w =>
        right; right; right
        rw [c2 w hl]
        exact ⟨Or.inl rfl, rfl⟩
    | WPCNF =>
      obtain ⟨_, _, c1, c2⟩ := hW (Or.inr hwf)
      cases hl : lastLiteralWeight rd lines (-v) with
      | none =>
        left
        rw [c1 hl]
        norm_num
      | some w =>
        right; right; right
        rw [c2 w hl]
        exact ⟨Or.inr rfl, rfl⟩

/-- C8 fails as stated: the WCNF input `p wcnf 1 0 / w 1 -3` is parsed
successfully with declared variable count 1, and the weight of the literal 1
is -3, which is not strictly positive (the literal is only warned about). -/
theorem C8_counterexample :
    Cnf.parse decimalReader 0 WeightFormat.WCNF [["p", "wcnf", "1", "0"], ["w", "1", "-3"]]
      = some (exampleWcnfCnf, [1]) ∧
    exampleWcnfCnf.declaredVarCount = 1 ∧
    exampleWcnfCnf.literalWeights.find 1 = some (-3) ∧ ¬ ((0 : ℚ) < -3) := by
  refine ⟨by decide, by decide, by decide, by norm_num⟩

/-- C8 at the input of the counterexample, for the variable 1: the weight -3
of the literal 1 is the number of the line `w 1 -3` and goes with a warning;
the literal -1 has no weight line and the weight 1. -/
theorem C8_weights_positive_unless_given_witness :
    ∃ p q, exampleWcnfCnf.literalWeights.find 1 = some p ∧
      exampleWcnfCnf.literalWeights.find (-1) = some q ∧
      (0 < p ↔ (1 : Int) ∉ [1]) ∧ (0 < q ↔ (-1 : Int) ∉ [1]) ∧
      (WeightFormat.WCNF = WeightFormat.UNWEIGHTED → p = 1 ∧ q = 1) ∧
      (WeightFormat.WCNF = WeightFormat.CACHET →
        (lastCachetWeight decimalReader exampleWcnfLines 1 = none → p = 1 / 2 ∧ q = 1 / 2) ∧
        (lastCachetWeight decimalReader exampleWcnfLines 1 = some (-1) → p = 1 ∧ q = 1) ∧
        (∀ w, lastCachetWeight decimalReader exampleWcnfLines 1 = some w → w ≠ -1 →
          p = w ∧ q = 1 - w)) ∧
      (WeightFormat.WCNF = WeightFormat.WCNF ∨ WeightFormat.WCNF = WeightFormat.WPCNF →
        (lastLiteralWeight decimalReader exampleWcnfLines 1 = none → p = 1) ∧
        (∀ w, lastLiteralWeight decimalReader exampleWcnfLines 1 = some w → p = w) ∧
        (lastLiteralWeight decimalReader exampleWcnfLines (-1) = none → q = 1) ∧
        (∀ w, lastLiteralWeight decimalReader exampleWcnfLines (-1) = some w → q = w)) ∧
      (WeightFormat.WCNF = WeightFormat.MINIC2D →
        ∃ words ∈ exampleWcnfLines, Minic2dLineGives decimalReader words 1 p q) ∧
      (0 < p ∨
        (WeightFormat.WCNF = WeightFormat.MINIC2D ∧
          ∃ words ∈ exampleWcnfLines, Minic2dLineGives decimalReader words 1 p q) ∨
        (WeightFormat.WCNF = WeightFormat.CACHET ∧
          lastCachetWeight decimalReader exampleWcnfLines 1 = some p) ∨
        ((WeightFormat.WCNF = WeightFormat.WCNF ∨ WeightFormat.WCNF = WeightFormat.WPCNF) ∧
          lastLiteralWeight decimalReader exampleWcnfLines 1 = some p)) ∧
      (0 < q ∨
        (WeightFormat.WCNF = WeightFormat.MINIC2D ∧
          ∃ words ∈ exampleWcnfLines, Minic2dLineGives decimalReader words 1 p q) ∨
        (WeightFormat.WCNF = WeightFormat.CACHET ∧
          ∃ w, lastCachetWeight decimalReader exampleWcnfLines 1 = some w ∧ w ≠ -1 ∧
            q = 1 - w) ∨
        ((WeightFormat.WCNF = WeightFormat.WCNF ∨ WeightFormat.WCNF = WeightFormat.WPCNF) ∧
          lastLiteralWeight decimalReader exampleWcnfLines (-1) = some q)) :=
  C8_weights_positive_unless_given decimalReader 0 WeightFormat.WCNF
    exampleWcnfLines exampleWcnfCnf [1] (by decide) 1 (by decide) (by decide)

end Addmc

namespace Addmc

/-! ## MCS: the state of the loop at every iteration -/

theorem mcsStates_succ (G : Graph) (fuel : Nat) (counts : Map Int) (best : Int)
    (acc : List Int) :
    mcsStates G (fuel + 1) counts best acc =
      (acc ++ [best], mcsBump (counts.erase best) (G.neighbors best),
        mcsSelect (mcsBump (counts.erase best) (G.neighbors best)) best) ::
      (if (mcsSelect (mcsBump (counts.erase best) (G.neighbors best)) best).1 ≠ DUMMY_MIN_INT
        then mcsStates G fuel (mcsBump (counts.erase best) (G.neighbors best))
          (mcsSelect (mcsBump (counts.erase best) (G.neighbors best)) best).2 (acc ++ [best])
        else []) := rfl

theorem mcsLoop_succ (G : Graph) (fuel : Nat) (counts : Map Int) (best : Int)
    (acc : List Int) :
    mcsLoop G (fuel + 1) counts best acc =
      if (mcsSelect (mcsBump (counts.erase best) (G.neighbors best)) best).1 ≠ DUMMY_MIN_INT
        then mcsLoop G fuel (mcsBump (counts.erase best) (G.neighbors best))
          (mcsSelect (mcsBump (counts.erase best) (G.neighbors best)) best).2 (acc ++ [best])
        else some (acc ++ [best]) := rfl

/-- The states of the MCS loop, from any state in which the counts are the
numbers of ranked neighbours: the loop returns `acc ++ best :: t`, there is
one state for each vertex appended, and at the end of the iteration that
appends the vertex at position `i` of `best :: t` the counts are again the
numbers of ranked neighbours, the keys of the map are the vertices still to
come, and the vertex selected has a largest count and comes next. -/
theorem mcsStates_ok (G : Graph) (hG : G.EdgesDistinct) (fuel : Nat) (counts : Map Int)
    (best : Int) (acc : List Int) (hn : counts.keys.Nodup)
    (hcount : ∀ u c, (u, c) ∈ counts → c = (rankedNeighborCount G acc u : Int))
    (hfuel : (counts.keys.filter (fun y => decide (y ≠ best))).length + 1 ≤ fuel) :
    ∃ t, mcsLoop G fuel counts best acc = some (acc ++ best :: t) ∧
      t.Perm (counts.keys.filter (fun y => decide (y ≠ best))) ∧
      (mcsStates G fuel counts best acc).length = (best :: t).length ∧
      ∀ i st, (mcsStates G fuel counts best acc)[i]? = some st →
        st.1 = acc ++ (best :: t).take (i + 1) ∧
        st.2.1.keys.Perm ((best :: t).drop (i + 1)) ∧
        (∀ u c, (u, c) ∈ st.2.1 → c = (rankedNeighborCount G st.1 u : Int)) ∧
        (∀ u c, (u, c) ∈ st.2.1 → c ≤ st.2.2.1) ∧
        (st.2.1 ≠ [] → (st.2.2.2, st.2.2.1) ∈ st.2.1 ∧
          (best :: t)[i + 1]? = some st.2.2.2) := by
  induction fuel generalizing counts best acc with
  | zero => omega
  | succ n ih =>
    rw [mcsLoop_succ, mcsStates_succ]
    have hkeys : (mcsBump (counts.erase best) (G.neighbors best)).keys
        = counts.keys.filter (fun y => decide (y ≠ best)) := by
      rw [mcsBump_keys, Map.keys_erase]
    have hcount2 := mcs_counts_step G hG counts best acc hn hcount
    have hpos2 : ∀ e ∈ mcsBump (counts.erase best) (G.neighbors best), 0 ≤ e.2 := by
      intro e he
      rw [hcount2 e.1 e.2 he]
      exact Int.natCast_nonneg _
    have hnd : (mcsBump (counts.erase best) (G.neighbors best)).keys.Nodup := by
      rw [hkeys]; exact hn.filter _
    have hmax : ∀ u c, (u, c) ∈ mcsBump (counts.erase best) (G.neighbors best) →
        c ≤ (mcsSelect (mcsBump (counts.erase best) (G.neighbors best)) best).1 :=
      fun u c huc => mcsSelect_max _ best (u, c) huc
    by_cases hempty : mcsBump (counts.erase best) (G.neighbors best) = []
    · have hk0 : counts.keys.filter (fun y => decide (y ≠ best)) = [] := by
        rw [← hkeys, hempty]; rfl
      rw [hempty, mcsSelect_nil]
      simp only [ne_eq, not_true_eq_false, if_false]
      refine ⟨[], rfl, ?_, rfl, ?_⟩
      · rw [hk0]
      · intro i st hst
        cases i with
        | zero =>
          simp only [List.getElem?_cons_zero, Option.some.injEq] at hst
          subst hst
          refine ⟨rfl, List.Perm.refl _, ?_, ?_, ?_⟩
          · intro u c huc; exact absurd huc (List.not_mem_nil _)
          · intro u c huc; exact absurd huc (List.not_mem_nil _)
          · intro hne; exact absurd rfl hne
        | succ k => simp at hst
    · obtain ⟨h1, h2⟩ := mcsSelect_of_ne_nil _ best hempty hpos2
      rw [if_pos h1, if_pos h1]
      have hmem : (mcsSelect (mcsBump (counts.erase best) (G.neighbors best)) best).2
          ∈ (mcsBump (counts.erase best) (G.neighbors best)).keys :=
        List.mem_map_of_mem Prod.fst h2
      have hperm := nodup_perm_cons_filter _ _ hnd hmem
      obtain ⟨t, ht, htperm, htlen, hst⟩ := ih (mcsBump (counts.erase best) (G.neighbors best))
        (mcsSelect (mcsBump (counts.erase best) (G.neighbors best)) best).2
        (acc ++ [best]) hnd hcount2
        (by
          have := hperm.length_eq
          simp only [List.length_cons] at this
          have hk2 := congrArg List.length hkeys
          omega)
      have hkperm : (mcsBump (counts.erase best) (G.neighbors best)).keys.Perm
          ((mcsSelect (mcsBump (counts.erase best) (G.neighbors best)) best).2 :: t) :=
        hperm.trans ((List.Perm.cons _ htperm).symm)
      refine ⟨(mcsSelect (mcsBump (counts.erase best) (G.neighbors best)) best).2 :: t,
        ?_, ?_, ?_, ?_⟩
      · rw [ht, List.append_assoc, List.singleton_append]
      · rw [← hkeys]
        exact hkperm.symm
      · simp only [List.length_cons] at htlen ⊢
        omega
      · intro i st hi
        cases i with
        | zero =>
          simp only [List.getElem?_cons_zero, Option.some.injEq] at hi
          subst hi
          refine ⟨rfl, hkperm, hcount2, hmax, ?_⟩
          intro _
          exact ⟨h2, by simp⟩
        | succ k =>
          simp only [List.getElem?_cons_succ] at hi
          obtain ⟨a1, a2, a3, a4, a5⟩ := hst k st hi
          refine ⟨?_, ?_, a3, a4, ?_⟩
          · rw [a1, List.append_assoc, List.singleton_append]
            rfl
          · exact a2
          · intro hne
            refine ⟨(a5 hne).1, ?_⟩
            rw [List.getElem?_cons_succ]
            exact (a5 hne).2

/-- For a formula with recorded variables `getMcsVarOrdering` returns a
permutation of the apparent variables that is greedy on the numbers of ranked
neighbours, and the loop keeps its invariant at every iteration. -/
theorem mcs_states_of_run (f : Cnf) (hf : f.VarsRecorded) (k : Nat) :
    ∃ l, f.getMcsVarOrdering (f.apparentVars.length + k) = some l ∧
      l.Perm f.apparentVars ∧
      (∀ s1 x s2, l = s1 ++ x :: s2 → ∀ y ∈ s2,
        rankedNeighborCount f.getGaifmanGraph s1 y ≤
          rankedNeighborCount f.getGaifmanGraph s1 x) ∧
      (f.getMcsStates (f.apparentVars.length + k)).length = l.length ∧
      ∀ i st, (f.getMcsStates (f.apparentVars.length + k))[i]? = some st →
        McsStateOk f.getGaifmanGraph l i st := by
  obtain ⟨l, hl, hp⟩ := mcs_perm_of_nodup f hf.1 k
  obtain ⟨l2, hl2, hg⟩ := mcs_greedy f hf k
  have hll : l2 = l := by
    rw [hl] at hl2
    exact (Option.some.inj hl2).symm
  subst hll
  refine ⟨l2, hl, hp, hg, ?_⟩
  have hv := gaifman_vertices_eq f hf.1
  unfold Cnf.getMcsVarOrdering at hl
  unfold Cnf.getMcsStates
  simp only at hl ⊢
  rw [hv] at hl ⊢
  cases hvars : f.apparentVars with
  | nil =>
    rw [hvars] at hl
    simp only [Option.some.injEq] at hl
    subst hl
    refine ⟨rfl, ?_⟩
    intro i st hi
    simp at hi
  | cons start rest =>
    rw [hvars] at hl
    simp only at hl ⊢
    have hnd := hf.1
    rw [hvars] at hnd
    have hrest : rest.Nodup := (List.nodup_cons.mp hnd).2
    have hstart : start ∉ rest := (List.nodup_cons.mp hnd).1
    obtain ⟨hk, _⟩ := mcs_initial_counts rest
    rw [foldl_insert_nil_of_nodup _ hrest] at hk
    have hfilter : rest.filter (fun y => decide (y ≠ start)) = rest := by
      rw [List.filter_eq_self]
      intro y hy
      simp only [decide_eq_true_eq]
      intro hys
      exact hstart (hys ▸ hy)
    obtain ⟨t, ht, _, htlen, hst⟩ := mcsStates_ok f.getGaifmanGraph (gaifman_edgesDistinct f)
      ((start :: rest).length + k)
      (rest.foldl (fun (m : Map Int) v => m.set v 0) []) start []
      (by rw [hk]; exact hrest)
      (by
        intro u c hu
        rw [rankedNeighborCount_nil]
        exact mcs_initial_entries rest (u, c) hu)
      (by rw [hk, hfilter]; simp only [List.length_cons]; omega)
    rw [hl, List.nil_append] at ht
    simp only [Option.some.injEq] at ht
    subst ht
    refine ⟨htlen, ?_⟩
    intro i st hi
    obtain ⟨a1, a2, a3, a4, a5⟩ := hst i st hi
    rw [List.nil_append] at a1
    exact ⟨a1, a2, a3, a4, a5⟩

/-- C19: for every formula, built from a clause list or returned by the
parser, `getMcsVarOrdering` returns an ordering `l` of the apparent variables
(each once) that is greedy on the counts of ranked neighbours: whenever `l` is
`s1 ++ x :: s2`, the vertex `x` has at least as many Gaifman-graph neighbours
among the vertices `s1` before it as every vertex `y` of `s2` after it. The
loop makes one iteration for each vertex of `l`, and at the end of iteration
`i` the ordering built is the first `i + 1` vertices of `l`, the map holds
exactly the vertices still to come, the count kept for each of them is the
number of its neighbours already in the ordering, and the vertex selected has
a largest count and is the next vertex of `l`. -/
theorem C19_mcs_greedy :
    (∀ (d0 : Int) (cs : List (List Int)) (k : Nat),
      ∃ l, (Cnf.ofClauses d0 cs).getMcsVarOrdering
          ((Cnf.ofClauses d0 cs).apparentVars.length + k) = some l ∧
        l.Perm (Cnf.ofClauses d0 cs).apparentVars ∧
        (∀ s1 x s2, l = s1 ++ x :: s2 → ∀ y ∈ s2,
          rankedNeighborCount (Cnf.ofClauses d0 cs).getGaifmanGraph s1 y ≤
            rankedNeighborCount (Cnf.ofClauses d0 cs).getGaifmanGraph s1 x) ∧
        ((Cnf.ofClauses d0 cs).getMcsStates
          ((Cnf.ofClauses d0 cs).apparentVars.length + k)).length = l.length ∧
        ∀ i st, ((Cnf.ofClauses d0 cs).getMcsStates
            ((Cnf.ofClauses d0 cs).apparentVars.length + k))[i]? = some st →
          McsStateOk (Cnf.ofClauses d0 cs).getGaifmanGraph l i st) ∧
    (∀ (rd : NumReader) (d0 : Int) (wf : WeightFormat) (lines : List (List String))
      (f : Cnf) (warned : List Int) (k : Nat), Cnf.parse rd d0 wf lines = some (f, warned) →
      ∃ l, f.getMcsVarOrdering (f.apparentVars.length + k) = some l ∧
        l.Perm f.apparentVars ∧
        (∀ s1 x s2, l = s1 ++ x :: s2 → ∀ y ∈ s2,
          rankedNeighborCount f.getGaifmanGraph s1 y ≤
            rankedNeighborCount f.getGaifmanGraph s1 x) ∧
        (f.getMcsStates (f.apparentVars.length + k)).length = l.length ∧
        ∀ i st, (f.getMcsStates (f.apparentVars.length + k))[i]? = some st →
          McsStateOk f.getGaifmanGraph l i st) := by
  constructor
  · intro d0 cs k
    exact mcs_states_of_run _ (ofClauses_varsRecorded d0 cs) k
  · intro rd d0 wf lines f warned k h
    exact mcs_states_of_run f (parse_varsRecorded rd d0 wf lines f warned h) k

end Addmc
